import Mathlib

/-!
Verification development for the module linker and live-binding propagation
engine of `src/entry.js`.

The JavaScript source is shallowly embedded as executable Lean definitions:

* JS values are the inductive `Value`; the unique sentinel objects
  `INITIAL_VALUE`, `ERROR_GETTER` and `ERROR_STAR` (imported from the
  constants module, which only declares opaque unique tokens) are dedicated
  constructors.  `Object.is` becomes decidable equality: in every execution we
  study, a value compares `Object.is`-equal to another exactly when the model
  values are equal (we never rely on structurally equal but referentially
  distinct objects, and no floating point values occur).
* A module `Entry` becomes the record `EntryRec`, the process-wide state
  (entry cache, module objects, bridged map) becomes `State`.
* Getter functions registered by module bodies are external code; they are
  modelled by the small syntax `GetterFn` which covers the getter shapes the
  engine itself installs (`() => this.exports[name]`,
  `() => this.namespace[name]`) plus opaque external getters that return a
  fixed value or throw.  Setter callbacks are external code whose only
  engine-visible behaviour is their boolean result; that result is the
  `fnResult` field of `Setter`, and each invocation is recorded in a ghost
  event trace.
* The ghost `trace` field of `State` records calls and setter firings; it is
  write-only instrumentation and never influences control flow.
-/

set_option maxHeartbeats 1000000

/-- Update kinds `UPDATE_TYPE_DEFAULT` / `UPDATE_TYPE_INIT` /
`UPDATE_TYPE_LIVE` of `constant/entry.js`. -/
inductive UpdateType where
  | dflt
  | init
  | live
deriving DecidableEq, Repr

/-- Entry types `TYPE_ESM` / `TYPE_CJS` / `TYPE_PSEUDO` / `TYPE_WASM`. -/
inductive EntryType where
  | esm
  | cjs
  | pseudo
  | wasm
deriving DecidableEq, Repr

/-- Load states `LOAD_INCOMPLETE` / `LOAD_INDETERMINATE` / `LOAD_COMPLETED`. -/
inductive LoadState where
  | incomplete
  | indeterminate
  | completed
deriving DecidableEq, Repr

/-- Setter types `SETTER_TYPE_STATIC_IMPORT` / `SETTER_TYPE_DYNAMIC_IMPORT` /
`SETTER_TYPE_EXPORT_FROM` / `SETTER_TYPE_NAMESPACE`. -/
inductive SetterType where
  | staticImport
  | dynamicImport
  | exportFrom
  | nsExport
deriving DecidableEq, Repr

/-- Which of the four namespace proxy views a namespace reference denotes
(`completeNamespace`, `completeMutableNamespace`, `partialNamespace`,
`partialMutableNamespace`). -/
inductive NsViewKind where
  | complete
  | completeMutable
  | part
  | partMutable
deriving DecidableEq, Repr

mutual
/-- JS values as seen by the engine.  `obj` is a plain object holding its own
enumerable data properties; `boolV`/`prim`/`str` are primitives; `undef` is
`undefined`; `nsRef` is one of the four (deferred, cached, hence
reference-stable) namespace proxy objects of an entry; the remaining three
constructors are the unique sentinel tokens from `constant/entry.js`. -/
inductive Value where
  | undef
  | initialValue
  | errorGetter
  | errorStar
  | boolV (b : Bool)
  | prim (n : Nat)
  | str (s : String)
  | obj (props : ValProps)
  | nsRef (eid : Nat) (kind : NsViewKind)

/-- The own enumerable data properties of a plain object, in insertion
order. -/
inductive ValProps where
  | nil
  | cons (key : String) (val : Value) (rest : ValProps)
end

deriving instance DecidableEq for Value
deriving instance Repr for Value

/-- Property lookup on an own-property list. -/
def ValProps.plook : ValProps → String → Option Value
  | .nil, _ => none
  | .cons k v rest, key => if k = key then some v else plook rest key

/-- Property update-or-append: an existing key keeps its position
(JS property insertion order), a new key is appended. -/
def ValProps.pset : ValProps → String → Value → ValProps
  | .nil, key, v => .cons key v .nil
  | .cons k w rest, key, v =>
    if k = key then .cons k v rest else .cons k w (pset rest key v)

/-- Property removal (JS `delete`). -/
def ValProps.premove : ValProps → String → ValProps
  | .nil, _ => .nil
  | .cons k w rest, key =>
    if k = key then rest else .cons k w (premove rest key)

/-- Own enumerable key list, in order. -/
def ValProps.pkeys : ValProps → List String
  | .nil => []
  | .cons k _ rest => k :: pkeys rest

/-- JS truthiness for the modelled values (sentinel tokens are objects and so
truthy). -/
def Value.truthy : Value → Bool
  | .undef => false
  | .boolV b => b
  | .prim n => n ≠ 0
  | .str s => s ≠ ""
  | _ => true

/-- `isObject` of `util/is-object.js`: plain objects only. -/
def Value.isObject : Value → Bool
  | .obj _ => true
  | _ => false

/-- `isObjectLike` of `util/is-object-like.js`: objects and functions.
Function-valued exports are not modelled, so this coincides with
`isObject` here. -/
def Value.isObjectLike : Value → Bool
  | .obj _ => true
  | .nsRef _ _ => true
  | _ => false

/-- Association-list lookup (JS map / plain-object property access). -/
def alook {α : Type} : List (String × α) → String → Option α
  | [], _ => none
  | (k, v) :: rest, key => if k = key then some v else alook rest key

/-- Association-list update-or-append: an existing key keeps its position
(JS property insertion order), a new key is appended. -/
def aset {α : Type} : List (String × α) → String → α → List (String × α)
  | [], key, v => [(key, v)]
  | (k, w) :: rest, key, v =>
    if k = key then (k, v) :: rest else (k, w) :: aset rest key v

/-- Association-list removal (JS `delete`). -/
def aremove {α : Type} : List (String × α) → String → List (String × α)
  | [], _ => []
  | (k, w) :: rest, key =>
    if k = key then rest else (k, w) :: aremove rest key

/-- Nat-keyed association lookup (entry / module tables). -/
def nlook {α : Type} : List (Nat × α) → Nat → Option α
  | [], _ => none
  | (k, v) :: rest, key => if k = key then some v else nlook rest key

/-- Nat-keyed association update-or-append. -/
def nset {α : Type} : List (Nat × α) → Nat → α → List (Nat × α)
  | [], key, v => [(key, v)]
  | (k, w) :: rest, key, v =>
    if k = key then (k, v) :: rest else (k, w) :: nset rest key v

/-- Own-property read of a plain object value: `obj[name]`, `undefined`
when absent or when the base is not an object (the engine only performs
such reads on object bases). -/
def objLookup : Value → String → Value
  | .obj props, name => (props.plook name).getD .undef
  | _, _ => (.undef)

/-- `Reflect.has` / `in` on a plain object value. -/
def objHas : Value → String → Bool
  | .obj props, name => (props.plook name).isSome
  | _, _ => false

/-- Property assignment on a plain object value; assignments to
non-object bases are dropped (sloppy-mode no-op). -/
def objAssign : Value → String → Value → Value
  | .obj props, name, v => .obj (props.pset name v)
  | other, _, _ => other

/-- Property deletion on a plain object value. -/
def objDelete : Value → String → Value
  | .obj props, name => .obj (props.premove name)
  | other, _ => other

/-- `Object.keys` of a plain object value (own enumerable string keys). -/
def objKeys : Value → List String
  | .obj props => props.pkeys
  | _ => []

/-- Build an object value from a key/value list. -/
def mkObj : List (String × Value) → Value
  | l => .obj (l.foldr (fun kv acc => ValProps.cons kv.1 kv.2 acc) .nil)

/-- One data property of a raw namespace-view object, with the attributes
that sealing manipulates. -/
structure NsProp where
  value : Value
  writable : Bool
  configurable : Bool
deriving DecidableEq, Repr

/-- A raw namespace-view object (`_completeNamespace`,
`_completeMutableNamespace`, `_partialNamespace`,
`_partialMutableNamespace`): data properties plus extensibility. -/
structure NsView where
  props : List (String × NsProp)
  extensible : Bool
deriving DecidableEq, Repr

/-- The empty raw namespace object produced by
`toRawModuleNamespaceObject()`. -/
def NsView.empty : NsView := ⟨[], true⟩

/-- A slot of the raw `_namespace` object.  `addGetter` installs accessor
properties delegating to `this.exports` (`accNamed` reads and writes
`exports[name]`; `accDefault` is the `TYPE_CJS` `default` accessor whose
getter returns the whole `exports` and whose setter replaces the slot with a
data property via `setProperty`), while a plain assignment to a missing key
creates an ordinary data property. -/
inductive NsSlot where
  | accNamed
  | accDefault
  | data (p : NsProp)
deriving DecidableEq, Repr

/-- A registered setter descriptor.  `last` is `lastObservedValue`;
`fnResult` is the boolean result the external setter callback reports when
invoked (the callback's only engine-visible behaviour). -/
structure Setter where
  stype : SetterType
  localNames : List String
  parent : Nat
  last : Value
  fnResult : Bool
deriving DecidableEq, Repr

/-- A registered getter.  `const` and `throws` are opaque external getters
(returning a fixed value resp. throwing); `readExport n` is the
entry-installed `() => this.exports[n]`; `readExportOf e n` reads another
entry's exports (the `addGetterFrom` shapes); `readNamespace n` is
`() => this.namespace[n]` as installed by `assignExportsToNamespace` and
`loaded`. -/
inductive GetterFn where
  | const (v : Value)
  | throws
  | readExport (name : String)
  | readExportOf (eid : Nat) (name : String)
  | readNamespace (name : String)
deriving DecidableEq, Repr

/-- Ghost trace events (instrumentation only, never read by the engine). -/
inductive Event where
  | ubCall (eid : Nat) (names : Option (List String)) (ut : UpdateType)
      (seen : Option (List Nat))
  | bodyRun (eid : Nat)
  | setterFired (eid : Nat) (name : String) (stype : SetterType)
      (value lastBefore : Value)
  | parentPending (pid : Nat)
  | loadedCall (eid : Nat)
deriving DecidableEq, Repr

/-- The per-module state of a `module` object (the host loader's record):
only the fields the engine reads. `esmSource` is the classification
`compileData.sourceType === SOURCE_TYPE_MODULE` supplied by the compilation
layer; the package options are the per-scope configuration consumed by the
entry (copied onto it at construction). -/
structure ModuleRec where
  exportsVal : Value
  loadedFlag : Bool
  esmSource : Bool
  nameStr : String
  extnameStr : String
  pkgInterop : Bool
  pkgNamedExports : Bool
  pkgMutableNamespace : Bool
  builtin : Bool
deriving DecidableEq, Repr

/-- The `Entry` record of `entry.js` (the fields the verified algorithms
touch).  `rawNs` is `_namespace`; the four `NsView` fields are the raw
backing objects of the four namespace views; `nsIsProxy` records whether
`this.namespace` currently points at the `TYPE_CJS` interop proxy installed
by the deferred `type` computation rather than at `_namespace`. -/
structure EntryRec where
  changed : Bool
  completeMutableNs : NsView
  completeNs : NsView
  loadedSt : LoadState
  rawNs : List (String × NsSlot)
  nsFinalized : Bool
  partMutableNs : NsView
  partNs : NsView
  builtin : Bool
  children : List (String × Nat)
  circular : Bool
  exportsVal : Value
  extname : String
  getters : List (String × GetterFn)
  importedBindings : List (String × Bool)
  modId : Nat
  nameStr : String
  nsIsProxy : Bool
  pkgInterop : Bool
  pkgNamedExports : Bool
  pkgMutableNamespace : Bool
  setters : List (String × List Setter)
  typ : EntryType
deriving DecidableEq, Repr

/-- Process-wide state: the entry table, the host module objects, the
module-to-entry cache `shared.entry.cache`, the `shared.bridged` map from
exports values to entries, an allocator for entry ids, and the ghost trace. -/
structure State where
  entries : List (Nat × EntryRec)
  modules : List (Nat × ModuleRec)
  entryCache : List (Nat × Nat)
  bridged : List (Value × Nat)
  nextEntryId : Nat
  trace : List Event
deriving DecidableEq, Repr

/-- Append a ghost event. -/
def pushEvent (st : State) (ev : Event) : State :=
  { st with trace := st.trace ++ [ev] }

/-- Replace the record of entry `eid` (identity map when absent); never
changes the set of entry ids. -/
def updateEntry (st : State) (eid : Nat) (f : EntryRec → EntryRec) : State :=
  { st with
    entries := st.entries.map (fun kv => if kv.1 = eid then (kv.1, f kv.2) else kv) }

/-- Replace the record of module `mid`. -/
def updateModule (st : State) (mid : Nat) (f : ModuleRec → ModuleRec) : State :=
  { st with
    modules := st.modules.map (fun kv => if kv.1 = mid then (kv.1, f kv.2) else kv) }

/-- The list of entry ids of a state. -/
def idsOf (st : State) : List Nat := st.entries.map Prod.fst

/-- Value-keyed association lookup (`shared.bridged`). -/
def vlook : List (Value × Nat) → Value → Option Nat
  | [], _ => none
  | (k, v) :: rest, key => if k = key then some v else vlook rest key

/-- Value-keyed association removal. -/
def vremove : List (Value × Nat) → Value → List (Value × Nat)
  | [], _ => []
  | (k, v) :: rest, key => if k = key then rest else (k, v) :: vremove rest key

/-- Insertion into a string-sorted list (for `Array#sort()`). -/
def strInsert (s : String) : List String → List String
  | [] => [s]
  | t :: rest => if s ≤ t then s :: t :: rest else t :: strInsert s rest

/-- `Array#sort()` on string keys. -/
def strSort : List String → List String
  | [] => []
  | s :: rest => strInsert s (strSort rest)

/-- Read `_namespace[name]` directly on the raw namespace object: the
accessor slots installed by `addGetter` delegate to `this.exports`
(`accNamed` reads `exports[name]`, the CJS `default` accessor returns the
whole `exports`), data slots hold their value. -/
def rawNsRead (e : EntryRec) (name : String) : Value :=
  match alook e.rawNs name with
  | none => .undef
  | some .accNamed => objLookup e.exportsVal name
  | some .accDefault => e.exportsVal
  | some (.data p) => p.value

/-- The `get` trap of the deferred-`type` CJS interop proxy installed over
`_namespace` by the `Entry` constructor (lines 221-242): `default` yields the
whole exports, structurally present names read through to the exports
object, anything else reads the raw namespace (hence `undefined`). -/
def typProxyRead (e : EntryRec) (name : String) : Value :=
  if name = "default" then e.exportsVal
  else if (alook e.rawNs name).isSome then objLookup e.exportsVal name
  else (.undef)

/-- Read `this.namespace[name]`: through the CJS interop proxy when it is
installed, directly on `_namespace` otherwise. -/
def nsRead (e : EntryRec) (name : String) : Value :=
  if e.nsIsProxy then typProxyRead e name else rawNsRead e name

/-- Invoke a getter function: external getters return their value or throw;
entry-installed getters read the live exports / namespace of their entry. -/
def evalGetter (st : State) (hostEid : Nat) : GetterFn → Except Unit Value
  | .const v => .ok v
  | .throws => .error ()
  | .readExport name =>
    match nlook st.entries hostEid with
    | some e => .ok (objLookup e.exportsVal name)
    | none => .error ()
  | .readExportOf eid name =>
    match nlook st.entries eid with
    | some e => .ok (objLookup e.exportsVal name)
    | none => .error ()
  | .readNamespace name =>
    match nlook st.entries hostEid with
    | some e => .ok (nsRead e name)
    | none => .error ()

/-- `tryGetter` (lines 1168-1174): invoke a getter, converting any thrown
failure into the `ERROR_GETTER` sentinel.  Call sites that invoke an absent
getter (calling `undefined` throws) are the `none` case. -/
def tryGetter (st : State) (hostEid : Nat) : Option GetterFn → Value
  | none => .errorGetter
  | some g =>
    match evalGetter st hostEid g with
    | .ok v => v
    | .error _ => .errorGetter

/-- `getExportByName` (lines 946-988): the export-resolution policy for a
non-ESM-fast-path exporter entry `e` (with id `eid`), requested `name` and
importing entry `pe`. -/
def getExportByName (st : State) (eid : Nat) (e : EntryRec) (name : String)
    (pe : EntryRec) : Value :=
  let parentIsMJS : Bool := pe.extname = ".mjs"
  let parentNamedExports : Bool := !parentIsMJS && pe.pkgNamedExports
  let noNamedExports : Bool := !parentNamedExports && !(e.typ == .esm)
  if noNamedExports && name == "default" then e.exportsVal
  else if !(name == "*") then
    tryGetter st eid (alook e.getters name)
  else
    let parentMutableNamespace : Bool := !parentIsMJS && pe.pkgMutableNamespace
    let noMutableNamespace : Bool := !parentMutableNamespace || e.extname == ".mjs"
    if noMutableNamespace then
      if noNamedExports then .nsRef eid .part else .nsRef eid .complete
    else
      if noNamedExports then .nsRef eid .partMutable else .nsRef eid .completeMutable

/-- `getExportByNameFast` (lines 990-1010): the resolution path used for ESM
exporters. -/
def getExportByNameFast (st : State) (eid : Nat) (e : EntryRec) (name : String)
    (pe : EntryRec) : Value :=
  if !(name == "*") then
    tryGetter st eid (alook e.getters name)
  else
    let parentMutableNamespace : Bool :=
      !(pe.extname == ".mjs") && pe.pkgMutableNamespace
    let noMutableNamespace : Bool := !parentMutableNamespace || e.extname == ".mjs"
    if noMutableNamespace then .nsRef eid .complete else .nsRef eid .completeMutable

/-- `Entry.prototype.addGetter` (lines 293-352): registers the getter and
defines the matching accessor property on `_namespace` (the CJS `default`
accessor when applicable).  The `getter.id`/`getter.owner` stamping is
metadata no verified algorithm reads, and the renaming of default-exported
anonymous functions mutates a function value's `name` property (function
values are not modelled); both are omitted. -/
def addGetter (st : State) (eid : Nat) (name : String) (g : GetterFn) : State :=
  updateEntry st eid fun e =>
    let slot : NsSlot := if name = "default" ∧ e.typ = .cjs then .accDefault else .accNamed
    { e with getters := aset e.getters name g
             rawNs := aset e.rawNs name slot }

/-- `Entry.prototype.addSetter` (lines 388-414): stamps
`last := INITIAL_VALUE`, `localNames` and `parent` onto the setter (the
model's `Setter` always carries a type, which the registering call site
chose, static-import being the default), appends it to the name's setter
list, and seeds `importedBindings[local] = false` on the parent entry for
every local name not yet present there. -/
def addSetter (st : State) (eid : Nat) (name : String) (localNames : List String)
    (stype : SetterType) (fnResult : Bool) (parentEid : Nat) : State :=
  let s : Setter := ⟨stype, localNames, parentEid, .initialValue, fnResult⟩
  let st := updateEntry st eid fun e =>
    { e with setters :=
        match alook e.setters name with
        | none => aset e.setters name [s]
        | some l => aset e.setters name (l ++ [s]) }
  updateEntry st parentEid fun pe =>
    { pe with importedBindings :=
        localNames.foldl (fun ib n =>
          match alook ib n with
          | none => aset ib n false
          | some _ => ib) pe.importedBindings }

/-- `getExportsObjectKeys` (lines 1012-1039).  For declarative/binary
entries this is `Object.keys`.  For dynamic entries the source walks all own
property names and skips a name only when it is non-enumerable and is
`__esModule`, a function's `prototype`, or an inherited non-enumerable name;
modelled exports objects carry only own enumerable data properties and no
prototype chain (and no function values), so the skip condition never fires
and the walk also returns the own enumerable key list. -/
def getExportsObjectKeys (e : EntryRec) (exported : Value) : List String :=
  if e.typ = .esm ∨ e.typ = .wasm then objKeys exported
  else objKeys exported

/-- `Entry.prototype.assignExportsToNamespace` (lines 424-445): ensure a
`() => this.namespace[name]` getter exists for every candidate exported name
(the CJS `default` excepted), reading the live getter map at each step. -/
def assignExportsToNamespace (st : State) (eid : Nat)
    (names? : Option (List String)) : State :=
  match nlook st.entries eid with
  | none => st
  | some e =>
    if ¬ e.exportsVal.isObjectLike then st
    else
      let isCJS := e.typ = .cjs
      let names := match names? with
        | some ns => ns
        | none =>
          if e.loadedSt = LoadState.completed then e.rawNs.map Prod.fst
          else getExportsObjectKeys e e.exportsVal
      names.foldl (fun st name =>
        match nlook st.entries eid with
        | none => st
        | some e2 =>
          if ¬ (isCJS ∧ name = "default") ∧ (alook e2.getters name).isNone then
            addGetter st eid name (.readNamespace name)
          else st) st

/-- A (data) property descriptor argument to `defineProperty`; `none`
fields are absent descriptor keys. -/
structure PropDesc where
  value : Option Value
  writable : Option Bool
  configurable : Option Bool
deriving DecidableEq, Repr

/-- `Reflect.defineProperty` on a raw namespace-view object, restricted to
the data-property universe those views live in (the relevant clauses of ES
ValidateAndApplyPropertyDescriptor): `none` is a `false` return and performs
no mutation. -/
def viewDefineProperty (ns : NsView) (name : String) (d : PropDesc) :
    Option NsView :=
  match alook ns.props name with
  | none =>
    if ns.extensible then
      some { ns with props := (aset ns.props name
        ⟨d.value.getD .undef, d.writable.getD false, d.configurable.getD false⟩) }
    else none
  | some cur =>
    if d.configurable = some true ∧ cur.configurable = false then none
    else if cur.configurable = false ∧ cur.writable = false ∧ d.writable = some true then
      none
    else if cur.configurable = false ∧ cur.writable = false ∧
        (match d.value with
         | some v => decide (v ≠ cur.value)
         | none => false) = true then none
    else
      some { ns with props := (aset ns.props name
        ⟨d.value.getD cur.value, d.writable.getD cur.writable,
         d.configurable.getD cur.configurable⟩) }

/-- `Reflect.deleteProperty` on a raw namespace-view object: `none` is a
`false` return (non-configurable existing property). -/
def viewDeleteProperty (ns : NsView) (name : String) : Option NsView :=
  match alook ns.props name with
  | none => some ns
  | some cur =>
    if cur.configurable then some { ns with props := aremove ns.props name }
    else none

/-- Sloppy-mode plain assignment `ns[name] = v` on a raw namespace-view
object (used internally by `finalizeNamespace`). -/
def viewAssign (ns : NsView) (name : String) (v : Value) : NsView :=
  match alook ns.props name with
  | some cur =>
    if cur.writable then
      { ns with props := aset ns.props name { cur with value := v } }
    else ns
  | none =>
    if ns.extensible then
      { ns with props := (aset ns.props name ⟨v, true, true⟩) }
    else ns

/-- `Object.seal`: prevent extensions and make every property
non-configurable. -/
def viewSeal (ns : NsView) : NsView :=
  ⟨ns.props.map (fun kv => (kv.1, { kv.2 with configurable := false })), false⟩

/-- `Entry.prototype.finalizeNamespace` (lines 447-496): a no-op once the
namespace is finalized; otherwise seed the complete views with
`INITIAL_VALUE` slots for the sorted current namespace keys, seal the
readonly complete view, and for non-ESM entries seed and seal the partial
views (builtin entries expose their sorted export keys plus `default`,
others only `default`). -/
def finalizeNamespace (st : State) (eid : Nat) : State :=
  match nlook st.entries eid with
  | none => st
  | some e0 =>
    if e0.nsFinalized then st
    else
      updateEntry st eid fun e =>
        let e := { e with nsFinalized := true }
        let names := strSort (e.rawNs.map Prod.fst)
        let e := { e with
          completeMutableNs :=
            names.foldl (fun ns n => viewAssign ns n .initialValue) e.completeMutableNs
          completeNs :=
            viewSeal (names.foldl (fun ns n => viewAssign ns n .initialValue) e.completeNs) }
        if e.typ ≠ .esm then
          let e :=
            if e.builtin then
              let ks0 := objKeys e.exportsVal
              let ks1 := if ¬ objHas e.exportsVal "default" then ks0 ++ ["default"] else ks0
              let ks := strSort ks1
              let pm := (viewDeleteProperty e.partMutableNs "default").getD e.partMutableNs
              let pn := (viewDeleteProperty e.partNs "default").getD e.partNs
              { e with
                partMutableNs := ks.foldl (fun ns n => viewAssign ns n .initialValue) pm
                partNs := ks.foldl (fun ns n => viewAssign ns n .initialValue) pn }
            else
              { e with
                partMutableNs := viewAssign e.partMutableNs "default" .initialValue
                partNs := viewAssign e.partNs "default" .initialValue }
          { e with partNs := viewSeal e.partNs }
        else e

/-- Modelled from the spec: `proxyExports` of `util/proxy-exports.js` is not
under `src/`; per spec §4.5 it wraps the raw exported value behind an export
proxy so that direct named access stays live.  The wrapper is
value-transparent for every read the verified algorithms perform, so it is
modelled as the identity on the entry's exports value. -/
def proxyExports (e : EntryRec) : Value := e.exportsVal

/-- `Entry.prototype.loaded` (lines 498-568), with a ghost `loadedCall`
event pushed on invocation.  `Reflect.defineProperty(exported, "__esModule",
pseudoDescriptor)` installs a non-enumerable marker; property attributes of
plain exports objects are not modelled, so the marker is written as an
ordinary property. -/
def loadedFnGo (st : State) (eid : Nat) : State × LoadState :=
  match nlook st.entries eid with
  | none => (st, .incomplete)
  | some e =>
    if e.loadedSt ≠ .incomplete then (st, e.loadedSt)
    else
      match nlook st.modules e.modId with
      | none => (st, .incomplete)
      | some m =>
        if ¬ m.loadedFlag then
          (updateEntry st eid (fun e2 => { e2 with loadedSt := .incomplete }), .incomplete)
        else
          let allKids := e.children.all (fun kv =>
            match nlook st.entries kv.2 with
            | some ce =>
              match nlook st.modules ce.modId with
              | some cm => cm.loadedFlag
              | none => false
            | none => false)
          if ¬ allKids then
            (updateEntry st eid (fun e2 => { e2 with loadedSt := .incomplete }), .incomplete)
          else if e.typ = .esm ∨ e.typ = .wasm then
            let names := getExportsObjectKeys e e.exportsVal
            let st := updateEntry st eid (fun e2 =>
              { e2 with loadedSt := .completed, nsIsProxy := false })
            let st := assignExportsToNamespace st eid (some names)
            let st :=
              if e.pkgInterop ∧ e.extname ≠ ".mjs" then
                match nlook st.entries eid with
                | none => st
                | some e2 =>
                  let exported := e2.exportsVal
                  if names = ["default"] then
                    updateModule st e2.modId (fun md =>
                      { md with exportsVal := objLookup exported "default" })
                  else if (alook e2.getters "__esModule").isNone then
                    updateEntry st eid (fun e3 =>
                      { e3 with exportsVal := objAssign e3.exportsVal "__esModule" (.boolV true) })
                  else st
              else st
            let st := finalizeNamespace st eid
            (st, .completed)
          else
            let exported0 := m.exportsVal
            let names := getExportsObjectKeys e exported0
            let reclass : Bool :=
              exported0 ≠ .undef ∧ (objLookup exported0 "__esModule").truthy ∧
                e.typ = .cjs ∧ e.pkgInterop
            let st := updateEntry st eid (fun e2 =>
              if reclass then
                { e2 with loadedSt := .completed, nsIsProxy := false, typ := .pseudo }
              else { e2 with loadedSt := .completed })
            let typNow : EntryType := if reclass then .pseudo else e.typ
            let (st, exported) :=
              if typNow = .cjs then
                let st :=
                  if (alook e.getters "default").isNone then
                    addGetter st eid "default" (.readNamespace "default")
                  else st
                match nlook st.entries eid with
                | some e2 => (st, proxyExports e2)
                | none => (st, exported0)
              else (st, exported0)
            let st := updateEntry st eid (fun e3 => { e3 with exportsVal := exported })
            let st := assignExportsToNamespace st eid (some names)
            let st := finalizeNamespace st eid
            (st, .completed)

/-- `Entry.prototype.loaded` entry point: push the ghost call event, then
run the body. -/
def loadedFn (st : State) (eid : Nat) : State × LoadState :=
  loadedFnGo (pushEvent st (.loadedCall eid)) eid

/-- Write `_namespace[name] = value` (assignment through the installed
slots: a named accessor writes `exports[name]`, the CJS default accessor's
setter replaces the slot with a data property via `setProperty`, a data slot
updates its value when writable, an absent key creates a data property). -/
def rawNsWrite (e : EntryRec) (name : String) (v : Value) : EntryRec :=
  match alook e.rawNs name with
  | some .accNamed => { e with exportsVal := objAssign e.exportsVal name v }
  | some .accDefault => { e with rawNs := (aset e.rawNs name (.data ⟨v, true, true⟩)) }
  | some (.data p) =>
    if p.writable then { e with rawNs := (aset e.rawNs name (.data { p with value := v })) }
    else e
  | none => { e with rawNs := (aset e.rawNs name (.data ⟨v, true, true⟩)) }

/-- `runGetter` (lines 1070-1081): refresh one name of the raw namespace
cache from its getter; the export-star-conflict sentinel deletes the cached
name, any other value is written (and marks the entry changed) exactly when
it differs by identity from the cached one. -/
def runGetter (st : State) (eid : Nat) (name : String) : State :=
  match nlook st.entries eid with
  | none => st
  | some e =>
    let value := tryGetter st eid (alook e.getters name)
    if value = .errorStar then
      updateEntry st eid (fun e2 => { e2 with rawNs := aremove e2.rawNs name })
    else
      if (alook e.rawNs name).isNone ∨ rawNsRead e name ≠ value then
        updateEntry st eid (fun e2 => rawNsWrite { e2 with changed := true } name value)
      else st

/-- `runGetters` (lines 1083-1097): declarative entries refresh each
candidate getter; loaded dynamic entries re-derive their visible export
names instead. -/
def runGetters (st : State) (eid : Nat) (names? : Option (List String)) : State :=
  match nlook st.entries eid with
  | none => st
  | some e =>
    if e.typ = .esm then
      let names := names?.getD (e.getters.map Prod.fst)
      names.foldl (fun st n => runGetter st eid n) st
    else
      match nlook st.modules e.modId with
      | some m => if m.loadedFlag then assignExportsToNamespace st eid names? else st
      | none => st

/-- The star-conflict error thrown by the setter pass
(`ERR_EXPORT_STAR_CONFLICT`). -/
inductive UBErr where
  | starConflict (eid : Nat) (name : String)
deriving DecidableEq, Repr

/-- The callback `updateBindings` passes into `runSetters` (lines 625-642):
mark every delivered local name initialized on the setter's parent entry
(unless the delivered value was the error sentinel), and when parents should
be updated, record the parent in the pending map keyed by its module name (a
ghost `parentPending` event marks each recording). -/
def ubCallback (st : State) (s : Setter) (shouldUpdateParents : Bool)
    (pmap : Option (List (String × Nat))) :
    State × Option (List (String × Nat)) :=
  match nlook st.entries s.parent with
  | none => (st, pmap)
  | some pe =>
    let st :=
      if s.last ≠ .errorGetter then
        updateEntry st s.parent (fun p =>
          { p with importedBindings :=
              s.localNames.foldl (fun ib n => aset ib n true) p.importedBindings })
      else st
    if shouldUpdateParents then
      (pushEvent st (.parentPending s.parent),
       some (aset (pmap.getD []) pe.nameStr s.parent))
    else (st, pmap)

/-- The value resolution inside `runSetter` (lines 1116-1118): `none` when
the setter's parent entry is missing from the table (unreachable through
the engine API, which registers setters with existing parent entries). -/
def resolveSetterValue (st : State) (eid : Nat) (name : String) (isESM : Bool)
    (s : Setter) : Option Value :=
  match nlook st.entries eid, nlook st.entries s.parent with
  | some e, some pe =>
    some (if isESM then getExportByNameFast st eid e name pe
          else getExportByName st eid e name pe)
  | _, _ => none

/-- The reverse `while (length--)` loop of `runSetter` (lines 1112-1153),
processing the reversed setter list (head = last registered).  Returns the
updated state, the surviving setters (still reversed), the pending-parents
map, and the star conflict if one was thrown; the conflicting setter is
spliced out before the throw and the not-yet-processed (earlier) setters are
kept untouched. -/
def runSetterGo (eid : Nat) (name : String) (updateType : UpdateType)
    (shouldUpdateParents : Bool) (isESM isLoaded isNsChanged : Bool) :
    List Setter → State → Option (List (String × Nat)) →
    State × List Setter × Option (List (String × Nat)) × Option UBErr
  | [], st, pmap => (st, [], pmap, none)
  | s :: revRest, st, pmap =>
    match resolveSetterValue st eid name isESM s with
    | none =>
      let (st, rest', pmap, err) :=
        runSetterGo eid name updateType shouldUpdateParents isESM isLoaded isNsChanged
          revRest st pmap
      (st, s :: rest', pmap, err)
    | some value =>
      if value = .errorStar then
        (st, revRest, pmap, some (.starConflict eid name))
      else
        let changed : Bool := !(s.stype == .dynamicImport) && !(s.last == value)
        let isDynamicImport : Bool := isLoaded && s.stype == .dynamicImport
        let isExportFrom : Bool := s.stype == .exportFrom
        let isExportNs : Bool := isNsChanged && s.stype == .nsExport
        let isInit : Bool := updateType == .init
        if changed || isDynamicImport || isExportFrom || isExportNs || isInit then
          let s' : Setter := { s with last := value }
          let st := pushEvent st (.setterFired eid name s.stype value s.last)
          let result := s.fnResult
          let keep : Option Setter :=
            if result && isDynamicImport then none else some s'
          let (st, pmap) :=
            if !result && isExportFrom && !changed then (st, pmap)
            else ubCallback st s' shouldUpdateParents pmap
          let (st, rest', pmap, err) :=
            runSetterGo eid name updateType shouldUpdateParents isESM isLoaded isNsChanged
              revRest st pmap
          (st, (match keep with | some k => k :: rest' | none => rest'), pmap, err)
        else
          let (st, rest', pmap, err) :=
            runSetterGo eid name updateType shouldUpdateParents isESM isLoaded isNsChanged
              revRest st pmap
          (st, s :: rest', pmap, err)

/-- `runSetter` (lines 1099-1154): process the registered setters of one
name in reverse registration order, then store the surviving list back. -/
def runSetter (st : State) (eid : Nat) (name : String) (updateType : UpdateType)
    (shouldUpdateParents : Bool) (pmap : Option (List (String × Nat))) :
    State × Option (List (String × Nat)) × Option UBErr :=
  match nlook st.entries eid with
  | none => (st, pmap, none)
  | some e =>
    match alook e.setters name with
    | none => (st, pmap, none)
    | some setters =>
      let isESM := e.typ == .esm
      let isLoaded := e.loadedSt == .completed
      let isNsChanged := e.changed
      let (st, rev', pmap, err) :=
        runSetterGo eid name updateType shouldUpdateParents isESM isLoaded isNsChanged
          setters.reverse st pmap
      let st := updateEntry st eid (fun e2 =>
        { e2 with setters := aset e2.setters name rev'.reverse })
      (st, pmap, err)

/-- The name loop of `runSetters`, aborting on a thrown star conflict. -/
def runSettersGo (eid : Nat) (updateType : UpdateType)
    (shouldUpdateParents : Bool) :
    List String → State → Option (List (String × Nat)) →
    State × Option (List (String × Nat)) × Option UBErr
  | [], st, pmap => (st, pmap, none)
  | n :: rest, st, pmap =>
    let (st, pmap, err) := runSetter st eid n updateType shouldUpdateParents pmap
    match err with
    | some er => (st, pmap, some er)
    | none => runSettersGo eid updateType shouldUpdateParents rest st pmap

/-- `runSetters` (lines 1156-1166). -/
def runSetters (st : State) (eid : Nat) (names? : Option (List String))
    (updateType : UpdateType) (shouldUpdateParents : Bool) :
    State × Option (List (String × Nat)) × Option UBErr :=
  let names := match names? with
    | some l => l
    | none =>
      match nlook st.entries eid with
      | some e => e.setters.map Prod.fst
      | none => []
  runSettersGo eid updateType shouldUpdateParents names st none

/-- The parent update-kind computation of lines 650-654: a non-default kind
becomes live, default stays default. -/
def escalateUpdateType : UpdateType → UpdateType
  | .dflt => .dflt
  | _ => .live

/-- Outcome of a (fuelled) `updateBindings` call. -/
inductive UBStatus where
  | ok
  | threw (e : UBErr)
  | outOfFuel
deriving DecidableEq, Repr

/-- The pending-parent loop at the end of `updateBindings` (lines 665-670),
parameterized over the recursive callee (the one-fuel-less
`updateBindings`): recompute each parent's loaded state, then recurse into
it with the shared visited set, aborting on a non-ok outcome. -/
def runParentsWith
    (ub : Nat → Option (List String) → UpdateType → Option (List Nat) → State →
      State × List Nat × UBStatus) :
    List (String × Nat) → UpdateType → List Nat → State →
    State × List Nat × UBStatus
  | [], _, seen, st => (st, seen, .ok)
  | (_, pid) :: rest, put, seen, st =>
    match loadedFn st pid with
    | (st1, _) =>
      match ub pid none put (some seen) st1 with
      | (st2, seen2, .ok) => runParentsWith ub rest put seen2 st2
      | (st2, seen2, s) => (st2, seen2, s)

/-- `Entry.prototype.updateBindings` (lines 602-673), fuelled: each nested
recursion into a parent spends one unit of fuel, and `outOfFuel` reports
exhaustion (the termination theorem exhibits a sufficient fuel bound for
every state).  Ghost `ubCall` / `bodyRun` events record each invocation and
each executed body.  Returns the final state, the visited set (one shared
mutable `Set` in JS, hence threaded and returned), and the outcome; a thrown
star conflict unwinds immediately (in particular it skips the second
`_changed = false` reset). -/
def ubGo
    (ub : Nat → Option (List String) → UpdateType → Option (List Nat) → State →
      State × List Nat × UBStatus)
    (eid : Nat) (names : Option (List String)) (updateType : UpdateType)
    (seenOpt : Option (List Nat)) (st : State) : State × List Nat × UBStatus :=
  match nlook st.entries eid with
    | none => (st, seenOpt.getD [], .ok)
    | some e =>
      let shouldUpdateParents : Bool :=
        e.circular || updateType == .live || updateType == .init
      let seenHas : Bool :=
        match seenOpt with
        | some s => s.contains eid
        | none => false
      if shouldUpdateParents && seenHas then (st, seenOpt.getD [], .ok)
      else
        let st := pushEvent st (.bodyRun eid)
        let st := updateEntry st eid (fun e2 => { e2 with changed := false })
        let st := runGetters st eid names
        let (st, pmap, err) := runSetters st eid names updateType shouldUpdateParents
        match err with
        | some er => (st, seenOpt.getD [], .threw er)
        | none =>
          let st := updateEntry st eid (fun e2 => { e2 with changed := false })
          match pmap with
          | none => (st, seenOpt.getD [], .ok)
          | some pm =>
            let parentUpdateType := escalateUpdateType updateType
            let seen0 := seenOpt.getD []
            let seen1 := if seen0.contains eid then seen0 else seen0 ++ [eid]
            runParentsWith ub pm parentUpdateType seen1 st

/-- `Entry.prototype.updateBindings` entry point: fuel 0 reports
exhaustion, otherwise push the ghost call event and run the body, spending
one unit of fuel on each nested parent recursion. -/
def updateBindings : Nat → Nat → Option (List String) → UpdateType →
    Option (List Nat) → State → State × List Nat × UBStatus
  | 0, _, _, _, seenOpt, st => (st, seenOpt.getD [], .outOfFuel)
  | fuel + 1, eid, names, updateType, seenOpt, st =>
    ubGo (updateBindings fuel) eid names updateType seenOpt
      (pushEvent st (.ubCall eid names updateType seenOpt))

/-- The argument to `Entry.get` / `Entry.set`: either a module object (a
reference into the module table) or a non-object value. -/
inductive ModArg where
  | nonObject (v : Value)
  | modRef (mid : Nat)
deriving DecidableEq, Repr

/-- The `Entry` constructor (lines 82-250) restricted to the modelled
fields.  The deferred `type` computation resolves from the compilation
layer's classification: ESM sources get `TYPE_ESM`, others `TYPE_CJS`
together with the interop namespace proxy (`nsIsProxy`).  The constructor's
`Entry.get(mod.parent)` link is not modelled (no verified algorithm reads
`entry.parent`); filename bookkeeping is collapsed into the module's
precomputed name and extension. -/
def newEntry (mid : Nat) (m : ModuleRec) : EntryRec :=
  { changed := false
    completeMutableNs := NsView.empty
    completeNs := NsView.empty
    loadedSt := .incomplete
    rawNs := []
    nsFinalized := false
    partMutableNs := NsView.empty
    partNs := NsView.empty
    builtin := m.builtin
    children := []
    circular := false
    exportsVal := m.exportsVal
    extname := m.extnameStr
    getters := []
    importedBindings := []
    modId := mid
    nameStr := m.nameStr
    nsIsProxy := ¬ m.esmSource
    pkgInterop := m.pkgInterop
    pkgNamedExports := m.pkgNamedExports
    pkgMutableNamespace := m.pkgMutableNamespace
    setters := [("*", [])]
    typ := if m.esmSource then .esm else .cjs }

/-- `Entry.set` (lines 287-291): cache the entry for an object module;
a no-op for non-objects. -/
def entrySet (st : State) (mod : ModArg) (eid : Nat) : State :=
  match mod with
  | .nonObject _ => st
  | .modRef mid => { st with entryCache := nset st.entryCache mid eid }

/-- `Entry.get` (lines 252-281): `null` for non-objects; otherwise a cache
hit (possibly substituted through `shared.bridged` for a loaded CJS entry
whose exports value is bridged) or a freshly constructed entry; the result
is always (re)stored in the cache. -/
def entryGet (st : State) (mod : ModArg) : State × Option Nat :=
  match mod with
  | .nonObject _ => (st, none)
  | .modRef mid =>
    match nlook st.modules mid with
    | none => (st, none)
    | some m =>
      let hit :=
        match nlook st.entryCache mid with
        | none =>
          let eid := st.nextEntryId
          let st := { st with
            entries := st.entries ++ [(eid, newEntry mid m)]
            nextEntryId := st.nextEntryId + 1 }
          (st, eid)
        | some eid0 =>
          match nlook st.entries eid0 with
          | none => (st, eid0)
          | some e =>
            if e.loadedSt = LoadState.completed ∧ e.typ = EntryType.cjs then
              match nlook st.modules e.modId with
              | none => (st, eid0)
              | some em =>
                let exported := em.exportsVal
                match vlook st.bridged exported with
                | some foundEid =>
                  ({ st with bridged := vremove st.bridged exported }, foundEid)
                | none => (st, eid0)
            else (st, eid0)
      (entrySet hit.1 mod hit.2, some hit.2)

/-- `Entry.has` (lines 283-285). -/
def entryHas (st : State) (mod : ModArg) : Bool :=
  match mod with
  | .nonObject _ => false
  | .modRef mid => (nlook st.entryCache mid).isSome

/-- A namespace mutation violation error
(`ERR_NS_REDEFINITION` and friends). -/
inductive NsErr where
  | nsRedefinition (name : String)
  | nsDefinition (name : String)
  | nsDeletion (name : String)
  | nsAssignment (name : String)
  | nsExtension (name : String)
deriving DecidableEq, Repr

/-- Result of a proxy trap invocation: a boolean return or a throw. -/
inductive TrapOut where
  | ret (b : Bool)
  | threw (er : NsErr)
deriving DecidableEq, Repr

/-- Which readonly view proxy an immutable trap invocation targets
(`completeNamespace` over `_completeNamespace`, `partialNamespace` over
`_partialNamespace`). -/
inductive ImmSel where
  | complete
  | part
deriving DecidableEq, Repr

/-- The raw backing object of a readonly view. -/
def getImmView (e : EntryRec) : ImmSel → NsView
  | .complete => e.completeNs
  | .part => e.partNs

/-- Replace the raw backing object of a readonly view. -/
def setImmView (e : EntryRec) (sel : ImmSel) (ns : NsView) : EntryRec :=
  match sel with
  | .complete => { e with completeNs := ns }
  | .part => { e with partNs := ns }

/-- Modelled from the spec: `isCalledFromStrictCode` (lines 1052-1068)
inspects the call stack through `error/get-stack-frames.js` and
`util/is-own-path.js`, which are not under `src/`; spec design note §9
directs that this be reinterpreted as an explicit `callerIsStrict : bool`
parameter of namespace operations rather than stack inspection.  The traps
below therefore take the caller's strictness as a parameter. -/
def isCalledFromStrictCode (strict : Bool) : Bool := strict

/-- The `defineProperty` trap of `assignImmutableNamespaceHandlerTraps`
(lines 777-797).  Property names are strings in the model, so the
`Symbol.toStringTag` disjunct of the success return value is always
false. -/
def immDefineProperty (st : State) (eid : Nat) (sel : ImmSel) (name : String)
    (d : PropDesc) (strict : Bool) : State × TrapOut :=
  match nlook st.entries eid with
  | none => (st, .ret false)
  | some e =>
    let ns := getImmView e sel
    let noopForm : Bool :=
      d.writable == some false && d.value == none && (alook ns.props name).isSome
    let applied : Option NsView :=
      if e.nsFinalized ∧ noopForm = false then viewDefineProperty ns name d else none
    match applied with
    | some ns' =>
      (updateEntry st eid (fun e2 => setImmView e2 sel ns'),
       .ret ((alook e.importedBindings name).isSome ∨ d.value = none ∨
         d.value = some .undef))
    | none =>
      if ¬ isCalledFromStrictCode strict then (st, .ret false)
      else if (alook ns.props name).isSome then (st, .threw (.nsRedefinition name))
      else (st, .threw (.nsDefinition name))

/-- The `deleteProperty` trap of `assignImmutableNamespaceHandlerTraps`
(lines 799-809). -/
def immDeleteProperty (st : State) (eid : Nat) (sel : ImmSel) (name : String)
    (strict : Bool) : State × TrapOut :=
  match nlook st.entries eid with
  | none => (st, .ret false)
  | some e =>
    match viewDeleteProperty (getImmView e sel) name with
    | some ns' => (updateEntry st eid (fun e2 => setImmView e2 sel ns'), .ret true)
    | none =>
      if ¬ isCalledFromStrictCode strict then (st, .ret false)
      else (st, .threw (.nsDeletion name))

/-- The `set` trap of `assignImmutableNamespaceHandlerTraps`
(lines 811-821): never mutates. -/
def immSet (st : State) (eid : Nat) (sel : ImmSel) (name : String)
    (strict : Bool) : State × TrapOut :=
  match nlook st.entries eid with
  | none => (st, .ret false)
  | some e =>
    if ¬ isCalledFromStrictCode strict then (st, .ret false)
    else if (alook (getImmView e sel).props name).isSome then
      (st, .threw (.nsAssignment name))
    else (st, .threw (.nsExtension name))

/-- The raw backing object of any of the four views. -/
def getView (e : EntryRec) : NsViewKind → NsView
  | .complete => e.completeNs
  | .completeMutable => e.completeMutableNs
  | .part => e.partNs
  | .partMutable => e.partMutableNs

/-- Replace the raw backing object of any of the four views. -/
def setView (e : EntryRec) (k : NsViewKind) (ns : NsView) : EntryRec :=
  match k with
  | .complete => { e with completeNs := ns }
  | .completeMutable => { e with completeMutableNs := ns }
  | .part => { e with partNs := ns }
  | .partMutable => { e with partMutableNs := ns }

/-- The `preventExtensions` trap of `assignCommonNamespaceHandlerTraps`
(lines 768-771): allowed (and applied) only after finalization. -/
def commonPreventExtensions (st : State) (eid : Nat) (k : NsViewKind) :
    State × TrapOut :=
  match nlook st.entries eid with
  | none => (st, .ret false)
  | some e =>
    if e.nsFinalized then
      (updateEntry st eid (fun e2 =>
        setView e2 k { getView e2 k with extensible := false }), .ret true)
    else (st, .ret false)

/-- Which mutable view proxy a mutable trap invocation targets. -/
inductive MutSel where
  | completeMutable
  | partMutable
deriving DecidableEq, Repr

/-- The raw backing object of a mutable view. -/
def getMutView (e : EntryRec) : MutSel → NsView
  | .completeMutable => e.completeMutableNs
  | .partMutable => e.partMutableNs

/-- The `defineProperty` trap of `assignMutableNamespaceHandlerTraps`
(lines 825-838): rejected before finalization; otherwise writes through to
the exports object (`SafeObject.defineProperty`, modelled as installing the
descriptor's value — property attributes of plain exports objects are not
modelled), then, for a structurally present view key, re-registers the
getter and triggers propagation. -/
def mutDefineProperty (fuel : Nat) (st : State) (eid : Nat) (sel : MutSel)
    (name : String) (d : PropDesc) : State × TrapOut :=
  match nlook st.entries eid with
  | none => (st, .ret false)
  | some e =>
    if ¬ e.nsFinalized then (st, .ret false)
    else
      let st := updateEntry st eid (fun e2 =>
        { e2 with exportsVal := objAssign e2.exportsVal name (d.value.getD .undef) })
      let st :=
        if (alook (getMutView e sel).props name).isSome then
          let st := addGetter st eid name (.readNamespace name)
          (updateBindings fuel eid (some [name]) .dflt none st).1
        else st
      (st, .ret true)

/-- The `deleteProperty` trap of `assignMutableNamespaceHandlerTraps`
(lines 840-851).  `Reflect.deleteProperty` on a plain object exports value
always succeeds (its modelled properties are configurable); on a non-object
exports value the reflective call cannot succeed and the trap reports
false without mutating. -/
def mutDeleteProperty (fuel : Nat) (st : State) (eid : Nat) (sel : MutSel)
    (name : String) : State × TrapOut :=
  match nlook st.entries eid with
  | none => (st, .ret false)
  | some e =>
    match e.exportsVal with
    | .obj _ =>
      let st := updateEntry st eid (fun e2 =>
        { e2 with exportsVal := objDelete e2.exportsVal name })
      let st :=
        if (alook (getMutView e sel).props name).isSome then
          let st := addGetter st eid name (.readNamespace name)
          (updateBindings fuel eid (some [name]) .dflt none st).1
        else st
      (st, .ret true)
    | _ => (st, .ret false)

/-- The `set` trap of `assignMutableNamespaceHandlerTraps`
(lines 900-922).  `util/is-updatable-set.js` is not under `src/`; modelled
from the spec (§4.3: permitted writes go through to the underlying raw
exported object), the write is updatable for the plain data properties of an
object exports value, which is the modelled universe; non-object exports
cannot receive the reflective set. -/
def mutSet (fuel : Nat) (st : State) (eid : Nat) (_sel : MutSel) (name : String)
    (v : Value) : State × TrapOut :=
  match nlook st.entries eid with
  | none => (st, .ret false)
  | some e =>
    match e.exportsVal with
    | .obj _ =>
      let st := updateEntry st eid (fun e2 =>
        { e2 with exportsVal := objAssign e2.exportsVal name v })
      let st :=
        if (alook e.rawNs name).isSome then
          let st := addGetter st eid name (.readNamespace name)
          (updateBindings fuel eid (some [name]) .dflt none st).1
        else st
      (st, .ret true)
    | _ => (st, .ret false)

/-- Result of the common `get` trap: a value, an
`ERR_UNDEFINED_IDENTIFIER` throw, or the propagation of a getter's own
exception (the probe `getters[name]()` is invoked unguarded there). -/
inductive GetOut where
  | val (v : Value)
  | threwUndefinedIdentifier (name : String)
  | threwGetterFailure
deriving DecidableEq, Repr

/-- The `get` trap of `assignCommonNamespaceHandlerTraps` (lines 718-751)
on a readonly view: reading a structurally present key before finalization,
or (for ESM entries) one whose getter is absent or currently yields the
error sentinel, throws `ERR_UNDEFINED_IDENTIFIER`; the partial views
special-case `default` to the whole exports for non-ESM entries; everything
else delegates to the live `entry.namespace`. -/
def commonGet (st : State) (eid : Nat) (sel : ImmSel) (name : String) : GetOut :=
  match nlook st.entries eid with
  | none => .val .undef
  | some e =>
    let isESM := e.typ = .esm
    let errored0 := ¬ e.nsFinalized
    let probe : Option Bool :=
      if isESM ∧ ¬ errored0 then
        match alook e.getters name with
        | none => some true
        | some g =>
          match evalGetter st eid g with
          | .error _ => none
          | .ok v => some (v = .errorGetter)
      else some errored0
    match probe with
    | none => .threwGetterFailure
    | some errored =>
      if errored ∧ (alook (getImmView e sel).props name).isSome then
        .threwUndefinedIdentifier name
      else if ¬ isESM ∧ name = "default" ∧ sel = .part then .val e.exportsVal
      else .val (nsRead e name)

/-! ### Concrete instances

Small concrete states used by the witnesses and counterexamples below.  The
base entry is a loaded, finalized declarative entry with no bindings. -/

/-- A base entry record: loaded, finalized, declarative, no bindings. -/
def baseEntry (nm : String) (typ : EntryType) : EntryRec :=
  { changed := false
    completeMutableNs := NsView.empty
    completeNs := NsView.empty
    loadedSt := .completed
    rawNs := []
    nsFinalized := true
    partMutableNs := NsView.empty
    partNs := NsView.empty
    builtin := false
    children := []
    circular := false
    exportsVal := mkObj []
    extname := ".js"
    getters := []
    importedBindings := []
    modId := 0
    nameStr := nm
    nsIsProxy := false
    pkgInterop := true
    pkgNamedExports := true
    pkgMutableNamespace := false
    setters := [("*", [])]
    typ := typ }

/-- A base module record: loaded, declaratively classified. -/
def baseModule (nm : String) : ModuleRec :=
  ⟨mkObj [], true, true, nm, ".js", true, true, false, false⟩

/-- A state holding the given entries and one module. -/
def mkState (es : List (Nat × EntryRec)) : State :=
  { entries := es
    modules := [(0, baseModule "m")]
    entryCache := []
    bridged := []
    nextEntryId := 100
    trace := [] }

/-- C1 counterexample graph.  Entry 0 (the exporter `D`) has one firing
setter for `x` whose parent is entry 1 (`B`) and one firing setter for `w`
whose parent is entry 3 (`A`); `B` in turn has a firing setter whose parent
is `A`.  During one live propagation from `D`, `A`'s body runs once through
`B`'s recursion and, because `A` fires no setters of its own and is therefore
never added to the visited set, once more through `D`'s own pending-parent
loop. -/
def c1Exporter : EntryRec :=
  { baseEntry "D" .esm with
    getters := [("x", .const (.prim 7)), ("w", .const (.prim 6))]
    rawNs := [("x", .accNamed), ("w", .accNamed)]
    setters := [("*", []),
      ("x", [⟨.staticImport, ["xb"], 1, .initialValue, true⟩]),
      ("w", [⟨.staticImport, ["wa"], 3, .initialValue, true⟩])] }

/-- C1 counterexample: intermediate entry `B` (parent of a setter of `D`,
itself with a firing setter whose parent is `A` = 3). -/
def c1MidB : EntryRec :=
  { baseEntry "B" .esm with
    getters := [("y", .const (.prim 8))]
    rawNs := [("y", .accNamed)]
    setters := [("*", []), ("y", [⟨.staticImport, ["yb"], 3, .initialValue, true⟩])] }

/-- C1 counterexample state. -/
def c1State : State :=
  mkState [(0, c1Exporter), (1, c1MidB), (3, baseEntry "A" .esm)]

/-- Number of `bodyRun` events for an entry in a trace. -/
def bodyRunCount (t : List Event) (eid : Nat) : Nat :=
  (t.filter (fun ev => ev = Event.bodyRun eid)).length

/-- C2 counterexample: an export-from setter (callback reporting failure)
for a constant binding. -/
def c2Entry : EntryRec :=
  { baseEntry "E" .esm with
    getters := [("x", .const (.prim 7))]
    rawNs := [("x", .accNamed)]
    setters := [("*", []), ("x", [⟨.exportFrom, ["lx"], 1, .initialValue, false⟩])] }

/-- C2 counterexample state. -/
def c2State : State := mkState [(0, c2Entry), (1, baseEntry "P" .esm)]

/-- C3 counterexample: a circular entry with a firing static setter whose
parent is entry 1, propagated with the default update kind. -/
def c3Entry : EntryRec :=
  { baseEntry "E" .esm with
    circular := true
    getters := [("x", .const (.prim 7))]
    rawNs := [("x", .accNamed)]
    setters := [("*", []), ("x", [⟨.staticImport, ["lx"], 1, .initialValue, true⟩])] }

/-- C3 counterexample state. -/
def c3State : State := mkState [(0, c3Entry), (1, baseEntry "P" .esm)]

/-- C6 counterexample: a name whose getter yields the export-star-conflict
sentinel, with two registered setters (a diamond import of the conflicting
name), plus an unrelated healthy binding `bar`. -/
def c6Entry : EntryRec :=
  { baseEntry "E" .esm with
    getters := [("foo", .const .errorStar), ("bar", .const (.prim 5))]
    rawNs := [("foo", .accNamed), ("bar", .accNamed)]
    setters := [("*", []),
      ("foo", [⟨.staticImport, ["f1"], 1, .initialValue, true⟩,
               ⟨.staticImport, ["f2"], 2, .initialValue, true⟩])] }

/-- C6 counterexample state. -/
def c6State : State :=
  mkState [(0, c6Entry), (1, baseEntry "P" .esm), (2, baseEntry "Q" .esm)]

/-- C6 witness state for the amended claim: a single setter for the
conflicting name. -/
def c6OneState : State :=
  mkState [(0, { c6Entry with
    setters := [("*", []),
      ("foo", [⟨.staticImport, ["f1"], 1, .initialValue, true⟩])] }),
   (1, baseEntry "P" .esm)]

/-- C7 counterexample entry: a finalized entry whose sealed readonly
complete view holds one (writable, non-configurable) slot `x`. -/
def c7Entry : EntryRec :=
  { baseEntry "V" .esm with
    completeNs := ⟨[("x", ⟨.prim 1, true, false⟩)], false⟩ }

/-- C7 counterexample state. -/
def c7State : State := mkState [(0, c7Entry)]

/-- C8 counterexample: a dynamic (CJS) module whose only visible export is
`default`, CJS interop on, `.js` extension, not yet loaded. -/
def c8CjsEntry : EntryRec :=
  { baseEntry "E" .cjs with
    loadedSt := .incomplete
    nsFinalized := false
    nsIsProxy := true
    exportsVal := mkObj [("default", .prim 42)] }

/-- C8 counterexample module: its `module.exports` is the object holding
only `default`. -/
def c8CjsModule : ModuleRec :=
  ⟨mkObj [("default", .prim 42)], true, false, "E", ".js", true, true, false, false⟩

/-- C8 counterexample state. -/
def c8State : State :=
  { entries := [(0, c8CjsEntry)]
    modules := [(0, c8CjsModule)]
    entryCache := []
    bridged := []
    nextEntryId := 100
    trace := [] }

/-- C8 witness entry for the amended claim: a declarative module whose only
export key is `default`. -/
def c8EsmEntry : EntryRec :=
  { baseEntry "F" .esm with
    loadedSt := .incomplete
    nsFinalized := false
    exportsVal := mkObj [("default", .prim 42)] }

/-- C8 witness state for the amended claim. -/
def c8EsmState : State :=
  { entries := [(0, c8EsmEntry)]
    modules := [(0, baseModule "F")]
    entryCache := []
    bridged := []
    nextEntryId := 100
    trace := [] }

/-- C10 counterexample: exports objects used as bridged keys. -/
def c10ObjA : Value := mkObj [("a", .prim 1)]

/-- C10 counterexample: second bridged exports object. -/
def c10ObjB : Value := mkObj [("b", .prim 2)]

/-- C10 counterexample state: module 0 is cached at entry 5, a loaded CJS
entry whose module exports `c10ObjA`; the bridged map sends `c10ObjA` to
entry 6 (a loaded CJS entry whose module exports `c10ObjB`) and `c10ObjB` to
entry 7, so two consecutive `Entry.get` calls return entries 6 then 7. -/
def c10State : State :=
  { entries :=
      [(5, { baseEntry "e5" .cjs with modId := 0 }),
       (6, { baseEntry "e6" .cjs with modId := 1 }),
       (7, { baseEntry "e7" .esm with modId := 1 })]
    modules :=
      [(0, ⟨c10ObjA, true, false, "m0", ".js", true, true, false, false⟩),
       (1, ⟨c10ObjB, true, false, "m1", ".js", true, true, false, false⟩)]
    entryCache := [(0, 5)]
    bridged := [(c10ObjA, 6), (c10ObjB, 7)]
    nextEntryId := 100
    trace := [] }

/-- A fresh one-module state for the C10 witness. -/
def c10FreshState : State :=
  { entries := []
    modules := [(3, baseModule "m3")]
    entryCache := []
    bridged := []
    nextEntryId := 100
    trace := [] }

/-- A sealed raw view object: non-extensible with only non-configurable
properties (the state `Object.seal` leaves the readonly views in). -/
def ViewSealed (ns : NsView) : Prop :=
  ns.extensible = false ∧ ∀ kv ∈ ns.props, kv.2.configurable = false

/-- The own key lists of the four namespace views of an entry. -/
def ViewKeys (e : EntryRec) : List String × List String × List String × List String :=
  (e.completeNs.props.map Prod.fst, e.completeMutableNs.props.map Prod.fst,
   e.partNs.props.map Prod.fst, e.partMutableNs.props.map Prod.fst)

/-- The operations of the engine's exposed surface (§6): binding
registration, loaded-state recomputation, propagation, the cache accessors
and the namespace proxy traps. -/
inductive EngineOp where
  | opAddGetter (eid : Nat) (name : String) (g : GetterFn)
  | opAddSetter (eid : Nat) (name : String) (localNames : List String)
      (stype : SetterType) (fnResult : Bool) (parentEid : Nat)
  | opAssignExports (eid : Nat) (names : Option (List String))
  | opFinalize (eid : Nat)
  | opLoaded (eid : Nat)
  | opUpdateBindings (fuel : Nat) (eid : Nat) (names : Option (List String))
      (ut : UpdateType) (seen : Option (List Nat))
  | opEntryGet (mod : ModArg)
  | opEntrySet (mod : ModArg) (eid : Nat)
  | opImmDefine (eid : Nat) (sel : ImmSel) (name : String) (d : PropDesc)
      (strict : Bool)
  | opImmDelete (eid : Nat) (sel : ImmSel) (name : String) (strict : Bool)
  | opImmSet (eid : Nat) (sel : ImmSel) (name : String) (strict : Bool)
  | opPreventExtensions (eid : Nat) (k : NsViewKind)
  | opMutDefine (fuel : Nat) (eid : Nat) (sel : MutSel) (name : String)
      (d : PropDesc)
  | opMutDelete (fuel : Nat) (eid : Nat) (sel : MutSel) (name : String)
  | opMutSet (fuel : Nat) (eid : Nat) (sel : MutSel) (name : String) (v : Value)
deriving DecidableEq, Repr

/-- Apply an engine operation to the state (outcomes projected away). -/
def applyOp (st : State) : EngineOp → State
  | .opAddGetter eid name g => addGetter st eid name g
  | .opAddSetter eid name l t r p => addSetter st eid name l t r p
  | .opAssignExports eid names => assignExportsToNamespace st eid names
  | .opFinalize eid => finalizeNamespace st eid
  | .opLoaded eid => (loadedFn st eid).1
  | .opUpdateBindings fuel eid names ut seen => (updateBindings fuel eid names ut seen st).1
  | .opEntryGet m => (entryGet st m).1
  | .opEntrySet m eid => entrySet st m eid
  | .opImmDefine eid sel name d strict => (immDefineProperty st eid sel name d strict).1
  | .opImmDelete eid sel name strict => (immDeleteProperty st eid sel name strict).1
  | .opImmSet eid sel name strict => (immSet st eid sel name strict).1
  | .opPreventExtensions eid k => (commonPreventExtensions st eid k).1
  | .opMutDefine fuel eid sel name d => (mutDefineProperty fuel st eid sel name d).1
  | .opMutDelete fuel eid sel name => (mutDeleteProperty fuel st eid sel name).1
  | .opMutSet fuel eid sel name v => (mutSet fuel st eid sel name v).1

/-- Reachability of an operation through the engine's served surface: the
readonly partial-view mutation traps exist only on proxies the engine hands
out, and it serves a partial view only for non-ESM exporters
(`getExportByName` requires `noNamedExports`, which forces a non-ESM type,
and `addGetterFrom` reads `partialNamespace` only of non-ESM entries). -/
def servedOp (st : State) : EngineOp → Prop
  | .opImmDefine eid sel _ _ _ =>
    sel = .part → ∀ e, nlook st.entries eid = some e → e.typ ≠ .esm
  | .opImmDelete eid sel _ _ =>
    sel = .part → ∀ e, nlook st.entries eid = some e → e.typ ≠ .esm
  | _ => True

/-- Distinct entries carry distinct module names (module names are
filesystem paths, the cache key of the pending-parents map). -/
def NamesInj (st : State) : Prop :=
  ∀ i j ei ej, nlook st.entries i = some ei → nlook st.entries j = some ej →
    ei.nameStr = ej.nameStr → i = j

/-- A fuel budget sufficient for any `updateBindings` call on this state:
the recursion depth is bounded by the number of entries. -/
def sufficientFuel (st : State) : Nat := (idsOf st).length + 2

/-- The number of entry ids not yet visited. -/
def remainingIds (st : State) (seen : List Nat) : Nat :=
  ((idsOf st).filter (fun i => !(seen.contains i))).length

/-- An entry whose getters are opaque runtime getters (return a fixed value
or throw), the shape the runtime installs for a declarative module's local
bindings. -/
def PureGetters (e : EntryRec) : Prop :=
  ∀ kv ∈ e.getters, (∃ v, kv.2 = GetterFn.const v) ∨ kv.2 = GetterFn.throws

/-- A raw namespace whose slots accept and retain writes: named accessors
backed by an object exports value, or writable data slots (the only shapes
the engine itself creates for a declarative entry). -/
def IdempotentNs (e : EntryRec) : Prop :=
  e.exportsVal.isObject = true ∧
  ∀ kv ∈ e.rawNs, kv.2 = NsSlot.accNamed ∨
    ∃ p, kv.2 = NsSlot.data p ∧ p.writable = true

/-- C2 witness entry: one static-import setter over a constant binding. -/
def c2StaticEntry : EntryRec :=
  { baseEntry "E" .esm with
    getters := [("x", .const (.prim 7))]
    rawNs := [("x", .accNamed)]
    setters := [("*", []), ("x", [⟨.staticImport, ["lx"], 1, .initialValue, true⟩])] }

/-- C2 witness state. -/
def c2StaticState : State := mkState [(0, c2StaticEntry), (1, baseEntry "P" .esm)]

/-- C5 witness: a CJS exporter with one getter and a whole-exports value. -/
def c5Exporter : EntryRec :=
  { baseEntry "E" .cjs with
    exportsVal := mkObj [("default", .prim 42), ("a", .prim 1)]
    getters := [("a", .const (.prim 1)), ("boom", .throws)]
    nsIsProxy := true }

/-- C5 witness: an `.mjs` importer (named exports from dynamic modules
off). -/
def c5Importer : EntryRec := { baseEntry "I" .esm with extname := ".mjs" }

/-- C5 witness state. -/
def c5State : State := mkState [(0, c5Exporter), (1, c5Importer)]

/-- C9 witness state: a parent entry with one initialized binding. -/
def c9State : State :=
  mkState
    [(0, { baseEntry "E" .esm with
        getters := [("x", .const (.prim 7))]
        rawNs := [("x", .accNamed)]
        setters := [("*", []), ("x", [⟨.staticImport, ["lx"], 1, .initialValue, true⟩])] }),
     (1, { baseEntry "P" .esm with importedBindings := [("old", true)] })]

/-- C4 witness entry: finalized, with sealed readonly views. -/
def c4Entry : EntryRec :=
  { baseEntry "V" .cjs with
    completeNs := ⟨[("x", ⟨.prim 1, true, false⟩)], false⟩
    completeMutableNs := ⟨[("x", ⟨.prim 1, true, true⟩)], true⟩
    partNs := ⟨[("default", ⟨.prim 2, true, false⟩)], false⟩
    partMutableNs := ⟨[("default", ⟨.prim 2, true, true⟩)], true⟩
    nsIsProxy := true }

/-- C4 witness state. -/
def c4State : State := mkState [(0, c4Entry)]

/-- The `importedBindings` flag an entry holds for a local name (`none`
when the entry or the name is absent). -/
def ibFlag (st : State) (i : Nat) (n : String) : Option Bool :=
  match nlook st.entries i with
  | none => none
  | some e => alook e.importedBindings n

/-- The C4 invariant of an entry after its finalization: finalized, sealed
readonly complete view, sealed readonly partial view when the entry is not
declarative, and a fixed key tuple for the four views. -/
def SealedKeysInv (st : State) (i : Nat)
    (ks : List String × List String × List String × List String) : Prop :=
  ∃ e, nlook st.entries i = some e ∧ e.nsFinalized = true ∧
    ViewSealed e.completeNs ∧ (e.typ ≠ EntryType.esm → ViewSealed e.partNs) ∧
    ViewKeys e = ks

/-- A sequence of operations each served by the engine from the state the
previous ones produced. -/
def ServedOps : State → List EngineOp → Prop
  | _, [] => True
  | st, op :: rest => servedOp st op ∧ ServedOps (applyOp st op) rest

/-! ### Basic lemmas -/

theorem alook_aset {α : Type} (l : List (String × α)) (k k' : String) (v : α) :
    alook (aset l k v) k' = if k = k' then some v else alook l k' := by
  induction l with
  | nil => simp [aset, alook]
  | cons kv rest ih =>
    obtain ⟨k0, w⟩ := kv
    by_cases h0 : k0 = k
    · subst h0
      simp only [aset, if_pos rfl]
      by_cases h1 : k0 = k' <;> simp [alook, h1]
    · simp only [aset, if_neg h0]
      by_cases h1 : k0 = k'
      · subst h1
        have h2 : ¬ k = k0 := fun h => h0 h.symm
        simp [alook, h2]
      · simp [alook, h1, ih]

theorem map_fst_aset {α : Type} (l : List (String × α)) (k : String) (v : α)
    (h : (alook l k).isSome) :
    (aset l k v).map Prod.fst = l.map Prod.fst := by
  induction l with
  | nil => simp [alook] at h
  | cons kv rest ih =>
    obtain ⟨k0, w⟩ := kv
    by_cases h0 : k0 = k
    · simp [aset, h0]
    · simp [alook, h0] at h
      simp [aset, h0, ih h]

theorem nlook_nset {α : Type} (l : List (Nat × α)) (k k' : Nat) (v : α) :
    nlook (nset l k v) k' = if k = k' then some v else nlook l k' := by
  induction l with
  | nil => simp [nset, nlook]
  | cons kv rest ih =>
    obtain ⟨k0, w⟩ := kv
    by_cases h0 : k0 = k
    · subst h0
      simp only [nset, if_pos rfl]
      by_cases h1 : k0 = k' <;> simp [nlook, h1]
    · simp only [nset, if_neg h0]
      by_cases h1 : k0 = k'
      · subst h1
        have h2 : ¬ k = k0 := fun h => h0 h.symm
        simp [nlook, h2]
      · simp [nlook, h1, ih]

theorem nlook_map_ite {α : Type} (l : List (Nat × α)) (i j : Nat) (f : α → α) :
    nlook (l.map (fun kv => if kv.1 = i then (kv.1, f kv.2) else kv)) j =
      if j = i then (nlook l j).map f else nlook l j := by
  induction l with
  | nil => by_cases h : j = i <;> simp [nlook, h]
  | cons kv rest ih =>
    obtain ⟨k, v⟩ := kv
    have hhead : (if (k, v).1 = i then ((k, v).1, f (k, v).2) else (k, v))
        = (k, if k = i then f v else v) := by
      by_cases h : k = i <;> simp [h]
    rw [List.map_cons]
    rw [hhead]
    by_cases hkj : k = j
    · subst hkj
      by_cases hk : k = i
      · subst hk
        simp [nlook]
      · have hjk : ¬ k = i := hk
        simp [nlook, hjk]
    · by_cases hji : j = i
      · subst hji
        have hki : ¬ k = j := hkj
        simp [nlook, hkj, hki, ih]
      · simp [nlook, hkj, hji, ih]

theorem nlook_updateEntry (st : State) (i : Nat) (f : EntryRec → EntryRec) (j : Nat) :
    nlook (updateEntry st i f).entries j =
      if j = i then (nlook st.entries j).map f else nlook st.entries j := by
  simpa [updateEntry] using nlook_map_ite st.entries i j f

theorem entries_pushEvent (st : State) (ev : Event) :
    (pushEvent st ev).entries = st.entries := rfl

theorem modules_updateEntry (st : State) (i : Nat) (f : EntryRec → EntryRec) :
    (updateEntry st i f).modules = st.modules := rfl

theorem entries_updateModule (st : State) (i : Nat) (f : ModuleRec → ModuleRec) :
    (updateModule st i f).entries = st.entries := rfl

theorem idsOf_pushEvent (st : State) (ev : Event) : idsOf (pushEvent st ev) = idsOf st := rfl

theorem idsOf_updateEntry (st : State) (eid : Nat) (f : EntryRec → EntryRec) :
    idsOf (updateEntry st eid f) = idsOf st := by
  simp only [idsOf, updateEntry, List.map_map]
  apply List.map_congr_left
  intro kv _
  by_cases h : kv.1 = eid <;> simp [h]

theorem idsOf_updateModule (st : State) (mid : Nat) (f : ModuleRec → ModuleRec) :
    idsOf (updateModule st mid f) = idsOf st := rfl

/-! ### C5: export resolution policy -/

/-- C5: export resolution for an exporter `E`, a `name` and an importer `I`
(`getExportByName`): when `E` is dynamic-object style (not declarative) and
`I`'s configuration has named exports from dynamic modules off (an `.mjs`
importer or `cjs.namedExports` disabled) and the name is `default`, the
resolved value is `E`'s whole raw exported value; otherwise, for any name
other than `*`, the result is the unresolved-identifier sentinel
(`ERROR_GETTER`) when `E` has no getter for the name, and otherwise the
getter's value with any thrown failure converted to the same error sentinel
instead of propagating. -/
theorem C5_export_resolution (st : State) (eid : Nat) (e pe : EntryRec) (name : String) :
    (e.typ ≠ .esm → (pe.extname = ".mjs" ∨ pe.pkgNamedExports = false) → name = "default" →
      getExportByName st eid e name pe = e.exportsVal) ∧
    (name ≠ "*" →
      (e.typ = .esm ∨ (pe.extname ≠ ".mjs" ∧ pe.pkgNamedExports = true) ∨ name ≠ "default") →
      getExportByName st eid e name pe = tryGetter st eid (alook e.getters name)) ∧
    (alook e.getters name = none → tryGetter st eid (alook e.getters name) = .errorGetter) ∧
    (∀ g, alook e.getters name = some g → evalGetter st eid g = .error () →
      tryGetter st eid (alook e.getters name) = .errorGetter) ∧
    (∀ g v, alook e.getters name = some g → evalGetter st eid g = .ok v →
      tryGetter st eid (alook e.getters name) = v) := by
  refine ⟨?_, ?_, ?_, ?_, ?_⟩
  · intro h1 h2 h3
    subst h3
    rcases h2 with h | h <;> simp_all [getExportByName]
  · intro h1 h2
    by_cases hm : pe.extname = ".mjs" <;>
      by_cases hn : pe.pkgNamedExports = true <;>
        by_cases ht : e.typ = EntryType.esm <;>
          by_cases hd : name = "default" <;>
            simp_all [getExportByName]
  · intro h
    simp [tryGetter, h]
  · intro g hg he
    simp [tryGetter, hg, he]
  · intro g v hg he
    simp [tryGetter, hg, he]

/-- C5 witness: the policy evaluated on a concrete CJS exporter and `.mjs`
importer. -/
theorem C5_export_resolution_witness :
    getExportByName c5State 0 c5Exporter "default" c5Importer = c5Exporter.exportsVal ∧
    getExportByName c5State 0 c5Exporter "a" c5Importer =
      tryGetter c5State 0 (alook c5Exporter.getters "a") ∧
    tryGetter c5State 0 (alook c5Exporter.getters "boom") = .errorGetter ∧
    tryGetter c5State 0 (alook c5Exporter.getters "zz") = .errorGetter := by
  refine ⟨?_, ?_, ?_, ?_⟩
  · exact (C5_export_resolution c5State 0 c5Exporter c5Importer "default").1
      (by decide) (by decide) rfl
  · exact (C5_export_resolution c5State 0 c5Exporter c5Importer "a").2.1
      (by decide) (by decide)
  · exact (C5_export_resolution c5State 0 c5Exporter c5Importer "boom").2.2.2.1
      .throws (by decide) rfl
  · exact (C5_export_resolution c5State 0 c5Exporter c5Importer "zz").2.2.1 (by decide)

/-! ### C8: default collapse -/

theorem proj_foldl {β γ : Type} (P : State → γ) (step : State → β → State)
    (h : ∀ st b, P (step st b) = P st) :
    ∀ (l : List β) (st : State), P (l.foldl step st) = P st := by
  intro l
  induction l with
  | nil => intro st; rfl
  | cons b rest ih =>
    intro st
    rw [List.foldl_cons, ih, h]

theorem modules_pushEvent (st : State) (ev : Event) :
    (pushEvent st ev).modules = st.modules := rfl

theorem modules_addGetter (st : State) (eid : Nat) (name : String) (g : GetterFn) :
    (addGetter st eid name g).modules = st.modules := rfl

theorem modules_assignExports (st : State) (eid : Nat) (ns : Option (List String)) :
    (assignExportsToNamespace st eid ns).modules = st.modules := by
  unfold assignExportsToNamespace
  cases h : nlook st.entries eid with
  | none => rfl
  | some e =>
    by_cases ho : e.exportsVal.isObjectLike
    · simp only [ho]
      refine proj_foldl State.modules _ ?_ _ st
      intro st2 n
      dsimp only
      split
      · rfl
      · split
        · rfl
        · rfl
    · simp [ho]

theorem modules_finalizeNamespace (st : State) (eid : Nat) :
    (finalizeNamespace st eid).modules = st.modules := by
  unfold finalizeNamespace
  cases h : nlook st.entries eid with
  | none => rfl
  | some e =>
    by_cases hf : e.nsFinalized
    · simp [hf]
    · simp [hf]
      rfl

theorem nlook_updateModuleTable (st : State) (i : Nat) (f : ModuleRec → ModuleRec) (j : Nat) :
    nlook (updateModule st i f).modules j =
      if j = i then (nlook st.modules j).map f else nlook st.modules j := by
  simpa [updateModule] using nlook_map_ite st.modules i j f

/-- The exports value and module id of an entry, the fields of it the
first branch of `loaded` reads after `assignExportsToNamespace`. -/
def coreProj (eid : Nat) (st : State) : Option (Value × Nat) :=
  (nlook st.entries eid).map (fun e => (e.exportsVal, e.modId))

theorem coreProj_addGetter (st : State) (eid j : Nat) (name : String) (g : GetterFn) :
    coreProj j (addGetter st eid name g) = coreProj j st := by
  unfold coreProj addGetter
  rw [nlook_updateEntry]
  by_cases h : j = eid
  · subst h
    cases nlook st.entries j <;> simp
  · simp [h]

theorem coreProj_assignExports (st : State) (eid j : Nat) (ns : Option (List String)) :
    coreProj j (assignExportsToNamespace st eid ns) = coreProj j st := by
  unfold assignExportsToNamespace
  cases h : nlook st.entries eid with
  | none => rfl
  | some e =>
    by_cases ho : e.exportsVal.isObjectLike
    · simp only [ho]
      refine proj_foldl (coreProj j) _ ?_ _ st
      intro st2 n
      dsimp only
      split
      · rfl
      · split
        · exact coreProj_addGetter st2 eid j n _
        · rfl
    · simp [ho]

/-- C8 counterexample: a dynamic (CJS) module whose only visible export is
`default` (value 42), with CJS interop enabled and a `.js` extension, does
NOT have its externally observed module value collapse to the default value:
after `loaded`, both `module.exports` and the entry's exports remain the
wrapper object.  The collapse in the source is in the declarative
(`TYPE_ESM`/`TYPE_WASM`) branch of `loaded`, not the dynamic one. -/
theorem C8_counterexample :
    (∃ e, nlook c8State.entries 0 = some e ∧ e.typ = .cjs ∧ e.pkgInterop = true ∧
      e.extname ≠ ".mjs" ∧ getExportsObjectKeys e e.exportsVal = ["default"] ∧
      objLookup e.exportsVal "default" = .prim 42) ∧
    (loadedFn c8State 0).2 = .completed ∧
    (nlook (loadedFn c8State 0).1.modules 0).map ModuleRec.exportsVal ≠
      some (.prim 42) ∧
    (nlook (loadedFn c8State 0).1.entries 0).map EntryRec.exportsVal ≠
      some (.prim 42) := by
  exact ⟨⟨c8CjsEntry, by decide, by decide, by decide, by decide, by decide, by decide⟩,
    by decide, by decide, by decide⟩

/-- C8 amended: a declarative (`TYPE_ESM`) or binary (`TYPE_WASM`) module
whose only visible export key is `default`, with CJS interop enabled and not
loaded as a fully-declarative-style (`.mjs`) extension, has `module.exports`
collapse on first load to the default export's value directly. -/
theorem C8_amended (st : State) (eid : Nat) (e : EntryRec) (m : ModuleRec)
    (he : nlook st.entries eid = some e)
    (hm : nlook st.modules e.modId = some m)
    (hls : e.loadedSt = .incomplete)
    (hml : m.loadedFlag = true)
    (hkids : e.children = [])
    (htyp : e.typ = .esm ∨ e.typ = .wasm)
    (hio : e.pkgInterop = true)
    (hext : e.extname ≠ ".mjs")
    (hnames : getExportsObjectKeys e e.exportsVal = ["default"]) :
    (loadedFn st eid).2 = .completed ∧
    nlook (loadedFn st eid).1.modules e.modId =
      some { m with exportsVal := objLookup e.exportsVal "default" } := by
  have hls2 : ¬ e.loadedSt ≠ LoadState.incomplete := by simp [hls]
  unfold loadedFn loadedFnGo
  dsimp only
  rw [entries_pushEvent, he]
  simp only [hls2, if_neg, ite_false, hls]
  rw [modules_pushEvent, hm]
  simp only [hml, not_true, ite_false]
  rw [hkids]
  simp only [List.all_nil, not_true, ite_false]
  have htyp2 : (e.typ = EntryType.esm ∨ e.typ = EntryType.wasm) := htyp
  rw [if_pos htyp2, hnames]
  simp only [hio, hext, ne_eq, not_false_iff, and_self, if_pos, true_and]
  set st1 := pushEvent st (Event.loadedCall eid) with hst1
  set st2 := updateEntry st1 eid
    (fun e2 => { e2 with loadedSt := LoadState.completed, nsIsProxy := false }) with hst2
  set st3 := assignExportsToNamespace st2 eid (some ["default"]) with hst3
  have hcore : coreProj eid st3 = some (e.exportsVal, e.modId) := by
    rw [hst3, coreProj_assignExports]
    rw [hst2]
    unfold coreProj
    rw [nlook_updateEntry, if_pos rfl, hst1, entries_pushEvent, he]
    rfl
  have he3 : ∃ e2, nlook st3.entries eid = some e2 ∧
      e2.exportsVal = e.exportsVal ∧ e2.modId = e.modId := by
    unfold coreProj at hcore
    cases h3 : nlook st3.entries eid with
    | none => rw [h3] at hcore; simp at hcore
    | some e2 =>
      rw [h3] at hcore
      simp at hcore
      exact ⟨e2, rfl, hcore.1, hcore.2⟩
  obtain ⟨e2, h3, hxv, hmid⟩ := he3
  rw [h3]
  simp only [ite_true, if_pos rfl, not_true, ite_false]
  constructor
  · trivial
  · rw [modules_finalizeNamespace, hmid, nlook_updateModuleTable]
    simp only [if_pos rfl]
    rw [hxv]
    have hmods3 : st3.modules = st.modules := by
      rw [hst3, modules_assignExports, hst2, modules_updateEntry, hst1, modules_pushEvent]
    rw [hmods3, hm]
    simp [hml]

/-- C8 witness: the amended collapse on a concrete declarative entry whose
only export key is `default`. -/
theorem C8_amended_witness :
    (loadedFn c8EsmState 0).2 = .completed ∧
    nlook (loadedFn c8EsmState 0).1.modules c8EsmEntry.modId =
      some { baseModule "F" with exportsVal := objLookup c8EsmEntry.exportsVal "default" } := by
  exact C8_amended c8EsmState 0 c8EsmEntry (baseModule "F") (by decide) (by decide)
    (by decide) (by decide) (by decide) (Or.inl (by decide)) (by decide) (by decide) (by decide)

/-! ### C10: entry cache accessors -/

theorem modules_entrySet (st : State) (a : ModArg) (eid : Nat) :
    (entrySet st a eid).modules = st.modules := by
  cases a <;> rfl

theorem modules_entryGet (st : State) (a : ModArg) :
    (entryGet st a).1.modules = st.modules := by
  cases a with
  | nonObject v => rfl
  | modRef mid =>
    unfold entryGet
    dsimp only
    cases hm : nlook st.modules mid with
    | none => rfl
    | some m =>
      dsimp only
      cases hc : nlook st.entryCache mid with
      | none => rfl
      | some eid0 =>
        dsimp only
        cases he : nlook st.entries eid0 with
        | none => rfl
        | some e =>
          dsimp only
          split
          · cases hem : nlook st.modules e.modId with
            | none => rfl
            | some em =>
              dsimp only
              cases hb : vlook st.bridged em.exportsVal with
              | none => rfl
              | some f => rfl
          · rfl

/-- C10 counterexample: with a bridged substitution chain in place, two
consecutive `Entry.get` calls on the same module object return different
entries (6, then 7), refuting the consecutive-call clause of the claim. -/
theorem C10_counterexample :
    (entryGet c10State (.modRef 0)).2 = some 6 ∧
    (entryGet (entryGet c10State (.modRef 0)).1 (.modRef 0)).2 = some 7 ∧
    (6 : Nat) ≠ 7 := by
  refine ⟨by decide, by decide, by decide⟩

/-- C10 amended: `Entry.get` on a non-object returns null with the state
(and so the cache) unchanged, and `Entry.set` on a non-object is a no-op;
`Entry.get` on an (object) module returns a non-null entry that is stored in
the cache; two consecutive calls with the same module return the same entry
UNLESS the first call's result is a loaded CJS entry whose module's exports
value has a `shared.bridged` mapping (the bridged-entry substitution), in
which case the second call may return the substituted entry instead. -/
theorem C10_amended :
    (∀ st v, entryGet st (.nonObject v) = (st, none)) ∧
    (∀ st v eid, entrySet st (.nonObject v) eid = st) ∧
    (∀ st mid m, nlook st.modules mid = some m →
      ∃ eid, (entryGet st (.modRef mid)).2 = some eid ∧
        nlook (entryGet st (.modRef mid)).1.entryCache mid = some eid) ∧
    (∀ st mid m eid, nlook st.modules mid = some m →
      (entryGet st (.modRef mid)).2 = some eid →
      (∀ e, nlook (entryGet st (.modRef mid)).1.entries eid = some e →
        e.loadedSt = .completed → e.typ = .cjs →
        ∀ em, nlook (entryGet st (.modRef mid)).1.modules e.modId = some em →
          vlook (entryGet st (.modRef mid)).1.bridged em.exportsVal = none) →
      (entryGet (entryGet st (.modRef mid)).1 (.modRef mid)).2 = some eid) := by
  have hkey : ∀ st mid m, nlook st.modules mid = some m →
      ∃ eid, (entryGet st (.modRef mid)).2 = some eid ∧
        nlook (entryGet st (.modRef mid)).1.entryCache mid = some eid := by
    intro st mid m hm
    unfold entryGet
    dsimp only
    rw [hm]
    dsimp only
    cases hc : nlook st.entryCache mid with
    | none =>
      exact ⟨st.nextEntryId, rfl, by simp [entrySet, nlook_nset]⟩
    | some eid0 =>
      dsimp only
      cases he : nlook st.entries eid0 with
      | none => exact ⟨eid0, rfl, by simp [entrySet, nlook_nset]⟩
      | some e =>
        dsimp only
        split
        · cases hem : nlook st.modules e.modId with
          | none => exact ⟨eid0, rfl, by simp [entrySet, nlook_nset]⟩
          | some em =>
            dsimp only
            cases hb : vlook st.bridged em.exportsVal with
            | none => exact ⟨eid0, rfl, by simp [entrySet, nlook_nset]⟩
            | some f => exact ⟨f, rfl, by simp [entrySet, nlook_nset]⟩
        · exact ⟨eid0, rfl, by simp [entrySet, nlook_nset]⟩
  refine ⟨fun st v => rfl, fun st v eid => rfl, hkey, ?_⟩
  intro st mid m eid hm h1 hnb
  obtain ⟨eid', h1', hc1⟩ := hkey st mid m hm
  rw [h1] at h1'
  injection h1' with h1e
  subst h1e
  set st1 := (entryGet st (.modRef mid)).1 with hst1
  have hm1 : nlook st1.modules mid = some m := by
    rw [hst1, modules_entryGet]
    exact hm
  unfold entryGet
  dsimp only
  rw [hm1]
  dsimp only
  rw [hc1]
  dsimp only
  cases he : nlook st1.entries eid with
  | none => rfl
  | some e =>
    dsimp only
    by_cases hcjs : e.loadedSt = LoadState.completed ∧ e.typ = EntryType.cjs
    · rw [if_pos hcjs]
      cases hem : nlook st1.modules e.modId with
      | none => rfl
      | some em =>
        dsimp only
        rw [hnb e he hcjs.1 hcjs.2 em hem]
    · rw [if_neg hcjs]

/-- C10 witness: the amended cache behaviour on a fresh one-module state. -/
theorem C10_amended_witness :
    entryGet c10FreshState (.nonObject (.prim 3)) = (c10FreshState, none) ∧
    entrySet c10FreshState (.nonObject (.prim 3)) 5 = c10FreshState ∧
    (∃ eid, (entryGet c10FreshState (.modRef 3)).2 = some eid ∧
      nlook (entryGet c10FreshState (.modRef 3)).1.entryCache 3 = some eid) ∧
    (entryGet (entryGet c10FreshState (.modRef 3)).1 (.modRef 3)).2 = some 100 := by
  obtain ⟨p1, p2, p3, p4⟩ := C10_amended
  refine ⟨p1 _ _, p2 _ _ _, p3 c10FreshState 3 (baseModule "m3") (by decide), ?_⟩
  refine p4 c10FreshState 3 (baseModule "m3") 100 (by decide) (by decide) ?_
  intro e he' hcomp hcjs em hem
  have hconc : nlook (entryGet c10FreshState (.modRef 3)).1.entries 100 =
      some (newEntry 3 (baseModule "m3")) := by decide
  rw [hconc] at he'
  injection he' with hee
  subst hee
  exact absurd hcomp (by decide)

/-! ### C7: readonly namespace mutation semantics -/

theorem alook_mem {α : Type} {l : List (String × α)} {k : String} {v : α}
    (h : alook l k = some v) : (k, v) ∈ l := by
  induction l with
  | nil => simp [alook] at h
  | cons kv rest ih =>
    obtain ⟨k0, w⟩ := kv
    by_cases h0 : k0 = k
    · subst h0
      simp [alook] at h
      simp [h]
    · simp [alook, h0] at h
      simp [ih h]

/-- C7 counterexample: on a finalized entry with a sealed readonly complete
view, a strict-context `defineProperty` carrying a new value for an existing
(still-writable) key — a mutation attempt that is not the permitted no-op
redefinition — does not throw: it returns `false` and mutates the sealed
view's slot, refuting the "throws if and only if strict caller" claim. -/
theorem C7_counterexample :
    (∃ e, nlook c7State.entries 0 = some e ∧ e.nsFinalized = true ∧
      e.completeNs.extensible = false ∧ (alook e.completeNs.props "x").isSome ∧
      alook e.completeNs.props "x" ≠ some ⟨.prim 42, true, false⟩) ∧
    (immDefineProperty c7State 0 .complete "x" ⟨some (.prim 42), none, none⟩ true).2 =
      .ret false ∧
    (nlook (immDefineProperty c7State 0 .complete "x"
        ⟨some (.prim 42), none, none⟩ true).1.entries 0).map
      (fun e => alook e.completeNs.props "x") =
      some (some ⟨.prim 42, true, false⟩) := by
  refine ⟨⟨c7Entry, by decide, by decide, by decide, by decide, by decide⟩,
    by decide, by decide⟩

/-- C7 amended: on a finalized entry's sealed readonly view, assignments,
deletions of existing keys, and definition attempts that the sealed backing
object rejects (or that have the `writable:false`-without-`value` shape on
an existing key) throw the corresponding namespace-violation error exactly
when the caller context is strict and otherwise silently return `false`, in
both cases without mutating; but a definition attempt the sealed object
accepts (such as writing a value through a still-writable slot) returns a
boolean without throwing in either context, and deleting an absent key
returns `true` without throwing in either context. -/
theorem C7_amended (st : State) (eid : Nat) (e : EntryRec) (sel : ImmSel)
    (name : String) (d : PropDesc) (strict : Bool)
    (he : nlook st.entries eid = some e)
    (hfin : e.nsFinalized = true)
    (hsealed : ViewSealed (getImmView e sel)) :
    ((immSet st eid sel name strict).1 = st ∧
      (immSet st eid sel name strict).2 =
        (if strict then
          (if (alook (getImmView e sel).props name).isSome then
            TrapOut.threw (.nsAssignment name) else TrapOut.threw (.nsExtension name))
         else .ret false)) ∧
    (∀ cur, alook (getImmView e sel).props name = some cur →
       (immDeleteProperty st eid sel name strict).1 = st ∧
       (immDeleteProperty st eid sel name strict).2 =
         (if strict then TrapOut.threw (.nsDeletion name) else .ret false)) ∧
    (alook (getImmView e sel).props name = none →
       (immDeleteProperty st eid sel name strict).2 = .ret true ∧
       ∀ j, nlook (immDeleteProperty st eid sel name strict).1.entries j =
         nlook st.entries j) ∧
    (viewDefineProperty (getImmView e sel) name d = none ∨
        (d.writable = some false ∧ d.value = none ∧
          (alook (getImmView e sel).props name).isSome) →
       (immDefineProperty st eid sel name d strict).1 = st ∧
       (immDefineProperty st eid sel name d strict).2 =
         (if strict then
           (if (alook (getImmView e sel).props name).isSome then
             TrapOut.threw (.nsRedefinition name) else TrapOut.threw (.nsDefinition name))
          else .ret false)) ∧
    (∀ ns', viewDefineProperty (getImmView e sel) name d = some ns' →
       ¬ (d.writable = some false ∧ d.value = none ∧
         (alook (getImmView e sel).props name).isSome) →
       ∃ b, (immDefineProperty st eid sel name d strict).2 = .ret b) := by
  refine ⟨?_, ?_, ?_, ?_, ?_⟩
  · unfold immSet
    rw [he]
    dsimp only
    cases strict with
    | false => exact ⟨rfl, by simp [isCalledFromStrictCode]⟩
    | true =>
      cases hp : (alook (getImmView e sel).props name).isSome with
      | false =>
        simp only [isCalledFromStrictCode, Bool.not_true, not_true, ite_false, hp]
        exact ⟨rfl, by simp⟩
      | true =>
        simp only [isCalledFromStrictCode, hp]
        exact ⟨rfl, by simp⟩
  · intro cur hcur
    have hmem := alook_mem hcur
    have hnc : cur.configurable = false := hsealed.2 (name, cur) hmem
    have hvd : viewDeleteProperty (getImmView e sel) name = none := by
      unfold viewDeleteProperty
      rw [hcur]
      simp [hnc]
    unfold immDeleteProperty
    rw [he]
    dsimp only
    rw [hvd]
    cases strict with
    | false => exact ⟨rfl, by simp [isCalledFromStrictCode]⟩
    | true => exact ⟨rfl, by simp [isCalledFromStrictCode]⟩
  · intro habs
    have hvd : viewDeleteProperty (getImmView e sel) name = some (getImmView e sel) := by
      unfold viewDeleteProperty
      rw [habs]
    unfold immDeleteProperty
    rw [he]
    dsimp only
    rw [hvd]
    refine ⟨rfl, ?_⟩
    intro j
    rw [nlook_updateEntry]
    by_cases hj : j = eid
    · subst hj
      rw [he]
      have : setImmView e sel (getImmView e sel) = e := by
        cases sel <;> rfl
      simp [this]
    · simp [hj]
  · intro hcase
    unfold immDefineProperty
    rw [he]
    dsimp only
    have happ : (if e.nsFinalized ∧
        (d.writable == some false && d.value == none &&
          (alook (getImmView e sel).props name).isSome) = false then
        viewDefineProperty (getImmView e sel) name d else none) = none := by
      rcases hcase with h | h
      · split <;> simp [h]
      · rw [if_neg]
        intro hcc
        rw [h.1, h.2.1] at hcc
        simp [h.2.2] at hcc
    rw [happ]
    cases strict with
    | false => exact ⟨rfl, by simp [isCalledFromStrictCode]⟩
    | true =>
      cases hp : (alook (getImmView e sel).props name).isSome with
      | false =>
        constructor
        · simp [isCalledFromStrictCode, hp]
        · simp [isCalledFromStrictCode, hp]
      | true =>
        constructor
        · simp [isCalledFromStrictCode, hp]
        · simp [isCalledFromStrictCode, hp]
  · intro ns' hdef hnoop
    unfold immDefineProperty
    rw [he]
    dsimp only
    have hnb : (d.writable == some false && d.value == none &&
        (alook (getImmView e sel).props name).isSome) = false := by
      by_contra hb
      simp only [Bool.not_eq_false, Bool.and_eq_true, beq_iff_eq] at hb
      exact hnoop ⟨hb.1.1, hb.1.2, hb.2⟩
    rw [if_pos ⟨hfin, hnb⟩, hdef]
    exact ⟨_, rfl⟩

/-- C7 witness: the amended trap semantics on a concrete finalized entry
with a sealed complete view, from strict caller context. -/
theorem C7_amended_witness :
    (immSet c7State 0 .complete "x" true).1 = c7State ∧
    (immSet c7State 0 .complete "x" true).2 = .threw (.nsAssignment "x") ∧
    (immDeleteProperty c7State 0 .complete "x" true).1 = c7State ∧
    (immDeleteProperty c7State 0 .complete "x" true).2 = .threw (.nsDeletion "x") ∧
    (immDeleteProperty c7State 0 .complete "zz" true).2 = .ret true := by
  have hs : ViewSealed (getImmView c7Entry .complete) := by
    constructor
    · rfl
    · intro kv h
      have h' : kv = ("x", ⟨Value.prim 1, true, false⟩) := by
        simpa [getImmView, c7Entry, baseEntry] using h
      rw [h']
  have Hx := C7_amended c7State 0 c7Entry .complete "x" ⟨none, none, none⟩ true
    (by decide) (by decide) hs
  have Hz := C7_amended c7State 0 c7Entry .complete "zz" ⟨none, none, none⟩ true
    (by decide) (by decide) hs
  have hcur : alook (getImmView c7Entry .complete).props "x" =
      some ⟨Value.prim 1, true, false⟩ := by decide
  refine ⟨Hx.1.1, ?_, (Hx.2.1 _ hcur).1, ?_, (Hz.2.2.1 (by decide)).1⟩
  · rw [Hx.1.2]
    decide
  · rw [(Hx.2.1 _ hcur).2]
    decide

/-! ### C6: export-star conflicts -/

/-- C6 counterexample: with two registered setters for the conflicting name
(a diamond import), a second propagation throws the conflict again for the
same name — the error is thrown once per registered setter, not once per
name. -/
theorem C6_counterexample :
    (updateBindings 1 0 none .dflt none c6State).2.2 =
      .threw (.starConflict 0 "foo") ∧
    (updateBindings 1 0 none .dflt none
      (updateBindings 1 0 none .dflt none c6State).1).2.2 =
      .threw (.starConflict 0 "foo") := by
  exact ⟨by decide, by decide⟩

/-- C6 amended: when a name's resolved value is the export-star-conflict
sentinel during the setter pass, the conflict error is thrown and the
throwing setter entry is removed from the setter list before the throw, so
the error is observed at most once per registered setter for that name:
with a single registered setter the list is drained and a repeated pass for
that name no longer throws; getters and setter lists of unrelated names are
untouched. -/
theorem C6_amended (st : State) (eid : Nat) (e : EntryRec) (name : String)
    (s : Setter) (ut : UpdateType) (sup : Bool)
    (pmap : Option (List (String × Nat)))
    (he : nlook st.entries eid = some e)
    (hs : alook e.setters name = some [s])
    (hesm : e.typ = .esm)
    (hnstar : name ≠ "*")
    (hstar : alook e.getters name = some (.const .errorStar))
    (hparent : (nlook st.entries s.parent).isSome) :
    (runSetter st eid name ut sup pmap).2.2 = some (.starConflict eid name) ∧
    (∀ e', nlook (runSetter st eid name ut sup pmap).1.entries eid = some e' →
      alook e'.setters name = some [] ∧
      ∀ n, n ≠ name → alook e'.getters n = alook e.getters n ∧
        alook e'.setters n = alook e.setters n) ∧
    (∀ st2 e2, nlook st2.entries eid = some e2 → alook e2.setters name = some [] →
      (runSetter st2 eid name ut sup pmap).2.2 = none) := by
  obtain ⟨pe, hpe⟩ := Option.isSome_iff_exists.mp hparent
  have hres : resolveSetterValue st eid name (e.typ == EntryType.esm) s =
      some Value.errorStar := by
    unfold resolveSetterValue
    rw [he, hpe]
    dsimp only
    rw [hesm]
    simp only [beq_self_eq_true, if_pos]
    unfold getExportByNameFast
    have : (!(name == "*")) = true := by simp [hnstar]
    rw [if_pos this]
    rw [hstar]
    rfl
  have hgo : runSetterGo eid name ut sup (e.typ == EntryType.esm)
      (e.loadedSt == LoadState.completed) e.changed [s] st pmap =
      (st, [], pmap, some (.starConflict eid name)) := by
    unfold runSetterGo
    rw [hres]
    rfl
  have hrun : runSetter st eid name ut sup pmap =
      (updateEntry st eid (fun e2 => { e2 with setters := aset e2.setters name [] }),
        pmap, some (.starConflict eid name)) := by
    unfold runSetter
    rw [he]
    dsimp only
    rw [hs]
    dsimp only
    rw [show [s].reverse = [s] from rfl, hgo]
    rfl
  refine ⟨by rw [hrun], ?_, ?_⟩
  · intro e' he'
    rw [hrun] at he'
    rw [nlook_updateEntry, if_pos rfl, he] at he'
    simp only [Option.map_some'] at he'
    injection he' with hee
    subst hee
    constructor
    · simp [alook_aset]
    · intro n hn
      constructor
      · rfl
      · simp only [alook_aset]
        rw [if_neg (fun h => hn h.symm)]
  · intro st2 e2 he2 hs2
    unfold runSetter
    rw [he2]
    dsimp only
    rw [hs2]
    rfl

/-- C6 witness: with a single registered setter for the conflicting name,
the first pass throws (after removing the setter) and the repeated pass for
that name no longer throws. -/
theorem C6_amended_witness :
    (runSetter c6OneState 0 "foo" .dflt false none).2.2 =
      some (.starConflict 0 "foo") ∧
    (runSetter (runSetter c6OneState 0 "foo" .dflt false none).1
      0 "foo" .dflt false none).2.2 = none := by
  have H := C6_amended c6OneState 0
    { c6Entry with setters := [("*", []),
        ("foo", [⟨.staticImport, ["f1"], 1, .initialValue, true⟩])] }
    "foo" ⟨.staticImport, ["f1"], 1, .initialValue, true⟩ .dflt false none
    (by decide) (by decide) (by decide) (by decide) (by decide) (by decide)
  refine ⟨H.1, ?_⟩
  cases he2 : nlook (runSetter c6OneState 0 "foo" .dflt false none).1.entries 0 with
  | none => exact absurd he2 (by decide)
  | some e2 => exact H.2.2 _ e2 he2 (H.2.1 e2 he2).1

/-! ### The engine's internal state mutations

`EStepCore` enumerates every primitive state mutation the engine's internal
functions perform; `ESteps` is its reflexive-transitive closure.  The
reachability lemmas below show that every internal operation (including the
fuelled `updateBindings`) maps a state to an `ESteps`-reachable one, so an
invariant preserved by each primitive mutation is preserved by every
operation. -/

inductive EStepCore : State → State → Prop where
  | push (st : State) (ev : Event) : EStepCore st (pushEvent st ev)
  | updMod (st : State) (i : Nat) (f : ModuleRec → ModuleRec) :
      EStepCore st (updateModule st i f)
  | uChanged (st : State) (i : Nat) (b : Bool) :
      EStepCore st (updateEntry st i (fun e => { e with changed := b }))
  | uAddGetter (st : State) (i : Nat) (name : String) (g : GetterFn) :
      EStepCore st (addGetter st i name g)
  | uAddSetter (st : State) (i : Nat) (name : String) (l : List String)
      (t : SetterType) (r : Bool) (p : Nat) :
      EStepCore st (addSetter st i name l t r p)
  | uRawRemove (st : State) (i : Nat) (name : String) :
      EStepCore st (updateEntry st i (fun e => { e with rawNs := aremove e.rawNs name }))
  | uRawWrite (st : State) (i : Nat) (name : String) (v : Value) :
      EStepCore st (updateEntry st i (fun e => rawNsWrite { e with changed := true } name v))
  | uSetters (st : State) (i : Nat) (name : String) (l : List Setter) :
      EStepCore st (updateEntry st i (fun e => { e with setters := aset e.setters name l }))
  | uIBtrue (st : State) (i : Nat) (ns : List String) :
      EStepCore st (updateEntry st i (fun e =>
        { e with importedBindings := ns.foldl (fun ib n => aset ib n true) e.importedBindings }))
  | uLoadedSt (st : State) (i : Nat) (s : LoadState) :
      EStepCore st (updateEntry st i (fun e => { e with loadedSt := s }))
  | uLoadedEsm (st : State) (i : Nat) :
      EStepCore st (updateEntry st i (fun e =>
        { e with loadedSt := LoadState.completed, nsIsProxy := false }))
  | uReclass (st : State) (i : Nat) (e : EntryRec)
      (he : nlook st.entries i = some e) (ht : e.typ = EntryType.cjs) :
      EStepCore st (updateEntry st i (fun e2 =>
        { e2 with loadedSt := LoadState.completed, nsIsProxy := false, typ := EntryType.pseudo }))
  | uExports (st : State) (i : Nat) (v : Value) :
      EStepCore st (updateEntry st i (fun e => { e with exportsVal := v }))
  | uExportsAssign (st : State) (i : Nat) (name : String) (v : Value) :
      EStepCore st (updateEntry st i (fun e =>
        { e with exportsVal := objAssign e.exportsVal name v }))
  | uExportsDelete (st : State) (i : Nat) (name : String) :
      EStepCore st (updateEntry st i (fun e =>
        { e with exportsVal := objDelete e.exportsVal name }))
  | uFinalize (st : State) (i : Nat) : EStepCore st (finalizeNamespace st i)
  | uEntryNew (st : State) (mid : Nat) (m : ModuleRec) :
      EStepCore st { st with
        entries := st.entries ++ [(st.nextEntryId, newEntry mid m)]
        nextEntryId := st.nextEntryId + 1 }
  | uCacheSet (st : State) (mid : Nat) (eidv : Nat) :
      EStepCore st { st with entryCache := nset st.entryCache mid eidv }
  | uBridgeDel (st : State) (v : Value) :
      EStepCore st { st with bridged := vremove st.bridged v }

/-- Reachability by internal primitive mutations. -/
def ESteps : State → State → Prop := Relation.ReflTransGen EStepCore

theorem ESteps.refl (st : State) : ESteps st st := Relation.ReflTransGen.refl

theorem ESteps.trans {a b c : State} (h1 : ESteps a b) (h2 : ESteps b c) : ESteps a c :=
  Relation.ReflTransGen.trans h1 h2

theorem ESteps.single {a b : State} (h : EStepCore a b) : ESteps a b :=
  Relation.ReflTransGen.single h

theorem ESteps.tail {a b c : State} (h1 : ESteps a b) (h2 : EStepCore b c) : ESteps a c :=
  Relation.ReflTransGen.tail h1 h2

theorem esteps_pushEvent (st : State) (ev : Event) : ESteps st (pushEvent st ev) :=
  ESteps.single (EStepCore.push st ev)

theorem esteps_runGetter (st : State) (eid : Nat) (name : String) :
    ESteps st (runGetter st eid name) := by
  unfold runGetter
  cases nlook st.entries eid with
  | none => exact ESteps.refl st
  | some e =>
    dsimp only
    split
    · exact ESteps.single (EStepCore.uRawRemove st eid name)
    · split
      · exact ESteps.single (EStepCore.uRawWrite st eid name _)
      · exact ESteps.refl st

theorem esteps_foldl {β : Type} (step : State → β → State)
    (h : ∀ st b, ESteps st (step st b)) :
    ∀ (l : List β) (st : State), ESteps st (l.foldl step st) := by
  intro l
  induction l with
  | nil => intro st; exact ESteps.refl st
  | cons b rest ih =>
    intro st
    rw [List.foldl_cons]
    exact ESteps.trans (h st b) (ih (step st b))

theorem esteps_assignExports (st : State) (eid : Nat) (ns : Option (List String)) :
    ESteps st (assignExportsToNamespace st eid ns) := by
  unfold assignExportsToNamespace
  cases nlook st.entries eid with
  | none => exact ESteps.refl st
  | some e =>
    dsimp only
    split
    · exact ESteps.refl st
    · refine esteps_foldl _ ?_ _ st
      intro st2 n
      dsimp only
      split
      · exact ESteps.refl st2
      · split
        · exact ESteps.single (EStepCore.uAddGetter st2 eid n _)
        · exact ESteps.refl st2

theorem esteps_runGetters (st : State) (eid : Nat) (ns : Option (List String)) :
    ESteps st (runGetters st eid ns) := by
  unfold runGetters
  cases nlook st.entries eid with
  | none => exact ESteps.refl st
  | some e =>
    dsimp only
    split
    · exact esteps_foldl _ (fun st2 n => esteps_runGetter st2 eid n) _ st
    · cases nlook st.modules e.modId with
      | none => exact ESteps.refl st
      | some m =>
        dsimp only
        split
        · exact esteps_assignExports st eid ns
        · exact ESteps.refl st

theorem esteps_ubCallback (st : State) (s : Setter) (sup : Bool)
    (pmap : Option (List (String × Nat))) :
    ESteps st (ubCallback st s sup pmap).1 := by
  unfold ubCallback
  cases nlook st.entries s.parent with
  | none => exact ESteps.refl st
  | some pe =>
    dsimp only
    have h1 : ESteps st (if s.last ≠ Value.errorGetter then
        updateEntry st s.parent (fun p =>
          { p with importedBindings :=
              s.localNames.foldl (fun ib n => aset ib n true) p.importedBindings })
      else st) := by
      split
      · exact ESteps.single (EStepCore.uIBtrue st s.parent s.localNames)
      · exact ESteps.refl st
    split
    · exact ESteps.tail h1 (EStepCore.push _ _)
    · exact h1

theorem esteps_runSetterGo (eid : Nat) (name : String) (ut : UpdateType)
    (sup : Bool) (isESM isLoaded isNsChanged : Bool) :
    ∀ (l : List Setter) (st : State) (pmap : Option (List (String × Nat))),
      ESteps st (runSetterGo eid name ut sup isESM isLoaded isNsChanged l st pmap).1 := by
  intro l
  induction l with
  | nil => intro st pmap; exact ESteps.refl st
  | cons s rest ih =>
    intro st pmap
    unfold runSetterGo
    cases resolveSetterValue st eid name isESM s with
    | none => exact ih st pmap
    | some value =>
      dsimp only
      split
      · exact ESteps.refl st
      · split
        · dsimp only
          refine ESteps.trans (ESteps.single
            (EStepCore.push st (Event.setterFired eid name s.stype value s.last))) ?_
          refine ESteps.trans ?_ (ih _ _)
          split
          · exact ESteps.refl _
          · exact esteps_ubCallback _ _ _ _
        · exact ih st pmap

theorem esteps_runSetter (st : State) (eid : Nat) (name : String) (ut : UpdateType)
    (sup : Bool) (pmap : Option (List (String × Nat))) :
    ESteps st (runSetter st eid name ut sup pmap).1 := by
  unfold runSetter
  cases nlook st.entries eid with
  | none => exact ESteps.refl st
  | some e =>
    dsimp only
    cases alook e.setters name with
    | none => exact ESteps.refl st
    | some setters =>
      dsimp only
      have hgo := esteps_runSetterGo eid name ut sup (e.typ == .esm)
        (e.loadedSt == .completed) e.changed setters.reverse st pmap
      rcases hE : runSetterGo eid name ut sup (e.typ == .esm)
          (e.loadedSt == .completed) e.changed setters.reverse st pmap with
        ⟨st1, rev1, pmap1, err1⟩
      rw [hE] at hgo
      exact ESteps.tail hgo (EStepCore.uSetters st1 eid name rev1.reverse)

theorem esteps_runSettersGo (eid : Nat) (ut : UpdateType) (sup : Bool) :
    ∀ (names : List String) (st : State) (pmap : Option (List (String × Nat))),
      ESteps st (runSettersGo eid ut sup names st pmap).1 := by
  intro names
  induction names with
  | nil => intro st pmap; exact ESteps.refl st
  | cons n rest ih =>
    intro st pmap
    unfold runSettersGo
    have h1 := esteps_runSetter st eid n ut sup pmap
    rcases hE : runSetter st eid n ut sup pmap with ⟨st1, pmap1, err1⟩
    rw [hE] at h1
    dsimp only
    cases err1 with
    | none => exact ESteps.trans h1 (ih st1 pmap1)
    | some er => exact h1

theorem esteps_runSetters (st : State) (eid : Nat) (names? : Option (List String))
    (ut : UpdateType) (sup : Bool) :
    ESteps st (runSetters st eid names? ut sup).1 := by
  unfold runSetters
  exact esteps_runSettersGo eid ut sup _ st none

theorem esteps_updateEntry_ite (st : State) (i : Nat) (c : Bool)
    (f g : EntryRec → EntryRec)
    (hf : c = true → ESteps st (updateEntry st i f))
    (hg : ESteps st (updateEntry st i g)) :
    ESteps st (updateEntry st i (fun e => if c then f e else g e)) := by
  cases c with
  | true => simpa using hf rfl
  | false => simpa using hg

theorem esteps_loadedFnGo (st0 : State) (eid : Nat) :
    ESteps st0 (loadedFnGo st0 eid).1 := by
  unfold loadedFnGo
  split
  · exact ESteps.refl st0
  · rename_i e he
    split
    · exact ESteps.refl st0
    · split
      · exact ESteps.refl st0
      · rename_i m hm
        split
        · exact ESteps.single (EStepCore.uLoadedSt st0 eid .incomplete)
        · dsimp only
          split
          · exact ESteps.single (EStepCore.uLoadedSt st0 eid .incomplete)
          · split
            · -- declarative branch
              refine ESteps.trans
                (ESteps.single (EStepCore.uLoadedEsm st0 eid)) ?_
              generalize updateEntry st0 eid _ = st1
              refine ESteps.trans (esteps_assignExports st1 eid
                (some (getExportsObjectKeys e e.exportsVal))) ?_
              generalize assignExportsToNamespace st1 eid
                (some (getExportsObjectKeys e e.exportsVal)) = st2
              refine ESteps.trans ?_
                (ESteps.single (EStepCore.uFinalize _ eid))
              split
              · split
                · exact ESteps.refl st2
                · rename_i e2 he2
                  split
                  · exact ESteps.single (EStepCore.updMod st2 e2.modId _)
                  · split
                    · exact ESteps.single
                        (EStepCore.uExportsAssign st2 eid "__esModule" (.boolV true))
                    · exact ESteps.refl st2
              · exact ESteps.refl st2
            · -- dynamic branch
              refine ESteps.trans
                (esteps_updateEntry_ite st0 eid
                  (decide (m.exportsVal ≠ Value.undef ∧
                    (objLookup m.exportsVal "__esModule").truthy = true ∧
                    e.typ = EntryType.cjs ∧ e.pkgInterop = true)) _ _
                  (fun hc => ESteps.single (EStepCore.uReclass st0 eid e he
                    (of_decide_eq_true hc).2.2.1))
                  (ESteps.single (EStepCore.uLoadedSt st0 eid .completed))) ?_
              generalize updateEntry st0 eid _ = st1
              have hpair : ∀ (p : State × Value), ESteps st1 p.1 →
                  ESteps st1 (finalizeNamespace (assignExportsToNamespace
                    (updateEntry p.1 eid (fun e3 => { e3 with exportsVal := p.2 }))
                    eid (some (getExportsObjectKeys e m.exportsVal))) eid) := by
                intro p hp
                refine ESteps.trans hp ?_
                refine ESteps.trans
                  (ESteps.single (EStepCore.uExports p.1 eid p.2)) ?_
                refine ESteps.trans (esteps_assignExports _ eid
                  (some (getExportsObjectKeys e m.exportsVal))) ?_
                exact ESteps.single (EStepCore.uFinalize _ eid)
              have hadd : ESteps st1 (if (alook e.getters "default").isNone then
                  addGetter st1 eid "default" (GetterFn.readNamespace "default")
                  else st1) := by
                split
                · exact ESteps.single (EStepCore.uAddGetter st1 eid "default" _)
                · exact ESteps.refl st1
              generalize hA : (if (alook e.getters "default").isNone then
                  addGetter st1 eid "default" (GetterFn.readNamespace "default")
                  else st1) = stA at hadd ⊢
              have hMeq : (match nlook stA.entries eid with
                  | some e2 => (stA, proxyExports e2)
                  | none => (stA, m.exportsVal)).1 = stA := by
                cases nlook stA.entries eid <;> rfl
              have hIf : ∀ (c : Prop) (inst : Decidable c),
                  ESteps st1 (@ite _ c inst stA st1) := by
                intro c inst
                split
                · exact hadd
                · exact ESteps.refl st1
              refine hpair _ ?_
              rw [apply_ite Prod.fst]
              dsimp only
              rw [hMeq]
              exact hIf _ _

theorem esteps_loadedFn (st : State) (eid : Nat) :
    ESteps st (loadedFn st eid).1 :=
  ESteps.trans (esteps_pushEvent st (Event.loadedCall eid))
    (esteps_loadedFnGo (pushEvent st (Event.loadedCall eid)) eid)

theorem esteps_runParentsWith
    (ub : Nat → Option (List String) → UpdateType → Option (List Nat) → State →
      State × List Nat × UBStatus)
    (hub : ∀ pid names put seen st, ESteps st (ub pid names put seen st).1) :
    ∀ (l : List (String × Nat)) (put : UpdateType) (seen : List Nat) (st : State),
      ESteps st (runParentsWith ub l put seen st).1 := by
  intro l
  induction l with
  | nil => intro put seen st; exact ESteps.refl st
  | cons p rest ih =>
    intro put seen st
    obtain ⟨nm, pid⟩ := p
    unfold runParentsWith
    have h1 := esteps_loadedFn st pid
    rcases hL : loadedFn st pid with ⟨st1, ls⟩
    rw [hL] at h1
    dsimp only
    have h2 := hub pid none put (some seen) st1
    rcases hU : ub pid none put (some seen) st1 with ⟨st2, seen2, stat⟩
    rw [hU] at h2
    cases stat with
    | ok => exact ESteps.trans (ESteps.trans h1 h2) (ih put seen2 st2)
    | threw er => exact ESteps.trans h1 h2
    | outOfFuel => exact ESteps.trans h1 h2

theorem esteps_ubGo
    (ub : Nat → Option (List String) → UpdateType → Option (List Nat) → State →
      State × List Nat × UBStatus)
    (hub : ∀ pid names put seen st, ESteps st (ub pid names put seen st).1)
    (eid : Nat) (names : Option (List String)) (ut : UpdateType)
    (seenOpt : Option (List Nat)) (st0 : State) :
    ESteps st0 (ubGo ub eid names ut seenOpt st0).1 := by
  unfold ubGo
  split
  · exact ESteps.refl st0
  · rename_i e he
    dsimp only
    split
    · exact ESteps.refl st0
    · refine ESteps.trans (esteps_pushEvent st0 (Event.bodyRun eid)) ?_
      generalize pushEvent st0 (Event.bodyRun eid) = st1
      refine ESteps.trans (ESteps.single (EStepCore.uChanged st1 eid false)) ?_
      generalize updateEntry st1 eid _ = st2
      refine ESteps.trans (esteps_runGetters st2 eid names) ?_
      generalize runGetters st2 eid names = st3
      have h4 := esteps_runSetters st3 eid names ut
        (e.circular || ut == UpdateType.live || ut == UpdateType.init)
      rcases hS : runSetters st3 eid names ut
          (e.circular || ut == UpdateType.live || ut == UpdateType.init) with
        ⟨st4, pmap, err⟩
      rw [hS] at h4
      dsimp only
      cases err with
      | some er => exact h4
      | none =>
        refine ESteps.trans h4 ?_
        refine ESteps.trans (ESteps.single (EStepCore.uChanged st4 eid false)) ?_
        generalize updateEntry st4 eid _ = st5
        cases pmap with
        | none => exact ESteps.refl st5
        | some pm =>
          exact esteps_runParentsWith ub hub pm (escalateUpdateType ut) _ st5

theorem esteps_updateBindings :
    ∀ (fuel eid : Nat) (names : Option (List String)) (ut : UpdateType)
      (seenOpt : Option (List Nat)) (st : State),
      ESteps st (updateBindings fuel eid names ut seenOpt st).1 := by
  intro fuel
  induction fuel with
  | zero => intro eid names ut seenOpt st; exact ESteps.refl st
  | succ f ih =>
    intro eid names ut seenOpt st
    show ESteps st (ubGo (updateBindings f) eid names ut seenOpt
      (pushEvent st (Event.ubCall eid names ut seenOpt))).1
    exact ESteps.trans (esteps_pushEvent st (Event.ubCall eid names ut seenOpt))
      (esteps_ubGo (updateBindings f)
        (fun pid names2 put seen2 st6 => ih pid names2 put seen2 st6)
        eid names ut seenOpt _)

theorem esteps_entrySet (st : State) (m : ModArg) (eid : Nat) :
    ESteps st (entrySet st m eid) := by
  unfold entrySet
  split
  · exact ESteps.refl st
  · exact ESteps.single (EStepCore.uCacheSet st _ eid)

theorem esteps_entryGet (st : State) (m : ModArg) :
    ESteps st (entryGet st m).1 := by
  unfold entryGet
  split
  · exact ESteps.refl st
  · rename_i mid
    split
    · exact ESteps.refl st
    · rename_i mrec hm
      refine ESteps.trans ?_ (esteps_entrySet _ (ModArg.modRef mid) _)
      split
      · exact ESteps.single (EStepCore.uEntryNew st mid mrec)
      · rename_i eid0 hc
        split
        · exact ESteps.refl st
        · rename_i e he
          split
          · split
            · exact ESteps.refl st
            · rename_i em hem
              dsimp only
              split
              · rename_i feid hb
                exact ESteps.single (EStepCore.uBridgeDel st em.exportsVal)
              · exact ESteps.refl st
          · exact ESteps.refl st

theorem alook_foldl_true (ns : List String) (ib : List (String × Bool))
    (n0 : String) (h : alook ib n0 = some true) :
    alook (ns.foldl (fun ib n => aset ib n true) ib) n0 = some true := by
  induction ns generalizing ib with
  | nil => exact h
  | cons n rest ih =>
    rw [List.foldl_cons]
    refine ih _ ?_
    rw [alook_aset]
    split
    · rfl
    · exact h

theorem alook_seed_false (ns : List String) (ib : List (String × Bool))
    (n0 : String) (h : alook ib n0 = some true) :
    alook (ns.foldl (fun ib n =>
      match alook ib n with
      | none => aset ib n false
      | some _ => ib) ib) n0 = some true := by
  induction ns generalizing ib with
  | nil => exact h
  | cons n rest ih =>
    rw [List.foldl_cons]
    refine ih _ ?_
    cases hn : alook ib n with
    | none =>
      rw [alook_aset]
      split
      · rename_i he; subst he; rw [h] at hn; cases hn
      · exact h
    | some b => exact h

theorem nlook_append_some {α : Type} {l : List (Nat × α)} {j : Nat} {x : α}
    (h : nlook l j = some x) (kv : Nat × α) : nlook (l ++ [kv]) j = some x := by
  induction l with
  | nil => simp [nlook] at h
  | cons p rest ih =>
    obtain ⟨k, v⟩ := p
    rw [List.cons_append]
    unfold nlook at h ⊢
    split
    · rw [if_pos (by assumption)] at h; exact h
    · rw [if_neg (by assumption)] at h; exact ih h

theorem ib_rawNsWrite (e : EntryRec) (name : String) (v : Value) :
    (rawNsWrite e name v).importedBindings = e.importedBindings := by
  unfold rawNsWrite
  split
  · rfl
  · rfl
  · split <;> rfl
  · rfl

theorem ibFlag_updateEntry_mono (st : State) (i0 : Nat) (f : EntryRec → EntryRec)
    (i : Nat) (n : String)
    (hf : ∀ e, alook e.importedBindings n = some true →
      alook (f e).importedBindings n = some true)
    (hib : ibFlag st i n = some true) :
    ibFlag (updateEntry st i0 f) i n = some true := by
  cases hx : nlook st.entries i with
  | none => unfold ibFlag at hib; rw [hx] at hib; cases hib
  | some e =>
    unfold ibFlag at hib ⊢
    rw [hx] at hib
    rw [nlook_updateEntry, hx]
    by_cases hii : i = i0
    · rw [if_pos hii]
      show alook (f e).importedBindings n = some true
      exact hf e hib
    · rw [if_neg hii]
      exact hib

theorem ibFlag_updateEntry_eq (st : State) (i0 : Nat) (f : EntryRec → EntryRec)
    (hf : ∀ e, (f e).importedBindings = e.importedBindings) (i : Nat) (n : String) :
    ibFlag (updateEntry st i0 f) i n = ibFlag st i n := by
  cases hx : nlook st.entries i with
  | none =>
    unfold ibFlag
    rw [nlook_updateEntry, hx]
    by_cases hii : i = i0
    · rw [if_pos hii]
      rfl
    · rw [if_neg hii]
  | some e =>
    unfold ibFlag
    rw [nlook_updateEntry, hx]
    by_cases hii : i = i0
    · rw [if_pos hii]
      show alook (f e).importedBindings n = alook e.importedBindings n
      rw [hf]
    · rw [if_neg hii]

theorem ibFlag_step {a b : State} (h : EStepCore a b) (i : Nat) (n : String)
    (hib : ibFlag a i n = some true) : ibFlag b i n = some true := by
  cases h with
  | push ev => exact hib
  | updMod i0 f => exact hib
  | uCacheSet mid e => exact hib
  | uBridgeDel v => exact hib
  | uChanged i0 bl => exact ibFlag_updateEntry_mono a i0 _ i n (fun e he => he) hib
  | uAddGetter i0 name g =>
    exact ibFlag_updateEntry_mono a i0 _ i n (fun e he => he) hib
  | uAddSetter i0 name l t r p =>
    exact ibFlag_updateEntry_mono _ p _ i n (fun e he => alook_seed_false l _ n he)
      (ibFlag_updateEntry_mono a i0 _ i n (fun e he => he) hib)
  | uRawRemove i0 name =>
    exact ibFlag_updateEntry_mono a i0 _ i n (fun e he => he) hib
  | uRawWrite i0 name v =>
    refine ibFlag_updateEntry_mono a i0 _ i n (fun e he => ?_) hib
    rw [ib_rawNsWrite]
    exact he
  | uSetters i0 name l =>
    exact ibFlag_updateEntry_mono a i0 _ i n (fun e he => he) hib
  | uIBtrue i0 ns =>
    exact ibFlag_updateEntry_mono a i0 _ i n
      (fun e he => alook_foldl_true ns _ n he) hib
  | uLoadedSt i0 s => exact ibFlag_updateEntry_mono a i0 _ i n (fun e he => he) hib
  | uLoadedEsm i0 => exact ibFlag_updateEntry_mono a i0 _ i n (fun e he => he) hib
  | uReclass i0 e0 he0 ht0 =>
    exact ibFlag_updateEntry_mono a i0 _ i n (fun e he => he) hib
  | uExports i0 v => exact ibFlag_updateEntry_mono a i0 _ i n (fun e he => he) hib
  | uExportsAssign i0 name v =>
    exact ibFlag_updateEntry_mono a i0 _ i n (fun e he => he) hib
  | uExportsDelete i0 name =>
    exact ibFlag_updateEntry_mono a i0 _ i n (fun e he => he) hib
  | uFinalize i0 =>
    unfold finalizeNamespace
    split
    · exact hib
    · split
      · exact hib
      · refine ibFlag_updateEntry_mono a i0 _ i n (fun e he => ?_) hib
        dsimp only
        split
        · split <;> exact he
        · exact he
  | uEntryNew mid m =>
    cases hx : nlook a.entries i with
    | none => unfold ibFlag at hib; rw [hx] at hib; cases hib
    | some e =>
      unfold ibFlag at hib ⊢
      rw [hx] at hib
      rw [nlook_append_some hx]
      exact hib

theorem ibFlag_esteps {a b : State} (h : ESteps a b) (i : Nat) (n : String)
    (hib : ibFlag a i n = some true) : ibFlag b i n = some true := by
  induction h with
  | refl => exact hib
  | tail h1 h2 ih => exact ibFlag_step h2 i n ih

theorem ibFlag_immDefine (st : State) (eid : Nat) (sel : ImmSel) (name : String)
    (d : PropDesc) (strict : Bool) (i : Nat) (n : String) :
    ibFlag (immDefineProperty st eid sel name d strict).1 i n = ibFlag st i n := by
  unfold immDefineProperty
  split
  · rfl
  · dsimp only
    split
    · exact ibFlag_updateEntry_eq st eid _ (fun e2 => by cases sel <;> rfl) i n
    · split
      · rfl
      · split <;> rfl

theorem ibFlag_immDelete (st : State) (eid : Nat) (sel : ImmSel) (name : String)
    (strict : Bool) (i : Nat) (n : String) :
    ibFlag (immDeleteProperty st eid sel name strict).1 i n = ibFlag st i n := by
  unfold immDeleteProperty
  split
  · rfl
  · split
    · exact ibFlag_updateEntry_eq st eid _ (fun e2 => by cases sel <;> rfl) i n
    · split <;> rfl

theorem immSet_state (st : State) (eid : Nat) (sel : ImmSel) (name : String)
    (strict : Bool) : (immSet st eid sel name strict).1 = st := by
  unfold immSet
  split
  · rfl
  · split
    · rfl
    · split <;> rfl

theorem ibFlag_preventExtensions (st : State) (eid : Nat) (k : NsViewKind)
    (i : Nat) (n : String) :
    ibFlag (commonPreventExtensions st eid k).1 i n = ibFlag st i n := by
  unfold commonPreventExtensions
  split
  · rfl
  · split
    · exact ibFlag_updateEntry_eq st eid _ (fun e2 => by cases k <;> rfl) i n
    · rfl

theorem esteps_mutDefine (fuel : Nat) (st : State) (eid : Nat) (sel : MutSel)
    (name : String) (d : PropDesc) :
    ESteps st (mutDefineProperty fuel st eid sel name d).1 := by
  unfold mutDefineProperty
  split
  · exact ESteps.refl st
  · rename_i e he
    split
    · exact ESteps.refl st
    · dsimp only
      refine ESteps.trans (ESteps.single
        (EStepCore.uExportsAssign st eid name (d.value.getD .undef))) ?_
      generalize updateEntry st eid _ = st1
      split
      · exact ESteps.trans (ESteps.single (EStepCore.uAddGetter st1 eid name _))
          (esteps_updateBindings fuel eid (some [name]) .dflt none _)
      · exact ESteps.refl st1

theorem esteps_mutDelete (fuel : Nat) (st : State) (eid : Nat) (sel : MutSel)
    (name : String) :
    ESteps st (mutDeleteProperty fuel st eid sel name).1 := by
  unfold mutDeleteProperty
  split
  · exact ESteps.refl st
  · rename_i e he
    split
    · dsimp only
      refine ESteps.trans (ESteps.single (EStepCore.uExportsDelete st eid name)) ?_
      generalize updateEntry st eid _ = st1
      split
      · exact ESteps.trans (ESteps.single (EStepCore.uAddGetter st1 eid name _))
          (esteps_updateBindings fuel eid (some [name]) .dflt none _)
      · exact ESteps.refl st1
    · exact ESteps.refl st

theorem esteps_mutSet (fuel : Nat) (st : State) (eid : Nat) (sel : MutSel)
    (name : String) (v : Value) :
    ESteps st (mutSet fuel st eid sel name v).1 := by
  unfold mutSet
  split
  · exact ESteps.refl st
  · rename_i e he
    split
    · dsimp only
      refine ESteps.trans (ESteps.single (EStepCore.uExportsAssign st eid name v)) ?_
      generalize updateEntry st eid _ = st1
      split
      · exact ESteps.trans (ESteps.single (EStepCore.uAddGetter st1 eid name _))
          (esteps_updateBindings fuel eid (some [name]) .dflt none _)
      · exact ESteps.refl st1
    · exact ESteps.refl st

theorem ibFlag_applyOp (op : EngineOp) (st : State) (i : Nat) (n : String)
    (hib : ibFlag st i n = some true) : ibFlag (applyOp st op) i n = some true := by
  cases op with
  | opAddGetter eid name g =>
    exact ibFlag_esteps (ESteps.single (EStepCore.uAddGetter st eid name g)) i n hib
  | opAddSetter eid name l t r p =>
    exact ibFlag_esteps (ESteps.single (EStepCore.uAddSetter st eid name l t r p)) i n hib
  | opAssignExports eid names =>
    exact ibFlag_esteps (esteps_assignExports st eid names) i n hib
  | opFinalize eid =>
    exact ibFlag_esteps (ESteps.single (EStepCore.uFinalize st eid)) i n hib
  | opLoaded eid => exact ibFlag_esteps (esteps_loadedFn st eid) i n hib
  | opUpdateBindings fuel eid names ut seen =>
    exact ibFlag_esteps (esteps_updateBindings fuel eid names ut seen st) i n hib
  | opEntryGet m => exact ibFlag_esteps (esteps_entryGet st m) i n hib
  | opEntrySet m eid => exact ibFlag_esteps (esteps_entrySet st m eid) i n hib
  | opImmDefine eid sel name d strict =>
    show ibFlag (immDefineProperty st eid sel name d strict).1 i n = some true
    rw [ibFlag_immDefine]
    exact hib
  | opImmDelete eid sel name strict =>
    show ibFlag (immDeleteProperty st eid sel name strict).1 i n = some true
    rw [ibFlag_immDelete]
    exact hib
  | opImmSet eid sel name strict =>
    show ibFlag (immSet st eid sel name strict).1 i n = some true
    rw [immSet_state]
    exact hib
  | opPreventExtensions eid k =>
    show ibFlag (commonPreventExtensions st eid k).1 i n = some true
    rw [ibFlag_preventExtensions]
    exact hib
  | opMutDefine fuel eid sel name d =>
    exact ibFlag_esteps (esteps_mutDefine fuel st eid sel name d) i n hib
  | opMutDelete fuel eid sel name =>
    exact ibFlag_esteps (esteps_mutDelete fuel st eid sel name) i n hib
  | opMutSet fuel eid sel name v =>
    exact ibFlag_esteps (esteps_mutSet fuel st eid sel name v) i n hib

/-- **C9**: the `importedBindings` flags of an entry are monotone across the
engine's whole operation surface: once a local name's flag is `true` (set by
a successfully delivered setter value), no sequence of engine operations —
binding registration (whose `addSetter` seeds `false` only for local names
not yet present), propagation (whose `updateBindings` callback only ever
writes `true`, and only when the delivered value was not the error
sentinel), loading, cache accessors or namespace traps — ever resets it to
`false` or removes it. -/
theorem C9_importedBindings_monotone (ops : List EngineOp) (st : State)
    (i : Nat) (n : String) (hib : ibFlag st i n = some true) :
    ibFlag (ops.foldl applyOp st) i n = some true := by
  induction ops generalizing st with
  | nil => exact hib
  | cons op rest ih =>
    rw [List.foldl_cons]
    exact ih _ (ibFlag_applyOp op st i n hib)

/-- C9 witness: a parent entry with an initialized binding keeps it across a
propagation call and a new setter registration seeding the same local
name. -/
theorem C9_importedBindings_monotone_witness :
    ibFlag c9State 1 "old" = some true ∧
    ibFlag ([EngineOp.opUpdateBindings 2 0 (some ["x"]) UpdateType.live none,
      EngineOp.opAddSetter 0 "x" ["old", "z"] SetterType.staticImport true 1].foldl
        applyOp c9State) 1 "old" = some true :=
  ⟨by decide, C9_importedBindings_monotone _ c9State 1 "old" (by decide)⟩

theorem mem_aset {α : Type} {kv : String × α} :
    ∀ {l : List (String × α)} {k : String} {v : α},
      kv ∈ aset l k v → kv ∈ l ∨ kv = (k, v) := by
  intro l
  induction l with
  | nil =>
    intro k v h
    simp [aset] at h
    exact Or.inr h
  | cons p rest ih =>
    obtain ⟨k0, w⟩ := p
    intro k v h
    unfold aset at h
    split at h
    · rename_i hk
      rcases List.mem_cons.1 h with h1 | h1
      · rw [hk] at h1
        exact Or.inr h1
      · exact Or.inl (List.mem_cons_of_mem _ h1)
    · rcases List.mem_cons.1 h with h1 | h1
      · exact Or.inl (h1 ▸ List.mem_cons_self _ _)
      · rcases ih h1 with h2 | h2
        · exact Or.inl (List.mem_cons_of_mem _ h2)
        · exact Or.inr h2

theorem sealed_viewDefine {ns : NsView} {name : String} {d : PropDesc} {ns' : NsView}
    (hs : ViewSealed ns) (h : viewDefineProperty ns name d = some ns') :
    ns'.props.map Prod.fst = ns.props.map Prod.fst ∧ ViewSealed ns' := by
  unfold viewDefineProperty at h
  cases hcur : alook ns.props name with
  | none =>
    rw [hcur] at h
    dsimp only at h
    simp [hs.1] at h
  | some cur =>
    rw [hcur] at h
    dsimp only at h
    have hcc : cur.configurable = false := hs.2 (name, cur) (alook_mem hcur)
    split at h
    · cases h
    · split at h
      · cases h
      · split at h
        · cases h
        · rename_i hg1 hg2 hg3
          injection h with h
          subst h
          constructor
          · exact map_fst_aset ns.props name _ (by rw [hcur]; rfl)
          · refine ⟨hs.1, ?_⟩
            intro kv hkv
            rcases mem_aset hkv with hm | hm
            · exact hs.2 kv hm
            · subst hm
              show (d.configurable.getD cur.configurable) = false
              cases hdc : d.configurable with
              | none => exact hcc
              | some b =>
                cases b with
                | false => rfl
                | true => exact absurd ⟨hdc, hcc⟩ hg1

theorem sealed_viewDelete {ns : NsView} {name : String} {ns' : NsView}
    (hs : ViewSealed ns) (h : viewDeleteProperty ns name = some ns') : ns' = ns := by
  unfold viewDeleteProperty at h
  cases hcur : alook ns.props name with
  | none =>
    rw [hcur] at h
    dsimp only at h
    injection h with h
    exact h.symm
  | some cur =>
    rw [hcur] at h
    dsimp only at h
    have hcc : cur.configurable = false := hs.2 (name, cur) (alook_mem hcur)
    simp [hcc] at h

theorem skInv_updateEntry (st : State) (i0 : Nat) (f : EntryRec → EntryRec)
    (i : Nat) (ks : List String × List String × List String × List String)
    (hf : ∀ e, nlook st.entries i0 = some e → e.nsFinalized = true →
      ViewSealed e.completeNs →
      (e.typ ≠ EntryType.esm → ViewSealed e.partNs) →
      (f e).nsFinalized = true ∧ ViewSealed (f e).completeNs ∧
      ((f e).typ ≠ EntryType.esm → ViewSealed (f e).partNs) ∧
      ViewKeys (f e) = ViewKeys e)
    (hinv : SealedKeysInv st i ks) : SealedKeysInv (updateEntry st i0 f) i ks := by
  obtain ⟨e, he, h1, h2, h3, h4⟩ := hinv
  by_cases hii : i = i0
  · obtain ⟨q1, q2, q3, q4⟩ := hf e (hii ▸ he) h1 h2 h3
    exact ⟨f e, by rw [nlook_updateEntry, if_pos hii, he]; rfl, q1, q2, q3,
      by rw [q4]; exact h4⟩
  · exact ⟨e, by rw [nlook_updateEntry, if_neg hii]; exact he, h1, h2, h3, h4⟩

theorem rawNsWrite_core (e : EntryRec) (name : String) (v : Value) :
    (rawNsWrite e name v).nsFinalized = e.nsFinalized ∧
    (rawNsWrite e name v).completeNs = e.completeNs ∧
    (rawNsWrite e name v).partNs = e.partNs ∧
    (rawNsWrite e name v).completeMutableNs = e.completeMutableNs ∧
    (rawNsWrite e name v).partMutableNs = e.partMutableNs ∧
    (rawNsWrite e name v).typ = e.typ := by
  unfold rawNsWrite
  split
  · exact ⟨rfl, rfl, rfl, rfl, rfl, rfl⟩
  · exact ⟨rfl, rfl, rfl, rfl, rfl, rfl⟩
  · split <;> exact ⟨rfl, rfl, rfl, rfl, rfl, rfl⟩
  · exact ⟨rfl, rfl, rfl, rfl, rfl, rfl⟩

theorem skInv_step {a b : State} (h : EStepCore a b) (i : Nat)
    (ks : List String × List String × List String × List String)
    (hinv : SealedKeysInv a i ks) : SealedKeysInv b i ks := by
  cases h with
  | push ev => exact hinv
  | updMod i0 f => exact hinv
  | uCacheSet mid e => exact hinv
  | uBridgeDel v => exact hinv
  | uChanged i0 bl =>
    exact skInv_updateEntry a i0 _ i ks (fun e _ hA hB hC => ⟨hA, hB, hC, rfl⟩) hinv
  | uAddGetter i0 name g =>
    exact skInv_updateEntry a i0 _ i ks (fun e _ hA hB hC => ⟨hA, hB, hC, rfl⟩) hinv
  | uAddSetter i0 name l t r p =>
    exact skInv_updateEntry _ p _ i ks (fun e _ hA hB hC => ⟨hA, hB, hC, rfl⟩)
      (skInv_updateEntry a i0 _ i ks (fun e _ hA hB hC => ⟨hA, hB, hC, rfl⟩) hinv)
  | uRawRemove i0 name =>
    exact skInv_updateEntry a i0 _ i ks (fun e _ hA hB hC => ⟨hA, hB, hC, rfl⟩) hinv
  | uRawWrite i0 name v =>
    refine skInv_updateEntry a i0 _ i ks (fun e _ hA hB hC => ?_) hinv
    obtain ⟨q1, q2, q3, q4, q5, q6⟩ :=
      rawNsWrite_core { e with changed := true } name v
    refine ⟨by rw [q1]; exact hA, by rw [q2]; exact hB,
      by rw [q6, q3]; exact hC, ?_⟩
    show ViewKeys (rawNsWrite { e with changed := true } name v) = ViewKeys e
    unfold ViewKeys
    rw [q2, q3, q4, q5]
  | uSetters i0 name l =>
    exact skInv_updateEntry a i0 _ i ks (fun e _ hA hB hC => ⟨hA, hB, hC, rfl⟩) hinv
  | uIBtrue i0 ns =>
    exact skInv_updateEntry a i0 _ i ks (fun e _ hA hB hC => ⟨hA, hB, hC, rfl⟩) hinv
  | uLoadedSt i0 s =>
    exact skInv_updateEntry a i0 _ i ks (fun e _ hA hB hC => ⟨hA, hB, hC, rfl⟩) hinv
  | uLoadedEsm i0 =>
    exact skInv_updateEntry a i0 _ i ks (fun e _ hA hB hC => ⟨hA, hB, hC, rfl⟩) hinv
  | uReclass i0 e0 he0 ht0 =>
    refine skInv_updateEntry a i0 _ i ks (fun e hee hA hB hC => ⟨hA, hB, ?_, rfl⟩) hinv
    intro _
    have hee0 : e = e0 := by
      rw [hee] at he0
      injection he0
    refine hC ?_
    rw [hee0, ht0]
    intro hx
    cases hx
  | uExports i0 v =>
    exact skInv_updateEntry a i0 _ i ks (fun e _ hA hB hC => ⟨hA, hB, hC, rfl⟩) hinv
  | uExportsAssign i0 name v =>
    exact skInv_updateEntry a i0 _ i ks (fun e _ hA hB hC => ⟨hA, hB, hC, rfl⟩) hinv
  | uExportsDelete i0 name =>
    exact skInv_updateEntry a i0 _ i ks (fun e _ hA hB hC => ⟨hA, hB, hC, rfl⟩) hinv
  | uFinalize i0 =>
    unfold finalizeNamespace
    split
    · exact hinv
    · rename_i e0 he0
      split
      · exact hinv
      · rename_i hnf
        obtain ⟨e, he, h1, h2, h3, h4⟩ := hinv
        by_cases hii : i = i0
        · subst hii
          rw [he] at he0
          injection he0 with he0
          subst he0
          exact absurd h1 hnf
        · exact ⟨e, by rw [nlook_updateEntry, if_neg hii]; exact he, h1, h2, h3, h4⟩
  | uEntryNew mid m =>
    obtain ⟨e, he, h1, h2, h3, h4⟩ := hinv
    exact ⟨e, nlook_append_some he _, h1, h2, h3, h4⟩

theorem skInv_esteps {a b : State} (h : ESteps a b) (i : Nat)
    (ks : List String × List String × List String × List String)
    (hinv : SealedKeysInv a i ks) : SealedKeysInv b i ks := by
  induction h with
  | refl => exact hinv
  | tail h1 h2 ih => exact skInv_step h2 i ks ih

theorem skInv_applyOp (op : EngineOp) (st : State) (i : Nat)
    (ks : List String × List String × List String × List String)
    (hop : servedOp st op) (hinv : SealedKeysInv st i ks) :
    SealedKeysInv (applyOp st op) i ks := by
  cases op with
  | opAddGetter eid name g =>
    exact skInv_esteps (ESteps.single (EStepCore.uAddGetter st eid name g)) i ks hinv
  | opAddSetter eid name l t r p =>
    exact skInv_esteps (ESteps.single (EStepCore.uAddSetter st eid name l t r p)) i ks hinv
  | opAssignExports eid names =>
    exact skInv_esteps (esteps_assignExports st eid names) i ks hinv
  | opFinalize eid =>
    exact skInv_esteps (ESteps.single (EStepCore.uFinalize st eid)) i ks hinv
  | opLoaded eid => exact skInv_esteps (esteps_loadedFn st eid) i ks hinv
  | opUpdateBindings fuel eid names ut seen =>
    exact skInv_esteps (esteps_updateBindings fuel eid names ut seen st) i ks hinv
  | opEntryGet m => exact skInv_esteps (esteps_entryGet st m) i ks hinv
  | opEntrySet m eid => exact skInv_esteps (esteps_entrySet st m eid) i ks hinv
  | opMutDefine fuel eid sel name d =>
    exact skInv_esteps (esteps_mutDefine fuel st eid sel name d) i ks hinv
  | opMutDelete fuel eid sel name =>
    exact skInv_esteps (esteps_mutDelete fuel st eid sel name) i ks hinv
  | opMutSet fuel eid sel name v =>
    exact skInv_esteps (esteps_mutSet fuel st eid sel name v) i ks hinv
  | opImmSet eid sel name strict =>
    show SealedKeysInv (immSet st eid sel name strict).1 i ks
    rw [immSet_state]
    exact hinv
  | opPreventExtensions eid k =>
    show SealedKeysInv (commonPreventExtensions st eid k).1 i ks
    unfold commonPreventExtensions
    split
    · exact hinv
    · split
      · refine skInv_updateEntry st eid _ i ks (fun e _ hA hB hC => ?_) hinv
        cases k with
        | complete =>
          refine ⟨hA, ⟨rfl, hB.2⟩, hC, ?_⟩
          unfold ViewKeys
          rfl
        | completeMutable => exact ⟨hA, hB, hC, rfl⟩
        | part =>
          refine ⟨hA, hB, fun ht => ⟨rfl, (hC ht).2⟩, ?_⟩
          unfold ViewKeys
          rfl
        | partMutable => exact ⟨hA, hB, hC, rfl⟩
      · exact hinv
  | opImmDefine eid sel name d strict =>
    show SealedKeysInv (immDefineProperty st eid sel name d strict).1 i ks
    unfold immDefineProperty
    split
    · exact hinv
    · rename_i e2 he2
      dsimp only
      split
      · rename_i ns' happ
        have hdef : viewDefineProperty (getImmView e2 sel) name d = some ns' := by
          split at happ
          · exact happ
          · cases happ
        refine skInv_updateEntry st eid _ i ks (fun e hee hA hB hC => ?_) hinv
        have he2e : e = e2 := by
          rw [hee] at he2
          injection he2
        subst he2e
        cases sel with
        | complete =>
          obtain ⟨hk, hsns⟩ := sealed_viewDefine hB hdef
          refine ⟨hA, hsns, hC, ?_⟩
          show ViewKeys { e with completeNs := ns' } = ViewKeys e
          unfold ViewKeys
          dsimp only
          rw [hk]
        | part =>
          have htyp : e.typ ≠ EntryType.esm := hop rfl e he2
          obtain ⟨hk, hsns⟩ := sealed_viewDefine (hC htyp) hdef
          refine ⟨hA, hB, fun _ => hsns, ?_⟩
          show ViewKeys { e with partNs := ns' } = ViewKeys e
          unfold ViewKeys
          dsimp only
          rw [hk]
      · split
        · exact hinv
        · split <;> exact hinv
  | opImmDelete eid sel name strict =>
    show SealedKeysInv (immDeleteProperty st eid sel name strict).1 i ks
    unfold immDeleteProperty
    split
    · exact hinv
    · rename_i e2 he2
      split
      · rename_i ns' hdel
        refine skInv_updateEntry st eid _ i ks (fun e hee hA hB hC => ?_) hinv
        have he2e : e = e2 := by
          rw [hee] at he2
          injection he2
        subst he2e
        cases sel with
        | complete =>
          have hns : ns' = e.completeNs := sealed_viewDelete hB hdel
          subst hns
          exact ⟨hA, hB, hC, rfl⟩
        | part =>
          have htyp : e.typ ≠ EntryType.esm := hop rfl e he2
          have hns : ns' = e.partNs := sealed_viewDelete (hC htyp) hdel
          subst hns
          exact ⟨hA, hB, hC, rfl⟩
      · split <;> exact hinv

theorem skInv_servedOps (ops : List EngineOp) (st : State) (i : Nat)
    (ks : List String × List String × List String × List String)
    (hops : ServedOps st ops) (hinv : SealedKeysInv st i ks) :
    SealedKeysInv (ops.foldl applyOp st) i ks := by
  induction ops generalizing st with
  | nil => exact hinv
  | cons op rest ih =>
    rw [List.foldl_cons]
    exact ih _ hops.2 (skInv_applyOp op st i ks hops.1 hinv)

/-- **C4**: once a Module Record's namespace finalization has completed
(`_namespaceFinalized`, with the readonly complete view sealed and, for
non-declarative entries, the readonly partial view sealed), a repeated
`finalizeNamespace` call is a no-op, and across any sequence of engine
operations the engine serves, the entry stays finalized, its readonly views
stay sealed, and the own-key lists of all four namespace views never gain or
lose a key — only the values behind already-present keys may be
refreshed. -/
theorem C4_sealed_after_finalize (st : State) (i : Nat) (e : EntryRec)
    (ops : List EngineOp)
    (he : nlook st.entries i = some e) (hfin : e.nsFinalized = true)
    (hsc : ViewSealed e.completeNs)
    (hsp : e.typ ≠ EntryType.esm → ViewSealed e.partNs)
    (hops : ServedOps st ops) :
    finalizeNamespace st i = st ∧
    ∃ e', nlook (ops.foldl applyOp st).entries i = some e' ∧
      e'.nsFinalized = true ∧ ViewSealed e'.completeNs ∧
      (e'.typ ≠ EntryType.esm → ViewSealed e'.partNs) ∧
      ViewKeys e' = ViewKeys e := by
  constructor
  · unfold finalizeNamespace
    rw [he]
    dsimp only
    rw [if_pos hfin]
  · exact skInv_servedOps ops st i (ViewKeys e) hops ⟨e, he, hfin, hsc, hsp, rfl⟩

/-- C4 witness: a finalized CJS entry with sealed readonly views keeps its
key sets across a served define, a prevent-extensions, a propagation call
and a served delete. -/
theorem C4_sealed_after_finalize_witness :
    finalizeNamespace c4State 0 = c4State ∧
    ∃ e', nlook (([EngineOp.opImmDefine 0 .complete "x" ⟨some (.prim 9), none, none⟩ true,
        EngineOp.opPreventExtensions 0 .completeMutable,
        EngineOp.opUpdateBindings 2 0 none .live none,
        EngineOp.opImmDelete 0 .complete "zz" false]).foldl applyOp c4State).entries 0 =
        some e' ∧
      e'.nsFinalized = true ∧ ViewSealed e'.completeNs ∧
      (e'.typ ≠ EntryType.esm → ViewSealed e'.partNs) ∧
      ViewKeys e' = ViewKeys c4Entry :=
  C4_sealed_after_finalize c4State 0 c4Entry _ (by decide) (by decide)
    (by unfold ViewSealed; decide)
    (fun _ => by unfold ViewSealed; decide)
    ⟨fun h => ImmSel.noConfusion h, trivial, trivial, fun h => ImmSel.noConfusion h,
      trivial⟩

theorem trace_updateEntry (st : State) (i : Nat) (f : EntryRec → EntryRec) :
    (updateEntry st i f).trace = st.trace := rfl

theorem trace_updateModule (st : State) (i : Nat) (f : ModuleRec → ModuleRec) :
    (updateModule st i f).trace = st.trace := rfl

theorem trace_addGetter (st : State) (eid : Nat) (name : String) (g : GetterFn) :
    (addGetter st eid name g).trace = st.trace := rfl

theorem trace_finalizeNamespace (st : State) (i : Nat) :
    (finalizeNamespace st i).trace = st.trace := by
  unfold finalizeNamespace
  split
  · rfl
  · split
    · rfl
    · rfl

theorem trace_assignExports (st : State) (eid : Nat) (ns : Option (List String)) :
    (assignExportsToNamespace st eid ns).trace = st.trace := by
  unfold assignExportsToNamespace
  split
  · rfl
  · dsimp only
    split
    · rfl
    · refine proj_foldl State.trace _ ?_ _ st
      intro st2 n
      dsimp only
      split
      · rfl
      · split
        · rfl
        · rfl

theorem trace_loadedFnGo (st0 : State) (eid : Nat) :
    (loadedFnGo st0 eid).1.trace = st0.trace := by
  unfold loadedFnGo
  split
  · rfl
  · rename_i e he
    split
    · rfl
    · split
      · rfl
      · rename_i m hm
        split
        · rfl
        · dsimp only
          split
          · rfl
          · split
            · -- declarative branch
              dsimp only
              rw [trace_finalizeNamespace]
              split
              · split
                · rw [trace_assignExports, trace_updateEntry]
                · rename_i e2 he2
                  split
                  · rw [trace_updateModule, trace_assignExports, trace_updateEntry]
                  · split
                    · rw [trace_updateEntry, trace_assignExports, trace_updateEntry]
                    · rw [trace_assignExports, trace_updateEntry]
              · rw [trace_assignExports, trace_updateEntry]
            · -- dynamic branch
              dsimp only
              rw [trace_finalizeNamespace, trace_assignExports, trace_updateEntry]
              split <;> first
                | rfl
                | (split <;> first
                    | rfl
                    | (split <;> first | rfl | (split <;> rfl)))

theorem trace_loadedFn (st : State) (eid : Nat) :
    (loadedFn st eid).1.trace = st.trace ++ [Event.loadedCall eid] := by
  show (loadedFnGo (pushEvent st (Event.loadedCall eid)) eid).1.trace = _
  rw [trace_loadedFnGo]
  rfl

theorem trace_mono_step {a b : State} (h : EStepCore a b) :
    ∃ t, b.trace = a.trace ++ t := by
  cases h with
  | push ev => exact ⟨[ev], rfl⟩
  | updMod i0 f => exact ⟨[], (List.append_nil _).symm⟩
  | uChanged i0 bl => exact ⟨[], (List.append_nil _).symm⟩
  | uAddGetter i0 name g => exact ⟨[], (List.append_nil _).symm⟩
  | uAddSetter i0 name l t r p => exact ⟨[], (List.append_nil _).symm⟩
  | uRawRemove i0 name => exact ⟨[], (List.append_nil _).symm⟩
  | uRawWrite i0 name v => exact ⟨[], (List.append_nil _).symm⟩
  | uSetters i0 name l => exact ⟨[], (List.append_nil _).symm⟩
  | uIBtrue i0 ns => exact ⟨[], (List.append_nil _).symm⟩
  | uLoadedSt i0 s => exact ⟨[], (List.append_nil _).symm⟩
  | uLoadedEsm i0 => exact ⟨[], (List.append_nil _).symm⟩
  | uReclass i0 e0 he0 ht0 => exact ⟨[], (List.append_nil _).symm⟩
  | uExports i0 v => exact ⟨[], (List.append_nil _).symm⟩
  | uExportsAssign i0 name v => exact ⟨[], (List.append_nil _).symm⟩
  | uExportsDelete i0 name => exact ⟨[], (List.append_nil _).symm⟩
  | uFinalize i0 =>
    exact ⟨[], by rw [trace_finalizeNamespace, List.append_nil]⟩
  | uEntryNew mid m => exact ⟨[], (List.append_nil _).symm⟩
  | uCacheSet mid e => exact ⟨[], (List.append_nil _).symm⟩
  | uBridgeDel v => exact ⟨[], (List.append_nil _).symm⟩

theorem trace_mono_esteps {a b : State} (h : ESteps a b) :
    ∃ t, b.trace = a.trace ++ t := by
  induction h with
  | refl => exact ⟨[], (List.append_nil _).symm⟩
  | tail h1 h2 ih =>
    obtain ⟨t1, ht1⟩ := ih
    obtain ⟨t2, ht2⟩ := trace_mono_step h2
    exact ⟨t1 ++ t2, by rw [ht2, ht1, List.append_assoc]⟩

theorem updateBindings_trace (fuel eid : Nat) (names : Option (List String))
    (ut : UpdateType) (seenOpt : Option (List Nat)) (st : State) :
    ∃ t, (updateBindings (fuel + 1) eid names ut seenOpt st).1.trace =
      st.trace ++ Event.ubCall eid names ut seenOpt :: t := by
  obtain ⟨t, ht⟩ := trace_mono_esteps
    (esteps_ubGo (updateBindings fuel)
      (fun pid n2 p2 s2 st2 => esteps_updateBindings fuel pid n2 p2 s2 st2)
      eid names ut seenOpt (pushEvent st (Event.ubCall eid names ut seenOpt)))
  refine ⟨t, ?_⟩
  show (ubGo (updateBindings fuel) eid names ut seenOpt
    (pushEvent st (Event.ubCall eid names ut seenOpt))).1.trace = _
  rw [ht]
  show (st.trace ++ [Event.ubCall eid names ut seenOpt]) ++ t = _
  rw [List.append_assoc]
  rfl

/-- C3 counterexample: the parent update-kind escalation maps the default
kind to default, not to live — a circular entry propagated with the default
kind recurses into its pending parent with kind default (the ghost `ubCall`
of the parent records it), and no live-kind recursion happens, refuting
"escalate maps every update kind — including default — to live". -/
theorem C3_counterexample :
    escalateUpdateType UpdateType.dflt = UpdateType.dflt ∧
    Event.ubCall 1 none UpdateType.dflt (some [0]) ∈
      (updateBindings 2 0 none UpdateType.dflt none c3State).1.trace ∧
    Event.ubCall 1 none UpdateType.live (some [0]) ∉
      (updateBindings 2 0 none UpdateType.dflt none c3State).1.trace := by decide

/-- **C3 (amended)**: after the getter and setter passes, the pending-parent
loop processes each recorded parent by first recomputing that parent's
loaded state and then recursing into the parent's `updateBindings` with
names `null`, the escalated update kind, and the visited set extended by the
current record — where `escalate` maps `live`/`init` to `live` and leaves
`default` as `default`; shown by the trace of the parent loop (ghost
`loadedCall` then `ubCall` with exactly those arguments), and end-to-end on
a concrete circular graph propagated with the `init` kind. -/
theorem C3_parent_recursion (fuel : Nat) (ut : UpdateType) (visited : List Nat)
    (eid : Nat) (st : State) (nm : String) (pid : Nat)
    (rest : List (String × Nat)) :
    (∃ t, (runParentsWith (updateBindings (fuel + 1)) ((nm, pid) :: rest)
        (escalateUpdateType ut) (visited ++ [eid]) st).1.trace =
      st.trace ++ Event.loadedCall pid ::
        Event.ubCall pid none (escalateUpdateType ut)
          (some (visited ++ [eid])) :: t) ∧
    Event.loadedCall 1 ∈
      (updateBindings 2 0 none UpdateType.init none c3State).1.trace ∧
    Event.ubCall 1 none UpdateType.live (some [0]) ∈
      (updateBindings 2 0 none UpdateType.init none c3State).1.trace := by
  refine ⟨?_, by decide, by decide⟩
  unfold runParentsWith
  rcases hL : loadedFn st pid with ⟨st1, ls⟩
  have h1 := trace_loadedFn st pid
  rw [hL] at h1
  dsimp only at h1
  dsimp only
  obtain ⟨t2, h2⟩ := updateBindings_trace fuel pid none (escalateUpdateType ut)
    (some (visited ++ [eid])) st1
  rcases hU : updateBindings (fuel + 1) pid none (escalateUpdateType ut)
      (some (visited ++ [eid])) st1 with ⟨st2, seen2, stat⟩
  rw [hU] at h2
  dsimp only at h2
  cases stat with
  | ok =>
    obtain ⟨t3, h3⟩ := trace_mono_esteps
      (esteps_runParentsWith (updateBindings (fuel + 1))
        (fun a b c d e2 => esteps_updateBindings (fuel + 1) a b c d e2)
        rest (escalateUpdateType ut) seen2 st2)
    refine ⟨t2 ++ t3, ?_⟩
    dsimp only
    rw [h3, h2, h1]
    simp
  | threw er =>
    refine ⟨t2, ?_⟩
    show st2.trace = _
    rw [h2, h1]
    simp
  | outOfFuel =>
    refine ⟨t2, ?_⟩
    show st2.trace = _
    rw [h2, h1]
    simp

theorem trace_runGetter (st : State) (eid : Nat) (name : String) :
    (runGetter st eid name).trace = st.trace := by
  unfold runGetter
  split
  · rfl
  · dsimp only
    split
    · rfl
    · split
      · rfl
      · rfl

theorem trace_runGetters (st : State) (eid : Nat) (ns : Option (List String)) :
    (runGetters st eid ns).trace = st.trace := by
  unfold runGetters
  split
  · rfl
  · dsimp only
    split
    · exact proj_foldl State.trace _ (fun st2 n => trace_runGetter st2 eid n) _ st
    · split
      · split
        · rw [trace_assignExports]
        · rfl
      · rfl

theorem ubCallback_no_fired (st : State) (s : Setter) (sup : Bool)
    (pmap : Option (List (String × Nat))) (A : Nat) (B : String)
    (stp : SetterType) (v lst : Value)
    (h : Event.setterFired A B stp v lst ∈ (ubCallback st s sup pmap).1.trace) :
    Event.setterFired A B stp v lst ∈ st.trace := by
  unfold ubCallback at h
  split at h
  · exact h
  · dsimp only at h
    split at h <;> split at h
    all_goals
      first
        | exact h
        | (rcases List.mem_append.1 h with h1 | h1
           · exact h1
           · exact Event.noConfusion (List.mem_singleton.1 h1))

theorem staticFired_runSetterGo (eid : Nat) (name : String) (ut : UpdateType)
    (sup : Bool) (isESM isLoaded isNsChanged : Bool) (A : Nat) (B : String)
    (v lst : Value) :
    ∀ (l : List Setter) (st : State) (pmap : Option (List (String × Nat))),
      Event.setterFired A B SetterType.staticImport v lst ∈
        (runSetterGo eid name ut sup isESM isLoaded isNsChanged l st pmap).1.trace →
      Event.setterFired A B SetterType.staticImport v lst ∈ st.trace ∨
        v ≠ lst ∨ ut = UpdateType.init := by
  intro l
  induction l with
  | nil => intro st pmap h; exact Or.inl h
  | cons s rest ih =>
    intro st pmap h
    unfold runSetterGo at h
    cases hres : resolveSetterValue st eid name isESM s with
    | none => rw [hres] at h; exact ih st pmap h
    | some value =>
      rw [hres] at h
      dsimp only at h
      split at h
      · exact Or.inl h
      · split at h
        · -- fired branch
          rename_i hfire
          dsimp only at h
          rcases ih _ _ h with h1 | h1
          · split at h1
            · -- skipped callback (export-from, unchanged, failed result)
              rename_i hskip
              rcases List.mem_append.1 h1 with h2 | h2
              · exact Or.inl h2
              · have heq := List.mem_singleton.1 h2
                injection heq with hA hB hT hV hL
                simp only [Bool.and_eq_true, beq_iff_eq] at hskip
                rw [← hT] at hskip
                exact SetterType.noConfusion hskip.1.2
            · have h2 := ubCallback_no_fired _ _ _ _ A B _ v lst h1
              rcases List.mem_append.1 h2 with h3 | h3
              · exact Or.inl h3
              · have heq := List.mem_singleton.1 h3
                injection heq with hA hB hT hV hL
                rw [← hT, ← hV, ← hL] at hfire
                simp at hfire
                rcases hfire with hc | hc
                · exact Or.inr (Or.inl (fun hvl => hc hvl.symm))
                · exact Or.inr (Or.inr hc)
          · exact Or.inr h1
        · dsimp only at h
          exact ih st pmap h

theorem escalate_ne_init (ut : UpdateType) :
    escalateUpdateType ut ≠ UpdateType.init := by
  cases ut <;> intro hx <;> cases hx

theorem staticFired_runSetter (st : State) (eid : Nat) (name : String)
    (ut : UpdateType) (sup : Bool) (pmap : Option (List (String × Nat)))
    (A : Nat) (B : String) (v lst : Value)
    (h : Event.setterFired A B SetterType.staticImport v lst ∈
      (runSetter st eid name ut sup pmap).1.trace) :
    Event.setterFired A B SetterType.staticImport v lst ∈ st.trace ∨
      v ≠ lst ∨ ut = UpdateType.init := by
  unfold runSetter at h
  split at h
  · exact Or.inl h
  · rename_i e he
    split at h
    · exact Or.inl h
    · rename_i setters hset
      dsimp only at h
      have hgo := staticFired_runSetterGo eid name ut sup (e.typ == .esm)
        (e.loadedSt == .completed) e.changed A B v lst setters.reverse st pmap
      rcases hE : runSetterGo eid name ut sup (e.typ == .esm)
          (e.loadedSt == .completed) e.changed setters.reverse st pmap with
        ⟨st1, rev1, pmap1, err1⟩
      rw [hE] at hgo h
      dsimp only at h
      exact hgo h

theorem staticFired_runSettersGo (eid : Nat) (ut : UpdateType) (sup : Bool)
    (A : Nat) (B : String) (v lst : Value) :
    ∀ (ns : List String) (st : State) (pmap : Option (List (String × Nat))),
      Event.setterFired A B SetterType.staticImport v lst ∈
        (runSettersGo eid ut sup ns st pmap).1.trace →
      Event.setterFired A B SetterType.staticImport v lst ∈ st.trace ∨
        v ≠ lst ∨ ut = UpdateType.init := by
  intro ns
  induction ns with
  | nil => intro st pmap h; exact Or.inl h
  | cons n restn ih =>
    intro st pmap h
    unfold runSettersGo at h
    have hS := staticFired_runSetter st eid n ut sup pmap A B v lst
    rcases hR : runSetter st eid n ut sup pmap with ⟨st1, pmap1, err1⟩
    rw [hR] at h hS
    dsimp only at h
    cases err1 with
    | some er => exact hS h
    | none =>
      rcases ih st1 pmap1 h with h1 | h1
      · exact hS h1
      · exact Or.inr h1

theorem staticFired_runSetters (st : State) (eid : Nat)
    (names? : Option (List String)) (ut : UpdateType) (sup : Bool)
    (A : Nat) (B : String) (v lst : Value)
    (h : Event.setterFired A B SetterType.staticImport v lst ∈
      (runSetters st eid names? ut sup).1.trace) :
    Event.setterFired A B SetterType.staticImport v lst ∈ st.trace ∨
      v ≠ lst ∨ ut = UpdateType.init := by
  unfold runSetters at h
  exact staticFired_runSettersGo eid ut sup A B v lst _ st none h

theorem staticFired_runParentsWith
    (ub : Nat → Option (List String) → UpdateType → Option (List Nat) → State →
      State × List Nat × UBStatus)
    (A : Nat) (B : String) (v lst : Value)
    (hub : ∀ pid n2 p2 s2 st2,
      Event.setterFired A B SetterType.staticImport v lst ∈
        (ub pid n2 p2 s2 st2).1.trace →
      Event.setterFired A B SetterType.staticImport v lst ∈ st2.trace ∨
        v ≠ lst ∨ p2 = UpdateType.init) :
    ∀ (l : List (String × Nat)) (put : UpdateType) (seen : List Nat) (st : State),
      Event.setterFired A B SetterType.staticImport v lst ∈
        (runParentsWith ub l put seen st).1.trace →
      Event.setterFired A B SetterType.staticImport v lst ∈ st.trace ∨
        v ≠ lst ∨ put = UpdateType.init := by
  intro l
  induction l with
  | nil => intro put seen st h; exact Or.inl h
  | cons p rest ih =>
    intro put seen st h
    obtain ⟨nm, pid⟩ := p
    unfold runParentsWith at h
    have hTr := trace_loadedFn st pid
    rcases hL : loadedFn st pid with ⟨st1, ls⟩
    rw [hL] at hTr h
    dsimp only at hTr h
    have hU2 := hub pid none put (some seen) st1
    rcases hU : ub pid none put (some seen) st1 with ⟨st2, seen2, stat⟩
    rw [hU] at hU2 h
    have hback : Event.setterFired A B SetterType.staticImport v lst ∈ st1.trace →
        Event.setterFired A B SetterType.staticImport v lst ∈ st.trace ∨
          v ≠ lst ∨ put = UpdateType.init := by
      intro hx
      rw [hTr] at hx
      rcases List.mem_append.1 hx with h4 | h4
      · exact Or.inl h4
      · exact Event.noConfusion (List.mem_singleton.1 h4)
    have hfrom2 : Event.setterFired A B SetterType.staticImport v lst ∈ st2.trace →
        Event.setterFired A B SetterType.staticImport v lst ∈ st.trace ∨
          v ≠ lst ∨ put = UpdateType.init := by
      intro hx
      rcases hU2 hx with h5 | h5
      · exact hback h5
      · exact Or.inr h5
    cases stat with
    | ok =>
      dsimp only at h
      rcases ih put seen2 st2 h with h1 | h1
      · exact hfrom2 h1
      · exact Or.inr h1
    | threw er => exact hfrom2 h
    | outOfFuel => exact hfrom2 h

theorem staticFired_ubGo
    (ub : Nat → Option (List String) → UpdateType → Option (List Nat) → State →
      State × List Nat × UBStatus)
    (A : Nat) (B : String) (v lst : Value)
    (hub : ∀ pid n2 p2 s2 st2,
      Event.setterFired A B SetterType.staticImport v lst ∈
        (ub pid n2 p2 s2 st2).1.trace →
      Event.setterFired A B SetterType.staticImport v lst ∈ st2.trace ∨
        v ≠ lst ∨ p2 = UpdateType.init)
    (eid : Nat) (names : Option (List String)) (ut : UpdateType)
    (seenOpt : Option (List Nat)) (st0 : State)
    (h : Event.setterFired A B SetterType.staticImport v lst ∈
      (ubGo ub eid names ut seenOpt st0).1.trace) :
    Event.setterFired A B SetterType.staticImport v lst ∈ st0.trace ∨
      v ≠ lst ∨ ut = UpdateType.init := by
  unfold ubGo at h
  split at h
  · exact Or.inl h
  · rename_i e he
    dsimp only at h
    split at h
    · exact Or.inl h
    · generalize hG : runGetters (updateEntry (pushEvent st0 (Event.bodyRun eid))
        eid (fun e2 => { e2 with changed := false })) eid names = st3 at h
      have hTr3 : st3.trace = st0.trace ++ [Event.bodyRun eid] := by
        rw [← hG, trace_runGetters]
        rfl
      have hback3 : Event.setterFired A B SetterType.staticImport v lst ∈ st3.trace →
          Event.setterFired A B SetterType.staticImport v lst ∈ st0.trace ∨
            v ≠ lst ∨ ut = UpdateType.init := by
        intro hx
        rw [hTr3] at hx
        rcases List.mem_append.1 hx with h4 | h4
        · exact Or.inl h4
        · exact Event.noConfusion (List.mem_singleton.1 h4)
      have hS4 := staticFired_runSetters st3 eid names ut
        (e.circular || ut == UpdateType.live || ut == UpdateType.init) A B v lst
      rcases hS : runSetters st3 eid names ut
          (e.circular || ut == UpdateType.live || ut == UpdateType.init) with
        ⟨st4, pmap, err⟩
      rw [hS] at h hS4
      dsimp only at h
      have hfrom4 : Event.setterFired A B SetterType.staticImport v lst ∈ st4.trace →
          Event.setterFired A B SetterType.staticImport v lst ∈ st0.trace ∨
            v ≠ lst ∨ ut = UpdateType.init := by
        intro hx
        rcases hS4 hx with h5 | h5
        · exact hback3 h5
        · exact Or.inr h5
      cases err with
      | some er => exact hfrom4 h
      | none =>
        cases pmap with
        | none => exact hfrom4 h
        | some pm =>
          rcases staticFired_runParentsWith ub A B v lst hub pm
              (escalateUpdateType ut) _ _ h with h1 | h1 | h1
          · exact hfrom4 h1
          · exact Or.inr (Or.inl h1)
          · exact absurd h1 (escalate_ne_init ut)

theorem staticFired_updateBindings (A : Nat) (B : String) (v lst : Value) :
    ∀ (fuel eid : Nat) (names : Option (List String)) (ut : UpdateType)
      (seenOpt : Option (List Nat)) (st : State),
      Event.setterFired A B SetterType.staticImport v lst ∈
        (updateBindings fuel eid names ut seenOpt st).1.trace →
      Event.setterFired A B SetterType.staticImport v lst ∈ st.trace ∨
        v ≠ lst ∨ ut = UpdateType.init := by
  intro fuel
  induction fuel with
  | zero => intro eid names ut seenOpt st h; exact Or.inl h
  | succ f ih =>
    intro eid names ut seenOpt st h
    have h2 := staticFired_ubGo (updateBindings f) A B v lst
      (fun pid n2 p2 s2 st2 hx => ih pid n2 p2 s2 st2 hx)
      eid names ut seenOpt (pushEvent st (Event.ubCall eid names ut seenOpt)) h
    rcases h2 with h3 | h3
    · rcases List.mem_append.1 h3 with h4 | h4
      · exact Or.inl h4
      · exact Event.noConfusion (List.mem_singleton.1 h4)
    · exact Or.inr h3

/-- C2 counterexample: with no intervening export change, a second
`updateBindings` call on the same record re-fires an export-from setter
whose resolved value equals its last observed value (the fired event records
`value = lastObservedValue = 7`), and that setter is not a one-shot
dynamic-import setter; the first call completed normally. -/
theorem C2_counterexample :
    (updateBindings 1 0 none UpdateType.dflt none c2State).2.2 = UBStatus.ok ∧
    Event.setterFired 0 "x" SetterType.exportFrom (.prim 7) (.prim 7) ∈
      (updateBindings 1 0 none UpdateType.dflt none
        (updateBindings 1 0 none UpdateType.dflt none c2State).1).1.trace := by
  decide

/-- **C2 (amended)**: across any `updateBindings` call whose update kind is
not `init`, no static-import setter fires with a resolved value equal to its
last observed value: every newly recorded static-import `setterFired` event
carries a value different (by identity) from the setter's last observed one.
(Export-from setters re-fire on every pass, namespace-export setters re-fire
when the exporter's namespace changed, and dynamic-import setters re-fire
until their callback reports success on a loaded module; those are the
exception kinds of the amended claim.) -/
theorem C2_no_static_refire (fuel eid : Nat) (names : Option (List String))
    (ut : UpdateType) (seenOpt : Option (List Nat)) (st : State)
    (A : Nat) (B : String) (v lst : Value)
    (hut : ut ≠ UpdateType.init)
    (h : Event.setterFired A B SetterType.staticImport v lst ∈
      (updateBindings fuel eid names ut seenOpt st).1.trace) :
    Event.setterFired A B SetterType.staticImport v lst ∈ st.trace ∨ v ≠ lst := by
  rcases staticFired_updateBindings A B v lst fuel eid names ut seenOpt st h with
    h1 | h1 | h1
  · exact Or.inl h1
  · exact Or.inr h1
  · exact absurd h1 hut

/-- C2 witness: on a concrete entry with one static-import setter, the first
propagation's fired event indeed carries a changed value. -/
theorem C2_no_static_refire_witness :
    UpdateType.dflt ≠ UpdateType.init ∧
    Event.setterFired 0 "x" SetterType.staticImport (.prim 7) Value.initialValue ∈
      (updateBindings 1 0 none UpdateType.dflt none c2StaticState).1.trace ∧
    (Event.setterFired 0 "x" SetterType.staticImport (.prim 7) Value.initialValue ∈
      c2StaticState.trace ∨ (Value.prim 7) ≠ Value.initialValue) :=
  ⟨by decide, by decide,
    C2_no_static_refire 1 0 none UpdateType.dflt none c2StaticState 0 "x"
      (.prim 7) Value.initialValue (by decide) (by decide)⟩

theorem idsOf_addGetter (st : State) (eid : Nat) (name : String) (g : GetterFn) :
    idsOf (addGetter st eid name g) = idsOf st :=
  idsOf_updateEntry st eid _

theorem idsOf_assignExports (st : State) (eid : Nat) (ns : Option (List String)) :
    idsOf (assignExportsToNamespace st eid ns) = idsOf st := by
  unfold assignExportsToNamespace
  split
  · rfl
  · dsimp only
    split
    · rfl
    · refine proj_foldl idsOf _ ?_ _ st
      intro st2 n
      dsimp only
      split
      · rfl
      · split
        · exact idsOf_addGetter st2 eid n _
        · rfl

theorem idsOf_finalizeNamespace (st : State) (i : Nat) :
    idsOf (finalizeNamespace st i) = idsOf st := by
  unfold finalizeNamespace
  split
  · rfl
  · split
    · rfl
    · exact idsOf_updateEntry st i _

theorem idsOf_runGetter (st : State) (eid : Nat) (name : String) :
    idsOf (runGetter st eid name) = idsOf st := by
  unfold runGetter
  split
  · rfl
  · dsimp only
    split
    · exact idsOf_updateEntry st eid _
    · split
      · exact idsOf_updateEntry st eid _
      · rfl

theorem idsOf_runGetters (st : State) (eid : Nat) (ns : Option (List String)) :
    idsOf (runGetters st eid ns) = idsOf st := by
  unfold runGetters
  split
  · rfl
  · dsimp only
    split
    · exact proj_foldl idsOf _ (fun st2 n => idsOf_runGetter st2 eid n) _ st
    · split
      · split
        · exact idsOf_assignExports st eid ns
        · rfl
      · rfl

theorem idsOf_ubCallback (st : State) (s : Setter) (sup : Bool)
    (pmap : Option (List (String × Nat))) :
    idsOf (ubCallback st s sup pmap).1 = idsOf st := by
  unfold ubCallback
  split
  · rfl
  · dsimp only
    split <;> split <;>
      first
        | rfl
        | exact idsOf_updateEntry st _ _
        | (dsimp only
           rw [idsOf_pushEvent]
           first
             | rfl
             | exact idsOf_updateEntry st _ _)

theorem idsOf_runSetterGo (eid : Nat) (name : String) (ut : UpdateType)
    (sup : Bool) (isESM isLoaded isNsChanged : Bool) :
    ∀ (l : List Setter) (st : State) (pmap : Option (List (String × Nat))),
      idsOf (runSetterGo eid name ut sup isESM isLoaded isNsChanged l st pmap).1 =
        idsOf st := by
  intro l
  induction l with
  | nil => intro st pmap; rfl
  | cons s rest ih =>
    intro st pmap
    unfold runSetterGo
    cases resolveSetterValue st eid name isESM s with
    | none => exact ih st pmap
    | some value =>
      dsimp only
      split
      · rfl
      · split
        · dsimp only
          rw [ih]
          split
          · rfl
          · rw [idsOf_ubCallback]
            rfl
        · exact ih st pmap

theorem idsOf_runSetter (st : State) (eid : Nat) (name : String)
    (ut : UpdateType) (sup : Bool) (pmap : Option (List (String × Nat))) :
    idsOf (runSetter st eid name ut sup pmap).1 = idsOf st := by
  unfold runSetter
  split
  · rfl
  · rename_i e he
    split
    · rfl
    · rename_i setters hset
      dsimp only
      have hgo := idsOf_runSetterGo eid name ut sup (e.typ == .esm)
        (e.loadedSt == .completed) e.changed setters.reverse st pmap
      rcases hE : runSetterGo eid name ut sup (e.typ == .esm)
          (e.loadedSt == .completed) e.changed setters.reverse st pmap with
        ⟨st1, rev1, pmap1, err1⟩
      rw [hE] at hgo
      rw [idsOf_updateEntry]
      exact hgo

theorem idsOf_runSettersGo (eid : Nat) (ut : UpdateType) (sup : Bool) :
    ∀ (ns : List String) (st : State) (pmap : Option (List (String × Nat))),
      idsOf (runSettersGo eid ut sup ns st pmap).1 = idsOf st := by
  intro ns
  induction ns with
  | nil => intro st pmap; rfl
  | cons n restn ih =>
    intro st pmap
    unfold runSettersGo
    have hR1 := idsOf_runSetter st eid n ut sup pmap
    rcases hR : runSetter st eid n ut sup pmap with ⟨st1, pmap1, err1⟩
    rw [hR] at hR1
    dsimp only
    cases err1 with
    | some er => exact hR1
    | none => rw [ih st1 pmap1]; exact hR1

theorem idsOf_runSetters (st : State) (eid : Nat)
    (names? : Option (List String)) (ut : UpdateType) (sup : Bool) :
    idsOf (runSetters st eid names? ut sup).1 = idsOf st := by
  unfold runSetters
  exact idsOf_runSettersGo eid ut sup _ st none

theorem idsOf_loadedFnGo (st0 : State) (eid : Nat) :
    idsOf (loadedFnGo st0 eid).1 = idsOf st0 := by
  unfold loadedFnGo
  split
  · rfl
  · rename_i e he
    split
    · rfl
    · split
      · rfl
      · rename_i m hm
        split
        · exact idsOf_updateEntry st0 eid _
        · dsimp only
          split
          · exact idsOf_updateEntry st0 eid _
          · split
            · -- declarative branch
              dsimp only
              rw [idsOf_finalizeNamespace]
              split
              · split
                · rw [idsOf_assignExports, idsOf_updateEntry]
                · rename_i e2 he2
                  split
                  · rw [idsOf_updateModule, idsOf_assignExports, idsOf_updateEntry]
                  · split
                    · rw [idsOf_updateEntry, idsOf_assignExports, idsOf_updateEntry]
                    · rw [idsOf_assignExports, idsOf_updateEntry]
              · rw [idsOf_assignExports, idsOf_updateEntry]
            · -- dynamic branch
              dsimp only
              rw [idsOf_finalizeNamespace, idsOf_assignExports, idsOf_updateEntry]
              split <;> first
                | rfl
                | exact idsOf_updateEntry st0 eid _
                | exact Eq.trans (idsOf_addGetter _ eid "default" _)
                    (idsOf_updateEntry st0 eid _)
                | (split <;> first
                    | rfl
                    | exact idsOf_updateEntry st0 eid _
                    | exact Eq.trans (idsOf_addGetter _ eid "default" _)
                        (idsOf_updateEntry st0 eid _)
                    | (split <;> first
                        | rfl
                        | exact idsOf_updateEntry st0 eid _
                        | exact Eq.trans (idsOf_addGetter _ eid "default" _)
                            (idsOf_updateEntry st0 eid _)
                        | (split <;> first
                            | rfl
                            | exact idsOf_updateEntry st0 eid _
                            | exact Eq.trans (idsOf_addGetter _ eid "default" _)
                                (idsOf_updateEntry st0 eid _))))

theorem idsOf_loadedFn (st : State) (eid : Nat) :
    idsOf (loadedFn st eid).1 = idsOf st := by
  show idsOf (loadedFnGo (pushEvent st (Event.loadedCall eid)) eid).1 = idsOf st
  rw [idsOf_loadedFnGo]
  rfl

theorem idsOf_runParentsWith
    (ub : Nat → Option (List String) → UpdateType → Option (List Nat) → State →
      State × List Nat × UBStatus)
    (hub : ∀ pid n2 p2 s2 st2, idsOf (ub pid n2 p2 s2 st2).1 = idsOf st2) :
    ∀ (l : List (String × Nat)) (put : UpdateType) (seen : List Nat) (st : State),
      idsOf (runParentsWith ub l put seen st).1 = idsOf st := by
  intro l
  induction l with
  | nil => intro put seen st; rfl
  | cons p rest ih =>
    intro put seen st
    obtain ⟨nm, pid⟩ := p
    unfold runParentsWith
    have hL1 := idsOf_loadedFn st pid
    rcases hL : loadedFn st pid with ⟨st1, ls⟩
    rw [hL] at hL1
    dsimp only
    have hU1 := hub pid none put (some seen) st1
    rcases hU : ub pid none put (some seen) st1 with ⟨st2, seen2, stat⟩
    rw [hU] at hU1
    cases stat with
    | ok => rw [ih put seen2 st2, hU1]; exact hL1
    | threw er => rw [hU1]; exact hL1
    | outOfFuel => rw [hU1]; exact hL1

theorem idsOf_ubGo
    (ub : Nat → Option (List String) → UpdateType → Option (List Nat) → State →
      State × List Nat × UBStatus)
    (hub : ∀ pid n2 p2 s2 st2, idsOf (ub pid n2 p2 s2 st2).1 = idsOf st2)
    (eid : Nat) (names : Option (List String)) (ut : UpdateType)
    (seenOpt : Option (List Nat)) (st0 : State) :
    idsOf (ubGo ub eid names ut seenOpt st0).1 = idsOf st0 := by
  unfold ubGo
  split
  · rfl
  · rename_i e he
    dsimp only
    split
    · rfl
    · generalize hG : runGetters (updateEntry (pushEvent st0 (Event.bodyRun eid))
        eid (fun e2 => { e2 with changed := false })) eid names = st3
      have hG1 : idsOf st3 = idsOf st0 := by
        rw [← hG, idsOf_runGetters, idsOf_updateEntry]
        rfl
      have hS1 := idsOf_runSetters st3 eid names ut
        (e.circular || ut == UpdateType.live || ut == UpdateType.init)
      rcases hS : runSetters st3 eid names ut
          (e.circular || ut == UpdateType.live || ut == UpdateType.init) with
        ⟨st4, pmap, err⟩
      rw [hS] at hS1
      dsimp only
      cases err with
      | some er => rw [hS1]; exact hG1
      | none =>
        cases pmap with
        | none =>
          rw [idsOf_updateEntry, hS1]
          exact hG1
        | some pm =>
          rw [idsOf_runParentsWith ub hub, idsOf_updateEntry, hS1]
          exact hG1

theorem idsOf_updateBindings :
    ∀ (fuel eid : Nat) (names : Option (List String)) (ut : UpdateType)
      (seenOpt : Option (List Nat)) (st : State),
      idsOf (updateBindings fuel eid names ut seenOpt st).1 = idsOf st := by
  intro fuel
  induction fuel with
  | zero => intro eid names ut seenOpt st; rfl
  | succ f ih =>
    intro eid names ut seenOpt st
    show idsOf (ubGo (updateBindings f) eid names ut seenOpt
      (pushEvent st (Event.ubCall eid names ut seenOpt))).1 = idsOf st
    rw [idsOf_ubGo (updateBindings f)
      (fun pid n2 p2 s2 st2 => ih pid n2 p2 s2 st2)]
    rfl

theorem contains_iff_mem {l : List Nat} {x : Nat} :
    l.contains x = true ↔ x ∈ l := by
  induction l with
  | nil => simp
  | cons a t ih =>
    simp only [List.contains_cons, Bool.or_eq_true, beq_iff_eq, List.mem_cons]
    rw [ih]

theorem nlook_mem_fst {α : Type} {l : List (Nat × α)} {k : Nat} {v : α}
    (h : nlook l k = some v) : k ∈ l.map Prod.fst := by
  induction l with
  | nil => simp [nlook] at h
  | cons p rest ih =>
    obtain ⟨k0, w⟩ := p
    unfold nlook at h
    split at h
    · rename_i hk
      simp [hk]
    · simp only [List.map_cons, List.mem_cons]
      exact Or.inr (ih h)

theorem filter_len_mono {l : List Nat} {p q : Nat → Bool}
    (himp : ∀ x, q x = true → p x = true) :
    (l.filter q).length ≤ (l.filter p).length := by
  induction l with
  | nil => exact Nat.le_refl _
  | cons a t ih =>
    by_cases hq : q a = true
    · rw [List.filter_cons_of_pos hq, List.filter_cons_of_pos (himp a hq)]
      exact Nat.succ_le_succ ih
    · rw [List.filter_cons_of_neg (by simpa using hq)]
      by_cases hp : p a = true
      · rw [List.filter_cons_of_pos hp]
        exact Nat.le_succ_of_le ih
      · rw [List.filter_cons_of_neg (by simpa using hp)]
        exact ih

theorem filter_len_strict {l : List Nat} {p q : Nat → Bool} {x0 : Nat}
    (himp : ∀ x, q x = true → p x = true)
    (hx0 : x0 ∈ l) (hp : p x0 = true) (hq : q x0 = false) :
    (l.filter q).length < (l.filter p).length := by
  induction l with
  | nil => simp at hx0
  | cons a t ih =>
    rcases List.mem_cons.1 hx0 with ha | ha
    · subst ha
      rw [List.filter_cons_of_pos hp, List.filter_cons_of_neg (by simp [hq])]
      exact Nat.lt_succ_of_le (filter_len_mono himp)
    · by_cases hqa : q a = true
      · rw [List.filter_cons_of_pos hqa, List.filter_cons_of_pos (himp a hqa)]
        exact Nat.succ_lt_succ (ih ha)
      · rw [List.filter_cons_of_neg (by simpa using hqa)]
        by_cases hpa : p a = true
        · rw [List.filter_cons_of_pos hpa]
          exact Nat.lt_succ_of_lt (ih ha)
        · rw [List.filter_cons_of_neg (by simpa using hpa)]
          exact ih ha

theorem remainingIds_le {st' st : State} {seen seen' : List Nat}
    (hids : idsOf st' = idsOf st)
    (hsub : ∀ x, x ∈ seen → x ∈ seen') :
    remainingIds st' seen' ≤ remainingIds st seen := by
  unfold remainingIds
  rw [hids]
  refine filter_len_mono ?_
  intro x hx
  simp only [Bool.not_eq_true'] at hx ⊢
  by_contra hc
  have h1 : seen.contains x = true := by
    cases h2 : seen.contains x
    · exact absurd h2 hc
    · rfl
  have h2 : x ∈ seen' := hsub x (contains_iff_mem.1 h1)
  rw [contains_iff_mem.2 h2] at hx
  cases hx

theorem remainingIds_snoc_lt {st : State} {seen : List Nat} {eid : Nat}
    (hid : eid ∈ idsOf st) (hnot : seen.contains eid = false) :
    remainingIds st (seen ++ [eid]) < remainingIds st seen := by
  unfold remainingIds
  refine filter_len_strict ?_ hid ?_ ?_
  · intro x hx
    simp only [Bool.not_eq_true'] at hx ⊢
    by_contra hc
    have h1 : seen.contains x = true := by
      cases h2 : seen.contains x
      · exact absurd h2 hc
      · rfl
    have h2 : x ∈ seen ++ [eid] :=
      List.mem_append.2 (Or.inl (contains_iff_mem.1 h1))
    rw [contains_iff_mem.2 h2] at hx
    cases hx
  · show (!seen.contains eid) = true
    rw [hnot]
    rfl
  · show (!(seen ++ [eid]).contains eid) = false
    rw [contains_iff_mem.2 (List.mem_append.2 (Or.inr (List.mem_singleton.2 rfl)))]
    rfl

theorem pmap_ubCallback_false (st : State) (s : Setter)
    (pmap : Option (List (String × Nat))) :
    (ubCallback st s false pmap).2 = pmap := by
  unfold ubCallback
  split
  · rfl
  · rfl

theorem pmap_runSetterGo_false (eid : Nat) (name : String) (ut : UpdateType)
    (isESM isLoaded isNsChanged : Bool) :
    ∀ (l : List Setter) (st : State) (pmap : Option (List (String × Nat))),
      (runSetterGo eid name ut false isESM isLoaded isNsChanged l st pmap).2.2.1 =
        pmap := by
  intro l
  induction l with
  | nil => intro st pmap; rfl
  | cons s rest ih =>
    intro st pmap
    unfold runSetterGo
    cases hres : resolveSetterValue st eid name isESM s with
    | none =>
      have h2 := ih st pmap
      rcases hE : runSetterGo eid name ut false isESM isLoaded isNsChanged
          rest st pmap with ⟨a, b, c, d⟩
      rw [hE] at h2
      dsimp only
      exact h2
    | some value =>
      dsimp only
      split
      · rfl
      · split
        · dsimp only
          set X := (if !s.fnResult && (s.stype == SetterType.exportFrom) &&
              !(!(s.stype == SetterType.dynamicImport) && !(s.last == value)) then
              (pushEvent st (Event.setterFired eid name s.stype value s.last), pmap)
            else ubCallback (pushEvent st (Event.setterFired eid name s.stype value s.last))
              { s with last := value } false pmap) with hXdef
          have hX2 : X.2 = pmap := by
            rw [hXdef]
            split
            · rfl
            · exact pmap_ubCallback_false _ _ _
          have h2 := ih X.1 X.2
          rcases hE : runSetterGo eid name ut false isESM isLoaded isNsChanged
              rest X.1 X.2 with ⟨a, b, c, d⟩
          rw [hE] at h2
          dsimp only at h2
          dsimp only
          rw [h2]
          exact hX2
        · have h2 := ih st pmap
          rcases hE : runSetterGo eid name ut false isESM isLoaded isNsChanged
              rest st pmap with ⟨a, b, c, d⟩
          rw [hE] at h2
          dsimp only
          exact h2

theorem pmap_runSetter_false (st : State) (eid : Nat) (name : String)
    (ut : UpdateType) (pmap : Option (List (String × Nat))) :
    (runSetter st eid name ut false pmap).2.1 = pmap := by
  unfold runSetter
  split
  · rfl
  · rename_i e he
    split
    · rfl
    · rename_i setters hset
      dsimp only
      have h2 := pmap_runSetterGo_false eid name ut (e.typ == .esm)
        (e.loadedSt == .completed) e.changed setters.reverse st pmap
      rcases hE : runSetterGo eid name ut false (e.typ == .esm)
          (e.loadedSt == .completed) e.changed setters.reverse st pmap with
        ⟨a, b, c, d⟩
      rw [hE] at h2
      exact h2

theorem pmap_runSettersGo_false (eid : Nat) (ut : UpdateType) :
    ∀ (ns : List String) (st : State) (pmap : Option (List (String × Nat))),
      (runSettersGo eid ut false ns st pmap).2.1 = pmap := by
  intro ns
  induction ns with
  | nil => intro st pmap; rfl
  | cons n restn ih =>
    intro st pmap
    unfold runSettersGo
    have hR1 := pmap_runSetter_false st eid n ut pmap
    rcases hR : runSetter st eid n ut false pmap with ⟨st1, pmap1, err1⟩
    rw [hR] at hR1
    dsimp only at hR1
    dsimp only
    cases err1 with
    | some er => exact hR1
    | none => rw [ih st1 pmap1]; exact hR1

theorem pmap_runSetters_false (st : State) (eid : Nat)
    (names? : Option (List String)) (ut : UpdateType) :
    (runSetters st eid names? ut false).2.1 = none := by
  unfold runSetters
  exact pmap_runSettersGo_false eid ut _ st none

theorem seen_mono_runParentsWith
    (ub : Nat → Option (List String) → UpdateType → Option (List Nat) → State →
      State × List Nat × UBStatus)
    (hub : ∀ pid n2 p2 (s2 : List Nat) st2 x, x ∈ s2 →
      x ∈ (ub pid n2 p2 (some s2) st2).2.1) :
    ∀ (l : List (String × Nat)) (put : UpdateType) (seen : List Nat) (st : State)
      (x : Nat), x ∈ seen → x ∈ (runParentsWith ub l put seen st).2.1 := by
  intro l
  induction l with
  | nil => intro put seen st x hx; exact hx
  | cons p rest ih =>
    intro put seen st x hx
    obtain ⟨nm, pid⟩ := p
    unfold runParentsWith
    rcases hL : loadedFn st pid with ⟨st1, ls⟩
    dsimp only
    have hU1 := hub pid none put seen st1 x hx
    rcases hU : ub pid none put (some seen) st1 with ⟨st2, seen2, stat⟩
    rw [hU] at hU1
    cases stat with
    | ok => exact ih put seen2 st2 x hU1
    | threw er => exact hU1
    | outOfFuel => exact hU1

theorem seen_mono_ubGo
    (ub : Nat → Option (List String) → UpdateType → Option (List Nat) → State →
      State × List Nat × UBStatus)
    (hub : ∀ pid n2 p2 (s2 : List Nat) st2 x, x ∈ s2 →
      x ∈ (ub pid n2 p2 (some s2) st2).2.1)
    (eid : Nat) (names : Option (List String)) (ut : UpdateType)
    (seenOpt : Option (List Nat)) (st0 : State) (x : Nat)
    (hx : x ∈ seenOpt.getD []) :
    x ∈ (ubGo ub eid names ut seenOpt st0).2.1 := by
  unfold ubGo
  split
  · exact hx
  · rename_i e he
    dsimp only
    split
    · exact hx
    · rcases hS : runSetters (runGetters (updateEntry (pushEvent st0
          (Event.bodyRun eid)) eid (fun e2 => { e2 with changed := false }))
          eid names) eid names ut
          (e.circular || ut == UpdateType.live || ut == UpdateType.init) with
        ⟨st4, pmap, err⟩
      dsimp only
      cases err with
      | some er => exact hx
      | none =>
        cases pmap with
        | none => exact hx
        | some pm =>
          refine seen_mono_runParentsWith ub hub pm (escalateUpdateType ut) _ _ x ?_
          split
          · exact hx
          · exact List.mem_append.2 (Or.inl hx)

theorem seen_mono_updateBindings :
    ∀ (fuel eid : Nat) (names : Option (List String)) (ut : UpdateType)
      (seenOpt : Option (List Nat)) (st : State) (x : Nat),
      x ∈ seenOpt.getD [] →
      x ∈ (updateBindings fuel eid names ut seenOpt st).2.1 := by
  intro fuel
  induction fuel with
  | zero => intro eid names ut seenOpt st x hx; exact hx
  | succ f ih =>
    intro eid names ut seenOpt st x hx
    show x ∈ (ubGo (updateBindings f) eid names ut seenOpt
      (pushEvent st (Event.ubCall eid names ut seenOpt))).2.1
    exact seen_mono_ubGo (updateBindings f)
      (fun pid n2 p2 s2 st2 y hy => ih pid n2 p2 (some s2) st2 y hy)
      eid names ut seenOpt _ x hx

theorem remainingIds_congr {st' st : State} (h : idsOf st' = idsOf st)
    (seen : List Nat) : remainingIds st' seen = remainingIds st seen := by
  unfold remainingIds
  rw [h]

theorem runParents_no_out (f : Nat)
    (ub : Nat → Option (List String) → UpdateType → Option (List Nat) → State →
      State × List Nat × UBStatus)
    (hubP : ∀ pid n2 p2 (seen2 : List Nat) st2, remainingIds st2 seen2 < f →
      (ub pid n2 p2 (some seen2) st2).2.2 ≠ UBStatus.outOfFuel)
    (hubIds : ∀ pid n2 p2 s2 st2, idsOf (ub pid n2 p2 s2 st2).1 = idsOf st2)
    (hubSeen : ∀ pid n2 p2 (s2 : List Nat) st2 x, x ∈ s2 →
      x ∈ (ub pid n2 p2 (some s2) st2).2.1) :
    ∀ (l : List (String × Nat)) (put : UpdateType) (seen : List Nat) (st : State),
      remainingIds st seen < f →
      (runParentsWith ub l put seen st).2.2 ≠ UBStatus.outOfFuel := by
  intro l
  induction l with
  | nil => intro put seen st hrem h; exact UBStatus.noConfusion h
  | cons p rest ih =>
    intro put seen st hrem
    obtain ⟨nm, pid⟩ := p
    unfold runParentsWith
    have hL1 := idsOf_loadedFn st pid
    rcases hL : loadedFn st pid with ⟨st1, ls⟩
    rw [hL] at hL1
    dsimp only at hL1
    dsimp only
    have hrem1 : remainingIds st1 seen < f := by
      rw [remainingIds_congr hL1]
      exact hrem
    have hP := hubP pid none put seen st1 hrem1
    have hIds := hubIds pid none put (some seen) st1
    have hSeen := hubSeen pid none put seen st1
    rcases hU : ub pid none put (some seen) st1 with ⟨st2, seen2, stat⟩
    rw [hU] at hP hIds hSeen
    dsimp only at hP hIds hSeen
    cases stat with
    | ok =>
      have hrem2 : remainingIds st2 seen2 < f := by
        refine Nat.lt_of_le_of_lt (remainingIds_le hIds ?_) hrem1
        exact fun y hy => hSeen y hy
      exact ih put seen2 st2 hrem2
    | threw er => intro h; exact UBStatus.noConfusion h
    | outOfFuel => exact fun _ => hP rfl

theorem ub_no_out :
    ∀ (fuel eid : Nat) (names : Option (List String)) (ut : UpdateType)
      (seenOpt : Option (List Nat)) (st : State),
      remainingIds st (seenOpt.getD []) < fuel →
      (updateBindings fuel eid names ut seenOpt st).2.2 ≠ UBStatus.outOfFuel := by
  intro fuel
  induction fuel with
  | zero => intro eid names ut seenOpt st hrem; exact absurd hrem (Nat.not_lt_zero _)
  | succ f ih =>
    intro eid names ut seenOpt st hrem
    show (ubGo (updateBindings f) eid names ut seenOpt
      (pushEvent st (Event.ubCall eid names ut seenOpt))).2.2 ≠ _
    have hids0 : idsOf (pushEvent st (Event.ubCall eid names ut seenOpt)) =
      idsOf st := rfl
    generalize hst0 : pushEvent st (Event.ubCall eid names ut seenOpt) = st0
    rw [hst0] at hids0
    unfold ubGo
    split
    · intro h; exact UBStatus.noConfusion h
    · rename_i e he
      dsimp only
      split
      · intro h; exact UBStatus.noConfusion h
      · rename_i hguard
        generalize hG : runGetters (updateEntry (pushEvent st0 (Event.bodyRun eid))
          eid (fun e2 => { e2 with changed := false })) eid names = st3
        have hids3 : idsOf st3 = idsOf st0 := by
          rw [← hG, idsOf_runGetters, idsOf_updateEntry]
          rfl
        have hS1 := idsOf_runSetters st3 eid names ut
          (e.circular || ut == UpdateType.live || ut == UpdateType.init)
        rcases hS : runSetters st3 eid names ut
            (e.circular || ut == UpdateType.live || ut == UpdateType.init) with
          ⟨st4, pmap, err⟩
        rw [hS] at hS1
        dsimp only at hS1
        dsimp only
        cases err with
        | some er => intro h; exact UBStatus.noConfusion h
        | none =>
          cases pmap with
          | none => intro h; exact UBStatus.noConfusion h
          | some pm =>
            cases hsup : (e.circular || ut == UpdateType.live ||
                ut == UpdateType.init) with
            | false =>
              rw [hsup] at hS
              have hnone := pmap_runSetters_false st3 eid names ut
              rw [hS] at hnone
              dsimp only at hnone
              exact absurd hnone (by intro hh; cases hh)
            | true =>
              have hcon : (seenOpt.getD []).contains eid = false := by
                cases seenOpt with
                | none => rfl
                | some s =>
                  rw [hsup] at hguard
                  dsimp only at hguard
                  simp only [Bool.true_and] at hguard
                  show s.contains eid = false
                  cases hcc : s.contains eid
                  · rfl
                  · exact absurd hcc hguard
              have hseen1 : (if (seenOpt.getD []).contains eid then
                  seenOpt.getD [] else seenOpt.getD [] ++ [eid]) =
                  seenOpt.getD [] ++ [eid] := by
                rw [hcon]
                rfl
              have hmem : eid ∈ idsOf st0 := nlook_mem_fst he
              have hrem5 : remainingIds (updateEntry st4 eid
                  (fun e2 => { e2 with changed := false }))
                  (seenOpt.getD [] ++ [eid]) < f := by
                have hidsE : idsOf (updateEntry st4 eid
                    (fun e2 => { e2 with changed := false })) = idsOf st0 := by
                  rw [idsOf_updateEntry, hS1, hids3]
                rw [remainingIds_congr hidsE]
                have hlt : remainingIds st0 (seenOpt.getD [] ++ [eid]) <
                    remainingIds st0 (seenOpt.getD []) :=
                  remainingIds_snoc_lt hmem hcon
                have heq0 : remainingIds st0 (seenOpt.getD []) =
                    remainingIds st (seenOpt.getD []) :=
                  remainingIds_congr hids0 _
                have hle : remainingIds st0 (seenOpt.getD []) ≤ f := by
                  rw [heq0]
                  exact Nat.lt_succ_iff.1 hrem
                exact Nat.lt_of_lt_of_le hlt hle
              rw [hseen1]
              exact runParents_no_out f (updateBindings f)
                (fun pid n2 p2 s2 st2 hr => ih pid n2 p2 (some s2) st2 hr)
                (fun pid n2 p2 s2 st2 => idsOf_updateBindings f pid n2 p2 s2 st2)
                (fun pid n2 p2 s2 st2 y hy =>
                  seen_mono_updateBindings f pid n2 p2 (some s2) st2 y hy)
                pm (escalateUpdateType ut) _ _ hrem5

theorem ub_guard_return (fuel eid : Nat) (names : Option (List String))
    (ut : UpdateType) (seen : List Nat) (st : State) (e : EntryRec)
    (he : nlook st.entries eid = some e)
    (hg : (e.circular || ut == UpdateType.live || ut == UpdateType.init) = true)
    (hs : seen.contains eid = true) :
    updateBindings (fuel + 1) eid names ut (some seen) st =
      (pushEvent st (Event.ubCall eid names ut (some seen)), seen,
        UBStatus.ok) := by
  show ubGo (updateBindings fuel) eid names ut (some seen)
    (pushEvent st (Event.ubCall eid names ut (some seen))) = _
  unfold ubGo
  rw [entries_pushEvent, he]
  dsimp only
  rw [hg, hs]
  rfl

/-- State for the C1 guard witness: a single circular entry. -/
def c1CircState : State :=
  mkState [(0, { baseEntry "C" .esm with circular := true })]

set_option maxHeartbeats 4000000 in
/-- **C1 counterexample**: in a diamond graph (exporter `D` = 0 with
setter-parents `B` = 1 and `A` = 3, `B` with a setter-parent `A`), one
propagation rooted at `D` with the `live` kind runs `A`'s body twice:
`A` fires no setters of its own, records no pending parents, and so is
never added to the visited set, letting `B`'s parent recursion re-enter
it. This refutes "each participating module's body is executed at most
once per propagation call tree". -/
theorem C1_counterexample :
    bodyRunCount (updateBindings 3 0 none UpdateType.live none c1State).1.trace
      3 = 2 ∧
    (updateBindings 3 0 none UpdateType.live none c1State).2.2 =
      UBStatus.ok := by
  decide

/-- **C1 (amended)**: `updateBindings` terminates on every import graph —
with fuel exceeding the number of module ids not yet visited, no call runs
out of fuel (each recursion into parents strictly shrinks the set of
unvisited ids, since the guard forces re-entry on a visited record to
return before its body) — and the cycle guard holds as stated: a call on a
record that is circular or reached with kind `live`/`init` and already in
the visited set returns immediately, changing nothing but the ghost trace.
The at-most-once part of the original claim is dropped: a participating
record that fires no setters records no pending parents, is never added to
the visited set, and so can have its body run more than once in one
propagation call tree (see the counterexample). -/
theorem C1_termination_and_guard :
    (∀ (fuel eid : Nat) (names : Option (List String)) (ut : UpdateType)
      (seenOpt : Option (List Nat)) (st : State),
      remainingIds st (seenOpt.getD []) < fuel →
      (updateBindings fuel eid names ut seenOpt st).2.2 ≠
        UBStatus.outOfFuel) ∧
    (∀ (fuel eid : Nat) (names : Option (List String)) (ut : UpdateType)
      (seen : List Nat) (st : State) (e : EntryRec),
      nlook st.entries eid = some e →
      (e.circular || ut == UpdateType.live || ut == UpdateType.init) =
        true →
      seen.contains eid = true →
      updateBindings (fuel + 1) eid names ut (some seen) st =
        (pushEvent st (Event.ubCall eid names ut (some seen)), seen,
          UBStatus.ok)) :=
  ⟨ub_no_out,
   fun fuel eid names ut seen st e he hg hs =>
     ub_guard_return fuel eid names ut seen st e he hg hs⟩

/-- C1 witness: the termination bound at the counterexample state with
fuel 5, and the guard equation on a circular single-entry state already in
the visited set. -/
theorem C1_termination_and_guard_witness :
    ((updateBindings 5 0 none UpdateType.live none c1State).2.2 ≠
      UBStatus.outOfFuel) ∧
    updateBindings 1 0 none UpdateType.dflt (some [0]) c1CircState =
      (pushEvent c1CircState (Event.ubCall 0 none UpdateType.dflt
        (some [0])), [0], UBStatus.ok) :=
  ⟨C1_termination_and_guard.1 5 0 none UpdateType.live none c1State
    (by decide),
   C1_termination_and_guard.2 0 0 none UpdateType.dflt [0] c1CircState
    { baseEntry "C" .esm with circular := true } rfl rfl rfl⟩
